import Mathlib

/-!
# MessagePack flattening codec (`schema_util.c`)

A shallow embedding of `preprocess_msgpack` (the stream decoder that flattens a
MessagePack document into two parallel arrays) and of `create_msgpack` (the
stream encoder that re-emits MessagePack from those arrays and two data banks),
followed by theorems about them.

Conventions of the embedding:

* a `uint8_t` is a `Fin 256`; wider machine integers are `Nat` reduced
  modulo `2 ^ 32` / `2 ^ 64` at the places where the C code truncates;
* pointers into the input are offsets from its first byte, pointers into the
  output arrays are indices; a data bank pointer is the END of a byte list;
* `struct Value` is a union; it is modelled by its two views, the 64 bit scalar
  word (`ival` / `uval` / `dval`) and the pair `(xlen, xoff)`; a view that the
  code does not write for a slot is `0` in the model (in C it keeps what the
  buffer held), and no case reads a view other than the one written for the
  slot's tag;
* `size_t`, `ssize_t` and pointers are 64 bits wide, so offsets and counts
  other than the `uint32_t` variables do not wrap;
* `malloc` / `realloc` never fail, so the output arrays are lists that grow by
  appending; the capacity bookkeeping does not change what is written.
-/

namespace SchemaUtil

/-- A `uint8_t`. -/
abbrev Byte := Fin 256

/-! ## `enum TypeId` -/

abbrev NilValue : Nat := 1
abbrev FalseValue : Nat := 2
abbrev TrueValue : Nat := 3
abbrev LongValue : Nat := 4
abbrev UlongValue : Nat := 5
abbrev FloatValue : Nat := 6
abbrev DoubleValue : Nat := 7
abbrev StringValue : Nat := 8
abbrev BinValue : Nat := 9
abbrev ExtValue : Nat := 10
abbrev ArrayValue : Nat := 11
abbrev MapValue : Nat := 12
abbrev CopyCommand : Nat := 20

/-- The record `struct Value`: `uval` is the 64 bit word shared by the members
`ival`, `uval` and `dval`; `xlen` and `xoff` are the two `uint32_t` members. -/
structure Value where
  uval : Nat := 0
  xlen : Nat := 0
  xoff : Nat := 0
deriving DecidableEq, Repr

/-- The member `ival`: the 64 bit word read as a two's complement integer. -/
def Value.ival (v : Value) : Int :=
  if v.uval < 2 ^ 63 then (v.uval : Int) else (v.uval : Int) - 2 ^ 64

/-- The assignment `v->xoff = x`. -/
def Value.with_xoff (v : Value) (x : Nat) : Value :=
  { uval := v.uval, xlen := v.xlen, xoff := x }

/-- Truncation to `uint32_t`. -/
abbrev u32 (n : Nat) : Nat := n % 2 ^ 32

/-- The initial value of `patch`, `(uint32_t)-1`. -/
abbrev NO_PATCH : Nat := 2 ^ 32 - 1

/-! ## Reading the input -/

/-- The byte `mi[i]` as a number (the caller has checked `i` against `me`). -/
def rd (inp : List Byte) (i : Nat) : Nat := (inp.getD i 0).val

/-- The macro `net2host16` applied to the two bytes at offset `i`. -/
def net2host16 (inp : List Byte) (i : Nat) : Nat :=
  rd inp i * 256 + rd inp (i + 1)

/-- The macro `net2host32` applied to the four bytes at offset `i`. -/
def net2host32 (inp : List Byte) (i : Nat) : Nat :=
  net2host16 inp i * 65536 + net2host16 inp (i + 2)

/-- The macro `net2host64` applied to the eight bytes at offset `i`. -/
def net2host64 (inp : List Byte) (i : Nat) : Nat :=
  net2host32 inp i * 4294967296 + net2host32 inp (i + 4)

/-- The conversion of a `w` bit two's complement number to `int64_t`, as a
64 bit word: `(int8_t)x`, `(int16_t)x`, `(int32_t)x` stored into `ival`. -/
def sext (w : Nat) (x : Nat) : Nat :=
  if x < 2 ^ (w - 1) then x else x + 2 ^ 64 - 2 ^ w

/-! ## Floating point conversions

`value->dval = ux.f32` widens a binary32 to a binary64 and
`ux.f32 = (float)value->dval` narrows it again. Both are given on IEEE-754 bit
patterns (round to nearest even, NaNs quieted, payload kept). -/

/-- Widen the bit pattern of a binary32 to the bit pattern of the equal binary64. -/
def f32_to_f64 (b : Nat) : Nat :=
  let s := b / 2 ^ 31 % 2
  let e := b / 2 ^ 23 % 2 ^ 8
  let m := b % 2 ^ 23
  if e = 255 then
    s * 2 ^ 63 + 2047 * 2 ^ 52 + (if m = 0 then 0 else 2 ^ 51 + m % 2 ^ 22 * 2 ^ 29)
  else if e = 0 then
    if m = 0 then s * 2 ^ 63
    else
      let k := Nat.log2 m
      s * 2 ^ 63 + (k + 874) * 2 ^ 52 + (m - 2 ^ k) * 2 ^ (52 - k)
  else s * 2 ^ 63 + (e + 896) * 2 ^ 52 + m * 2 ^ 29

/-- Divide by `2 ^ sh`, rounding to nearest, ties to even. -/
def round_shift (x sh : Nat) : Nat :=
  let q := x / 2 ^ sh
  let r := x % 2 ^ sh
  if 2 * r < 2 ^ sh then q
  else if 2 * r = 2 ^ sh then (if q % 2 = 0 then q else q + 1)
  else q + 1

/-- Narrow the bit pattern of a binary64 to the bit pattern of the nearest binary32. -/
def f64_to_f32 (b : Nat) : Nat :=
  let s := b / 2 ^ 63 % 2
  let e := b / 2 ^ 52 % 2 ^ 11
  let m := b % 2 ^ 52
  if e = 2047 then
    s * 2 ^ 31 + 255 * 2 ^ 23 + (if m = 0 then 0 else 2 ^ 22 + m / 2 ^ 29 % 2 ^ 22)
  else if e ≤ 872 then
    -- below half of the least subnormal binary32
    s * 2 ^ 31
  else if e ≤ 896 then
    -- subnormal range of binary32: the quantum is 2 ^ (-149)
    s * 2 ^ 31 + round_shift (2 ^ 52 + m) (926 - e)
  else
    let r := round_shift (2 ^ 52 + m) 29
    let bits := (e - 896) * 2 ^ 23 + (r - 2 ^ 23)
    s * 2 ^ 31 + (if bits ≥ 255 * 2 ^ 23 then 255 * 2 ^ 23 else bits)

deriving instance DecidableEq for Except

/-! ## The decoder `preprocess_msgpack` -/

/-- The ways the decoder model stops without a result. `underflow` and `c1` are
the labels `error_underflow` and `error_c1` (both return `-1`); `fault` is a
read or write outside the value array through `patch`; `fuel` is the iteration
bound of the model running out. -/
inductive DErr where
  | underflow
  | c1
  | fault
  | fuel
deriving DecidableEq, Repr

/-- What one pass through the `switch (*mi)` produces. -/
inductive Elem where
  /-- A slot is written and control goes to `repeat`. -/
  | item (tag : Nat) (v : Value) (mi : Nat)
  /-- A container header: control goes to `setup_nested` with the local `len`. -/
  | nested (tag : Nat) (xlen : Nat) (len : Nat) (mi : Nat)
  /-- One of the `goto error_...`. -/
  | err (e : DErr)
deriving DecidableEq, Repr

/-- The label `do_xdata`: `mi` is the offset of the last header byte, `len` the
payload length; `me` is `inp.length`. -/
def do_xdata (inp : List Byte) (tag : Nat) (len : Nat) (mi : Nat) : Elem :=
  if mi + len + 1 > inp.length then .err .underflow
  else .item tag { xlen := len, xoff := u32 (inp.length - mi - 1) } (mi + len + 1)

/-- The `switch (*mi)` of `preprocess_msgpack`, entered with `mi != me`. -/
def parse (inp : List Byte) (mi : Nat) : Elem :=
  let me := inp.length
  let b := rd inp mi
  if b ≤ 0x7f then
    -- positive fixint
    .item LongValue { uval := b } (mi + 1)
  else if b ≤ 0x8f then
    -- fixmap
    .nested MapValue (b - 0x80) ((b - 0x80) * 2) (mi + 1)
  else if b ≤ 0x9f then
    -- fixarray
    .nested ArrayValue (b - 0x90) (b - 0x90) (mi + 1)
  else if b ≤ 0xbf then
    -- fixstr
    do_xdata inp StringValue (b - 0xa0) mi
  else if b = 0xc0 then .item NilValue {} (mi + 1)
  else if b = 0xc1 then .err .c1
  else if b = 0xc2 then .item FalseValue {} (mi + 1)
  else if b = 0xc3 then .item TrueValue {} (mi + 1)
  else if b = 0xc4 then
    -- bin 8
    if mi + 2 > me then .err .underflow
    else do_xdata inp BinValue (rd inp (mi + 1)) (mi + 1)
  else if b = 0xc5 then
    -- bin 16
    if mi + 3 > me then .err .underflow
    else do_xdata inp BinValue (net2host16 inp (mi + 1)) (mi + 2)
  else if b = 0xc6 then
    -- bin 32
    if mi + 5 > me then .err .underflow
    else do_xdata inp BinValue (net2host32 inp (mi + 1)) (mi + 4)
  else if b = 0xc7 then
    -- ext 8
    if mi + 2 > me then .err .underflow
    else do_xdata inp ExtValue (rd inp (mi + 1) + 1) (mi + 1)
  else if b = 0xc8 then
    -- ext 16
    if mi + 3 > me then .err .underflow
    else do_xdata inp ExtValue (net2host16 inp (mi + 1)) (mi + 2)
  else if b = 0xc9 then
    -- ext 32
    if mi + 5 > me then .err .underflow
    else do_xdata inp ExtValue (net2host32 inp (mi + 1)) (mi + 4)
  else if b = 0xca then
    -- float 32
    if mi + 5 > me then .err .underflow
    else .item FloatValue { uval := f32_to_f64 (net2host32 inp (mi + 1)) } (mi + 5)
  else if b = 0xcb then
    -- float 64
    if mi + 9 > me then .err .underflow
    else .item DoubleValue { uval := net2host64 inp (mi + 1) } (mi + 9)
  else if b = 0xcc then
    -- uint 8
    if mi + 2 > me then .err .underflow
    else .item LongValue { uval := rd inp (mi + 1) } (mi + 2)
  else if b = 0xcd then
    -- uint 16
    if mi + 3 > me then .err .underflow
    else .item LongValue { uval := net2host16 inp (mi + 1) } (mi + 3)
  else if b = 0xce then
    -- uint 32
    if mi + 5 > me then .err .underflow
    else .item LongValue { uval := net2host32 inp (mi + 1) } (mi + 5)
  else if b = 0xcf then
    -- uint 64
    if mi + 9 > me then .err .underflow
    else
      let v := net2host64 inp (mi + 1)
      if v > 2 ^ 63 - 1 then .item UlongValue { uval := v } (mi + 9)
      else .item LongValue { uval := v } (mi + 9)
  else if b = 0xd0 then
    -- int 8
    if mi + 2 > me then .err .underflow
    else .item LongValue { uval := sext 8 (rd inp (mi + 1)) } (mi + 2)
  else if b = 0xd1 then
    -- int 16
    if mi + 3 > me then .err .underflow
    else .item LongValue { uval := sext 16 (net2host16 inp (mi + 1)) } (mi + 3)
  else if b = 0xd2 then
    -- int 32
    if mi + 5 > me then .err .underflow
    else .item LongValue { uval := sext 32 (net2host32 inp (mi + 1)) } (mi + 5)
  else if b = 0xd3 then
    -- int 64
    if mi + 9 > me then .err .underflow
    else .item LongValue { uval := net2host64 inp (mi + 1) } (mi + 9)
  else if b = 0xd4 ∨ b = 0xd5 then
    -- fixext 1, 2
    do_xdata inp ExtValue (b - 0xd3) mi
  else if b = 0xd6 then
    -- fixext 4
    do_xdata inp ExtValue 5 mi
  else if b = 0xd7 then
    -- fixext 8
    do_xdata inp ExtValue 9 mi
  else if b = 0xd8 then
    -- fixext 16
    do_xdata inp ExtValue 17 mi
  else if b = 0xd9 then
    -- str 8
    if mi + 2 > me then .err .underflow
    else do_xdata inp StringValue (rd inp (mi + 1)) (mi + 1)
  else if b = 0xda then
    -- str 16
    if mi + 3 > me then .err .underflow
    else do_xdata inp StringValue (net2host16 inp (mi + 1)) (mi + 2)
  else if b = 0xdb then
    -- str 32
    if mi + 5 > me then .err .underflow
    else do_xdata inp StringValue (net2host32 inp (mi + 1)) (mi + 4)
  else if b = 0xdc then
    -- array 16
    if mi + 3 > me then .err .underflow
    else .nested ArrayValue (net2host16 inp (mi + 1)) (net2host16 inp (mi + 1)) (mi + 3)
  else if b = 0xdd then
    -- array 32
    if mi + 5 > me then .err .underflow
    else .nested ArrayValue (net2host32 inp (mi + 1)) (net2host32 inp (mi + 1)) (mi + 5)
  else if b = 0xde then
    -- map 16
    if mi + 3 > me then .err .underflow
    else .nested MapValue (net2host16 inp (mi + 1)) (net2host16 inp (mi + 1) * 2) (mi + 3)
  else if b = 0xdf then
    -- map 32: `len` is not doubled here
    if mi + 5 > me then .err .underflow
    else .nested MapValue (net2host32 inp (mi + 1)) (net2host32 inp (mi + 1)) (mi + 5)
  else
    -- negative fixint
    .item LongValue { uval := sext 8 b } (mi + 1)

/-- The outcome of the loop `while (todo -- == 0) { ... }`. -/
inductive Closed where
  /-- The loop reached `goto done`. -/
  | done (value : List Value)
  /-- The loop ended with `todo != 0` (already decremented here). -/
  | more (todo patch : Nat) (stack : List Nat) (value : List Value)
  /-- The slot `value_buf + patch` lies outside the array. -/
  | fault
deriving DecidableEq, Repr

/-- The loop `while (todo -- == 0)` that closes finished containers: it pops the
saved `todo`, follows `patch` to the innermost open header, restores the
previous `patch` from its `xoff` and stores the distance `value - fixit` there.
The write cursor `value - value_buf` is `value.length`; the head of `stack` is
the top of the C stack. -/
def close_loop (todo patch : Nat) (stack : List Nat) (value : List Value) : Closed :=
  if todo ≠ 0 then .more (todo - 1) patch stack value
  else
    match stack with
    | [] => .done value
    | t :: stack =>
      match value[patch]? with
      | none => .fault
      | some fixit =>
        close_loop t fixit.xoff stack
          (value.set patch (fixit.with_xoff (u32 (value.length - patch))))

/-- The decoder's registers at the label `repeat` (after `value++; typeid++`). -/
structure DState where
  mi : Nat
  typeid : List Nat
  value : List Value
  todo : Nat
  patch : Nat
  stack : List Nat
deriving DecidableEq, Repr

/-- What `preprocess_msgpack` hands back on success: the return value and the
two arrays `*typeid_out`, `*value_out`. -/
structure Decoded where
  n_items : Nat
  typeid : List Nat
  value : List Value
deriving DecidableEq, Repr

/-- The body of the function from the label `repeat` on, iterated at most `fuel`
times. -/
def run (inp : List Byte) : Nat → DState → Except DErr Decoded
  | 0, _ => .error .fuel
  | fuel + 1, s =>
    match close_loop s.todo s.patch s.stack s.value with
    | .fault => .error .fault
    | .done value => .ok { n_items := s.typeid.length, typeid := s.typeid, value := value }
    | .more todo patch stack value =>
      if s.mi = inp.length then .error .underflow
      else
        match parse inp s.mi with
        | .err e => .error e
        | .item tag v mi =>
          run inp fuel
            { mi := mi, typeid := s.typeid ++ [tag], value := value ++ [v],
              todo := todo, patch := patch, stack := stack }
        | .nested tag xlen len mi =>
          -- setup_nested
          run inp fuel
            { mi := mi, typeid := s.typeid ++ [tag],
              value := value ++ [{ xlen := xlen, xoff := patch }],
              todo := len, patch := u32 value.length, stack := todo :: stack }

/-- The registers on entry: `todo = 1`, `patch = -1`, an empty stack. -/
def DState.init : DState :=
  { mi := 0, typeid := [], value := [], todo := 1, patch := NO_PATCH, stack := [] }

/-- The function `preprocess_msgpack` on the input `mi[0 .. ms)`. Every
iteration consumes at least one input byte, so `ms + 1` iterations suffice. -/
def preprocess_msgpack (inp : List Byte) : Except DErr Decoded :=
  run inp (inp.length + 1) DState.init

/-! ## The encoder `create_msgpack` -/

/-- The cast `(uint8_t)x`. -/
def u8 (n : Nat) : Byte := ⟨n % 256, Nat.mod_lt _ (by decide)⟩

/-- The two bytes stored by `unaligned(p)->u16 = host2net16(x)`. -/
def host2net16 (x : Nat) : List Byte := [u8 (x / 256), u8 x]

/-- The four bytes stored by `unaligned(p)->u32 = host2net32(x)`. -/
def host2net32 (x : Nat) : List Byte := host2net16 (x / 65536) ++ host2net16 x

/-- The eight bytes stored by `unaligned(p)->u64 = host2net64(x)`. -/
def host2net64 (x : Nat) : List Byte := host2net32 (x / 4294967296) ++ host2net32 x

/-- The `len` bytes at `bank - xoff`, where `bank` points at the end of the
bank; `none` when that range is not inside the bank. -/
def bank_read (bank : List Byte) (xoff len : Nat) : Option (List Byte) :=
  if xoff ≤ bank.length ∧ len ≤ xoff then
    some ((bank.drop (bank.length - xoff)).take len)
  else none

/-- The ways the encoder model stops without a result: `badcode` is the label
`error_badcode` (returns `-1`); `fault` is a read outside a data bank or
outside the two input arrays. -/
inductive EErr where
  | badcode
  | fault
deriving DecidableEq, Repr

/-- The label `check_buf`: the header is in place, nothing is copied and
`copy_from` keeps its value. -/
def check_buf (copy_from out hdr : List Byte) : Except EErr (List Byte × List Byte) :=
  .ok (out ++ hdr, copy_from)

/-- The label `copy_data`: `xlen` bytes at `copy_from - xoff` are appended and
`copy_from` is set back to `bank1`. -/
def copy_data (bank1 copy_from out hdr : List Byte) (v : Value) :
    Except EErr (List Byte × List Byte) :=
  match bank_read copy_from v.xoff v.xlen with
  | none => .error .fault
  | some data => .ok (out ++ hdr ++ data, bank1)

/-- The integer branch shared by `LongValue` (after the fall through) and
`UlongValue`: the unsigned presentations. -/
def emit_ulong (uval : Nat) : List Byte :=
  if uval ≤ 0x7f then [u8 uval]
  else if uval ≤ 255 then [0xcc, u8 uval]
  else if uval ≤ 65535 then 0xcd :: host2net16 uval
  else if uval ≤ 4294967295 then 0xce :: host2net32 uval
  else 0xcf :: host2net64 uval

/-- The branch `case LongValue`: signed presentations for the words above
`INT64_MAX`, the unsigned ones otherwise. -/
def emit_long (uval : Nat) : List Byte :=
  if uval > 2 ^ 63 - 1 then
    if uval ≥ 2 ^ 64 - 0x20 then [u8 uval]
    else if uval ≥ 2 ^ 64 - 2 ^ 7 then [0xd0, u8 uval]
    else if uval ≥ 2 ^ 64 - 2 ^ 15 then 0xd1 :: host2net16 uval
    else if uval ≥ 2 ^ 64 - 2 ^ 31 then 0xd2 :: host2net32 uval
    else 0xd3 :: host2net64 uval
  else emit_ulong uval

/-- One iteration of the `for` loop of `create_msgpack`: the bytes already
written are `out`, the result is the new `out` and the new `copy_from`.
`junk i` is what the output buffer holds at offset `i` before the call writes
there (the `str 16` and `str 32` branches leave `out[0]` as it was). -/
def emit (junk : Nat → Byte) (bank1 bank2 copy_from out : List Byte) (tag : Nat) (v : Value) :
    Except EErr (List Byte × List Byte) :=
  if tag = NilValue then check_buf copy_from out [0xc0]
  else if tag = FalseValue then check_buf copy_from out [0xc2]
  else if tag = TrueValue then check_buf copy_from out [0xc3]
  else if tag = LongValue then check_buf copy_from out (emit_long v.uval)
  else if tag = UlongValue then check_buf copy_from out (emit_ulong v.uval)
  else if tag = FloatValue then
    check_buf copy_from out (0xca :: host2net32 (f64_to_f32 v.uval))
  else if tag = DoubleValue then check_buf copy_from out (0xcb :: host2net64 v.uval)
  else if tag = StringValue then
    if v.xlen ≤ 31 then copy_data bank1 copy_from out [u8 (0xa0 + v.xlen)] v
    else if v.xlen ≤ 255 then copy_data bank1 copy_from out [0xd9, u8 v.xlen] v
    else if v.xlen ≤ 65535 then
      -- `out[1] = 0xda` is overwritten by the length, `out[0]` is not written
      copy_data bank1 copy_from out (junk out.length :: host2net16 v.xlen) v
    else
      -- `out[1] = 0xdb` is overwritten by the length, `out[0]` is not written
      copy_data bank1 copy_from out (junk out.length :: host2net32 v.xlen) v
  else if tag = BinValue then
    if v.xlen ≤ 255 then copy_data bank1 copy_from out [0xc4, u8 v.xlen] v
    else if v.xlen ≤ 65535 then copy_data bank1 copy_from out (0xc5 :: host2net16 v.xlen) v
    else copy_data bank1 copy_from out (0xc6 :: host2net32 v.xlen) v
  else if tag = ExtValue then
    if v.xlen = 2 then
      -- fixext 1
      match bank_read copy_from v.xoff 2 with
      | none => .error .fault
      | some data => check_buf copy_from out (0xd4 :: data)
    else if v.xlen = 3 then
      -- fixext 2
      match bank_read copy_from v.xoff 3 with
      | none => .error .fault
      | some data => check_buf copy_from out (0xd5 :: data)
    else if v.xlen = 5 then
      -- fixext 4
      match bank_read copy_from v.xoff 5 with
      | none => .error .fault
      | some data => check_buf copy_from out (0xd6 :: data)
    else if v.xlen = 9 then
      -- fixext 8: the opcode written is `0xd5`
      match bank_read copy_from v.xoff 9 with
      | none => .error .fault
      | some data => check_buf copy_from out (0xd5 :: data)
    else if v.xlen = 17 then
      -- fixext 16
      copy_data bank1 copy_from out [0xd8] v
    else if u32 (v.xlen + 2 ^ 32 - 1) ≤ 255 then
      copy_data bank1 copy_from out [0xc7, u8 (u32 (v.xlen + 2 ^ 32 - 1))] v
    else if u32 (v.xlen + 2 ^ 32 - 1) ≤ 65535 then
      copy_data bank1 copy_from out (0xc8 :: host2net16 (u32 (v.xlen + 2 ^ 32 - 1))) v
    else copy_data bank1 copy_from out (0xc9 :: host2net32 (u32 (v.xlen + 2 ^ 32 - 1))) v
  else if tag = ArrayValue then
    if v.xlen ≤ 15 then check_buf copy_from out [u8 (0x90 + v.xlen)]
    else if v.xlen ≤ 65535 then check_buf copy_from out (0xdc :: host2net16 v.xlen)
    else check_buf copy_from out (0xdd :: host2net32 v.xlen)
  else if tag = MapValue then
    if v.xlen ≤ 15 then check_buf copy_from out [u8 (0x80 + v.xlen)]
    else if v.xlen ≤ 65535 then check_buf copy_from out (0xde :: host2net16 v.xlen)
    else check_buf copy_from out (0xdf :: host2net32 v.xlen)
  else if tag = CopyCommand then
    -- `copy_from = bank2; goto copy_data;`
    copy_data bank1 bank2 out [] v
  else .error .badcode

/-- The `for` loop of `create_msgpack` over the remaining slots. -/
def encode_loop (junk : Nat → Byte) (bank1 bank2 : List Byte) :
    List (Nat × Value) → List Byte → List Byte → Except EErr (List Byte)
  | [], _, out => .ok out
  | (tag, v) :: rest, copy_from, out =>
    match emit junk bank1 bank2 copy_from out tag v with
    | .error e => .error e
    | .ok (out, copy_from) => encode_loop junk bank1 bank2 rest copy_from out

/-- The function `create_msgpack`: the first `nitems` slots of the two arrays
are encoded; the result is the output buffer `out_buf[0 .. return value)`. -/
def create_msgpack (junk : Nat → Byte) (nitems : Nat) (typeid : List Nat) (value : List Value)
    (bank1 bank2 : List Byte) : Except EErr (List Byte) :=
  if typeid.length < nitems ∨ value.length < nitems then .error .fault
  else encode_loop junk bank1 bank2 ((typeid.take nitems).zip (value.take nitems)) bank1 []

/-! ## Notions used to state the properties -/

/-- The tags of the two container headers. -/
def is_container (tag : Nat) : Prop := tag = ArrayValue ∨ tag = MapValue

instance (tag : Nat) : Decidable (is_container tag) := by
  unfold is_container; infer_instance

/-- The size of the subtree that starts at slot `i`: the `xoff` of a container
header, `1` for any other slot. -/
def subtree_size (typeid : List Nat) (value : List Value) (i : Nat) : Nat :=
  if is_container (typeid.getD i 0) then (value.getD i {}).xoff else 1

/-- The slots `[i, j)` consist of exactly `k` complete subtrees laid out in
preorder: `k` times a step over one subtree of size at least `1`, landing on `j`. -/
def subtrees (typeid : List Nat) (value : List Value) : Nat → Nat → Nat → Prop
  | 0, i, j => i = j
  | k + 1, i, j =>
    1 ≤ subtree_size typeid value i ∧
      subtrees typeid value k (i + subtree_size typeid value i) j

instance subtrees_decidable (typeid : List Nat) (value : List Value) :
    ∀ k i j, Decidable (subtrees typeid value k i j)
  | 0, i, j => inferInstanceAs (Decidable (i = j))
  | k + 1, i, j =>
    @instDecidableAnd _ _ _ (subtrees_decidable typeid value k (i + subtree_size typeid value i) j)

/-- The tags of the three kinds of slots that carry a payload in a data bank. -/
def is_payload (tag : Nat) : Prop := tag = StringValue ∨ tag = BinValue ∨ tag = ExtValue

instance (tag : Nat) : Decidable (is_payload tag) := by
  unfold is_payload; infer_instance

/-- The number of bytes before the payload of a payload-bearing element whose
first byte is `b`: the opcode alone for fixstr and fixext, the opcode and a
length of 1, 2 or 4 bytes for the `8`, `16` and `32` forms. -/
def hdr_len (b : Nat) : Nat :=
  if b = 0xc4 ∨ b = 0xc7 ∨ b = 0xd9 then 2
  else if b = 0xc5 ∨ b = 0xc8 ∨ b = 0xda then 3
  else if b = 0xc6 ∨ b = 0xc9 ∨ b = 0xdb then 5
  else 1

/-- The number a big-endian byte string denotes. -/
def be_nat (bs : List Byte) : Nat := bs.foldl (fun acc b => acc * 256 + b.val) 0

/-- The two's complement integer a big-endian byte string denotes. -/
def be_int (bs : List Byte) : Int :=
  if be_nat bs < 2 ^ (8 * bs.length - 1) then (be_nat bs : Int)
  else (be_nat bs : Int) - 2 ^ (8 * bs.length)

/-- A `fixext 8` element: opcode `0xd7`, subtype `0`, eight data bytes. -/
def fixext8_doc : List Byte := [0xd7, 0, 1, 2, 3, 4, 5, 6, 7, 8]

/-- A `map 32` holding the single pair `1 ↦ 2`. -/
def map32_doc : List Byte := [0xdf, 0, 0, 0, 1, 0x01, 0x02]

/-- The same map with a `map 16` header. -/
def map16_doc : List Byte := [0xde, 0, 1, 0x01, 0x02]

/-- A two element array: a `fixext 1` (subtype `5`, data byte `7`), then nil. -/
def fixext1_in_array : List Byte := [0x92, 0xd4, 5, 7, 0xc0]

/-- A `fixext 1` header and subtype whose data byte is missing. -/
def fixext1_cut : List Byte := [0xd4, 5]

/-- The integer wire forms of MessagePack, each with its big-endian body. -/
inductive IntWire where
  | posfix (n : Fin 128)
  | negfix (n : Fin 32)
  | uint8 (b0 : Byte)
  | uint16 (b0 b1 : Byte)
  | uint32 (b0 b1 b2 b3 : Byte)
  | uint64 (b0 b1 b2 b3 b4 b5 b6 b7 : Byte)
  | int8 (b0 : Byte)
  | int16 (b0 b1 : Byte)
  | int32 (b0 b1 b2 b3 : Byte)
  | int64 (b0 b1 b2 b3 b4 b5 b6 b7 : Byte)

/-- The bytes of an integer wire form. -/
def IntWire.bytes : IntWire → List Byte
  | .posfix n => [u8 n.val]
  | .negfix n => [u8 (0xe0 + n.val)]
  | .uint8 b0 => [0xcc, b0]
  | .uint16 b0 b1 => [0xcd, b0, b1]
  | .uint32 b0 b1 b2 b3 => [0xce, b0, b1, b2, b3]
  | .uint64 b0 b1 b2 b3 b4 b5 b6 b7 => [0xcf, b0, b1, b2, b3, b4, b5, b6, b7]
  | .int8 b0 => [0xd0, b0]
  | .int16 b0 b1 => [0xd1, b0, b1]
  | .int32 b0 b1 b2 b3 => [0xd2, b0, b1, b2, b3]
  | .int64 b0 b1 b2 b3 b4 b5 b6 b7 => [0xd3, b0, b1, b2, b3, b4, b5, b6, b7]

/-- The mathematical integer an integer wire form denotes: unsigned forms are
read as natural numbers, signed forms and the negative fixint in two's
complement. -/
def IntWire.denote : IntWire → Int
  | .posfix n => n.val
  | .negfix n => (n.val : Int) - 32
  | .uint8 b0 => be_nat [b0]
  | .uint16 b0 b1 => be_nat [b0, b1]
  | .uint32 b0 b1 b2 b3 => be_nat [b0, b1, b2, b3]
  | .uint64 b0 b1 b2 b3 b4 b5 b6 b7 => be_nat [b0, b1, b2, b3, b4, b5, b6, b7]
  | .int8 b0 => be_int [b0]
  | .int16 b0 b1 => be_int [b0, b1]
  | .int32 b0 b1 b2 b3 => be_int [b0, b1, b2, b3]
  | .int64 b0 b1 b2 b3 b4 b5 b6 b7 => be_int [b0, b1, b2, b3, b4, b5, b6, b7]

/-- The 64 bit word that holds the integer `d` in two's complement. -/
def word64 (d : Int) : Nat := (d % 2 ^ 64).toNat

/-- An `array 32` header announcing `K` elements, followed by `K` nil bytes. -/
def array32_of_nils (K : Nat) : List Byte :=
  [0xdd, u8 (K / 16777216), u8 (K / 65536), u8 (K / 256), u8 K] ++ List.replicate K 0xc0

/-- A slot after `k` bytes were appended to the input: the `xoff` of a Str,
Bin or Ext slot grows by `k`, every other slot is unchanged. -/
def shift_slot (k : Nat) (tag : Nat) (v : Value) : Value :=
  if is_payload tag then v.with_xoff (v.xoff + k) else v

/-- The value array after `k` bytes were appended to the input. -/
def shift_payload (k : Nat) (typeid : List Nat) (value : List Value) : List Value :=
  List.zipWith (shift_slot k) typeid value

/-- The outcome of the closing loop with the value array replaced. -/
def Closed.map (g : List Value → List Value) : Closed → Closed
  | .done V => .done (g V)
  | .more todo patch stack V => .more todo patch stack (g V)
  | .fault => .fault

/-- A tail of `2 ^ 32` zero bytes. -/
def tail_4GiB : List Byte := List.replicate (2 ^ 32) 0

/-- The tag the claim gives to an integer wire form: UlongInt above
`2 ^ 63 - 1`, LongInt otherwise. -/
def IntWire.tag (w : IntWire) : Nat :=
  if 2 ^ 63 - 1 < w.denote then UlongValue else LongValue

/-- The `k` low bytes of `n`, most significant first. -/
def be_bytes : Nat → Nat → List Byte
  | 0, _ => []
  | k + 1, n => u8 (n / 256 ^ k) :: be_bytes k n

/-- The `k` byte two's complement pattern of the integer `v`. -/
def twos (k : Nat) (v : Int) : Nat := (v % 2 ^ (8 * k)).toNat

/-- The shortest MessagePack integer form of `v` in the family chosen by its
sign: unsigned presentations for `v ≥ 0`, signed ones for `v < 0`, each with a
big-endian two's complement body. -/
def shortest_int (v : Int) : List Byte :=
  if 0 ≤ v then
    if v ≤ 127 then be_bytes 1 (twos 1 v)
    else if v ≤ 255 then 0xcc :: be_bytes 1 (twos 1 v)
    else if v ≤ 65535 then 0xcd :: be_bytes 2 (twos 2 v)
    else if v ≤ 2 ^ 32 - 1 then 0xce :: be_bytes 4 (twos 4 v)
    else 0xcf :: be_bytes 8 (twos 8 v)
  else
    if -32 ≤ v then be_bytes 1 (twos 1 v)
    else if -128 ≤ v then 0xd0 :: be_bytes 1 (twos 1 v)
    else if -32768 ≤ v then 0xd1 :: be_bytes 2 (twos 2 v)
    else if -(2 ^ 31) ≤ v then 0xd2 :: be_bytes 4 (twos 4 v)
    else 0xd3 :: be_bytes 8 (twos 8 v)

/-! ## Notions used in the proofs -/

/-- Two pairs of arrays hold the same tag and value in every slot of `[lo, hi)`. -/
def Agree (T : List Nat) (V : List Value) (T' : List Nat) (V' : List Value) (lo hi : Nat) : Prop :=
  ∀ p, lo ≤ p → p < hi → T.getD p 0 = T'.getD p 0 ∧ V.getD p {} = V'.getD p {}

/-- Every container header in `[lo, hi)` is closed: its `xoff` is positive, its
subtree ends inside `[lo, hi)`, and an array's subtree holds `xlen` subtrees. -/
def Good (T : List Nat) (V : List Value) (lo hi : Nat) : Prop :=
  ∀ j, lo ≤ j → j < hi → is_container (T.getD j 0) →
    1 ≤ (V.getD j {}).xoff ∧ j + (V.getD j {}).xoff ≤ hi ∧
      (T.getD j 0 = ArrayValue →
        subtrees T V (V.getD j {}).xlen (j + 1) (j + (V.getD j {}).xoff))

/-- The open containers: `patch` is the innermost open header, its `xoff`
holds the next one out, and so on for each saved `todo` on the stack; `cur` is
the write cursor and `rem` the number of subtrees still missing under the
innermost open header. -/
def Chain (T : List Nat) (V : List Value) : List Nat → Nat → Nat → Nat → Prop
  | [], patch, cur, rem =>
    patch = NO_PATCH ∧ Good T V 0 cur ∧ ∃ d, subtrees T V d 0 cur ∧ d + rem = 1
  | t :: stack, patch, cur, rem =>
    patch < cur ∧ is_container (T.getD patch 0) ∧ Good T V (patch + 1) cur ∧
      (∃ d, subtrees T V d (patch + 1) cur ∧
        (T.getD patch 0 = ArrayValue → d + rem = (V.getD patch {}).xlen)) ∧
      Chain T V stack (V.getD patch {}).xoff patch (t + 1)

/-- What the closing loop leaves alone: slots that are not container headers,
and the `xlen` and scalar word of every slot. -/
def Keep (T : List Nat) (V V' : List Value) : Prop :=
  ∀ j, (¬ is_container (T.getD j 0) → V'.getD j {} = V.getD j {}) ∧
    (V'.getD j {}).xlen = (V.getD j {}).xlen ∧ (V'.getD j {}).uval = (V.getD j {}).uval

/-- Where each slot comes from: a slot that is not a container header holds
what the `switch` produced at some input offset, and a container header holds
the `xlen` the `switch` read at some input offset. -/
def Prov (inp : List Byte) (T : List Nat) (V : List Value) (n : Nat) : Prop :=
  ∀ j, j < n →
    (¬ is_container (T.getD j 0) →
      ∃ mi mi', mi < inp.length ∧ parse inp mi = .item (T.getD j 0) (V.getD j {}) mi') ∧
    (is_container (T.getD j 0) →
      ∃ mi len mi', mi < inp.length ∧
        parse inp mi = .nested (T.getD j 0) (V.getD j {}).xlen len mi')

/-- The invariant of the decoder at the label `repeat`. -/
structure Inv (inp : List Byte) (s : DState) : Prop where
  len_eq : s.typeid.length = s.value.length
  le_mi : s.value.length ≤ s.mi
  mi_le : s.mi ≤ inp.length
  chain : Chain s.typeid s.value s.stack s.patch s.value.length s.todo
  prov : Prov inp s.typeid s.value s.value.length

/-- What the invariant gives for the arrays handed back at `done`. -/
structure Final (inp : List Byte) (d : Decoded) : Prop where
  n_eq : d.n_items = d.typeid.length
  len_eq : d.typeid.length = d.value.length
  n_le : d.n_items ≤ inp.length
  good : Good d.typeid d.value 0 d.n_items
  top : subtrees d.typeid d.value 1 0 d.n_items
  prov : Prov inp d.typeid d.value d.n_items

/-- The thirteen tag values of `enum TypeId`. -/
def known_tag (tag : Nat) : Prop :=
  tag = NilValue ∨ tag = FalseValue ∨ tag = TrueValue ∨ tag = LongValue ∨ tag = UlongValue ∨
    tag = FloatValue ∨ tag = DoubleValue ∨ tag = StringValue ∨ tag = BinValue ∨
    tag = ExtValue ∨ tag = ArrayValue ∨ tag = MapValue ∨ tag = CopyCommand

instance (tag : Nat) : Decidable (known_tag tag) := by
  unfold known_tag; infer_instance

/-- The payload of a slot resolves in its bank: a Str, Bin or Ext slot names
`xlen` bytes inside `bank1`, a CopyCmd slot names `xlen` bytes inside `bank2`. -/
def Resolves (bank1 bank2 : List Byte) (tag : Nat) (v : Value) : Prop :=
  (is_payload tag → v.xlen ≤ v.xoff ∧ v.xoff ≤ bank1.length) ∧
    (tag = CopyCommand → v.xlen ≤ v.xoff ∧ v.xoff ≤ bank2.length)

/-- The bytes a slot's `(xlen, xoff)` names in a bank whose end is the bank
pointer: `xlen` bytes starting `xoff` bytes before the end. -/
def payload_bytes (bank : List Byte) (v : Value) : List Byte :=
  (bank.drop (bank.length - v.xoff)).take v.xlen

/-- The function `create_msgpack` applied to the two parallel arrays that hold
the item sequence `items`. -/
def create_items (junk : Nat → Byte) (items : List (Nat × Value)) (bank1 bank2 : List Byte) :
    Except EErr (List Byte) :=
  create_msgpack junk items.length (items.map Prod.fst) (items.map Prod.snd) bank1 bank2

/-- The string header the format prescribes for a payload of `xlen` bytes:
fixstr, str 8, str 16 or str 32, whichever is the first that holds `xlen`. -/
def str_header (xlen : Nat) : List Byte :=
  if xlen ≤ 31 then [u8 (0xa0 + xlen)]
  else if xlen ≤ 255 then 0xd9 :: be_bytes 1 xlen
  else if xlen ≤ 65535 then 0xda :: be_bytes 2 xlen
  else 0xdb :: be_bytes 4 xlen

/-- The extension header the format prescribes for `xlen` bytes of subtype and
data: the matching fixext opcode for 2, 3, 5, 9 or 17 bytes, otherwise ext 8,
ext 16 or ext 32 with the big-endian data length `xlen - 1`. -/
def ext_header (xlen : Nat) : List Byte :=
  if xlen = 2 then [0xd4]
  else if xlen = 3 then [0xd5]
  else if xlen = 5 then [0xd6]
  else if xlen = 9 then [0xd7]
  else if xlen = 17 then [0xd8]
  else if xlen - 1 ≤ 255 then 0xc7 :: be_bytes 1 (xlen - 1)
  else if xlen - 1 ≤ 65535 then 0xc8 :: be_bytes 2 (xlen - 1)
  else 0xc9 :: be_bytes 4 (xlen - 1)

/-- A bank of 256 bytes `0x61`. -/
def bank_256 : List Byte := List.replicate 256 0x61

/-- The container header the format prescribes for a count `xlen`: the single
byte `fix + xlen` up to 15, else the opcode `op16` with a 2 byte big-endian
count up to 65535, else the opcode `op32` with a 4 byte big-endian count. -/
def container_header (fix : Nat) (op16 op32 : Byte) (xlen : Nat) : List Byte :=
  if xlen ≤ 15 then [u8 (fix + xlen)]
  else if xlen ≤ 65535 then op16 :: be_bytes 2 xlen
  else op32 :: be_bytes 4 xlen

/-- The array header for a count `xlen`: fixarray, array 16 or array 32. -/
def array_header (xlen : Nat) : List Byte := container_header 0x90 0xdc 0xdd xlen

/-- The map header for a count `xlen`: fixmap, map 16 or map 32. -/
def map_header (xlen : Nat) : List Byte := container_header 0x80 0xde 0xdf xlen

/-! ## The buffers of both functions, tracked -/

/-- The identity of a buffer: `NULL`, one of the caller's stock buffers, the
decoder's `auto_stack_buf`, or the `n`-th block handed out by `malloc` or
`realloc` during the call. -/
inductive Buf where
  | null
  | stock_typeid
  | stock_value
  | stock_out
  | auto_stack
  | heap (n : Nat)
deriving DecidableEq, Repr

/-- The allocator's bookkeeping during one call: the number of blocks handed
out and the buffers given back through `free` or `realloc`, latest last.
Allocation never fails in this model. -/
structure Heap where
  next : Nat
  released : List Buf
deriving DecidableEq, Repr

/-- The call `free(buf)`; `free(NULL)` does nothing. -/
def free (h : Heap) (buf : Buf) : Heap :=
  if buf = .null then h else ⟨h.next, h.released ++ [buf]⟩

/-- The function `realloc_wrap(buf, size, stock_buf, old_size)`: a buffer other
than the stock one goes through `realloc`, which gives the old block back and
hands out a block of the new size; the stock buffer is copied into a fresh
block and is itself left alone. -/
def realloc_wrap (h : Heap) (buf stock_buf : Buf) : Buf × Heap :=
  if buf ≠ stock_buf then (.heap h.next, ⟨h.next + 1, h.released ++ [buf]⟩)
  else (.heap h.next, ⟨h.next + 1, h.released⟩)

/-- The decoder's registers together with its buffers: `cap` is
`typeid_max - typeid_buf` (the value array has the same capacity), `stack_cap`
is `stack_max - stack_buf`. The write index `typeid - typeid_buf` is
`s.typeid.length` and the stack index `stack - stack_buf` is `s.stack.length`. -/
structure MState where
  s : DState
  typeid_buf : Buf
  value_buf : Buf
  cap : Nat
  stack_buf : Buf
  stack_cap : Nat
  heap : Heap
deriving DecidableEq, Repr

/-- How a call of `preprocess_msgpack` ends when its buffers are tracked. -/
inductive MOut where
  /-- The label `done`: the result, `*typeid_out`, `*value_out` and the buffers
  given back during the call. -/
  | done (d : Decoded) (typeid_out value_out : Buf) (released : List Buf)
  /-- The labels `error_underflow` and `error_c1`: `-1` is returned after the
  cleanup, with the buffers given back during the call. -/
  | fail (e : DErr) (released : List Buf)
  /-- A slot is stored at `index` while the arrays hold `cap` slots. -/
  | slot_overrun (index cap : Nat)
  /-- A word is pushed at `index` while the depth stack holds `cap` words. -/
  | stack_overrun (index cap : Nat)
  /-- The model stops: `fault` or `fuel` of `DErr`. -/
  | stuck (e : DErr)
deriving DecidableEq, Repr

/-- The cleanup after the labels `error_underflow`, `error_c1`, `error_alloc`.
The third `if` ends in a `;`, so it guards an empty statement and
`free(value_buf)` is always called. -/
def error_cleanup (stock_typeid_buf : Buf) (m : MState) : List Buf :=
  let h1 := if m.stack_buf ≠ .auto_stack then free m.heap m.stack_buf else m.heap
  let h2 := if m.typeid_buf ≠ stock_typeid_buf then free h1 m.typeid_buf else h1
  (free h2 m.value_buf).released

/-- The step "ensure output has capacity for 1 more item": when
`typeid == typeid_max` both arrays move to blocks of `capacity + capacity / 2`
slots. -/
def grow_arrays (stock_typeid_buf stock_value_buf : Buf) (m : MState) : MState :=
  if m.s.typeid.length = m.cap then
    let t := realloc_wrap m.heap m.typeid_buf stock_typeid_buf
    let v := realloc_wrap t.2 m.value_buf stock_value_buf
    ⟨m.s, t.1, v.1, m.cap + m.cap / 2, m.stack_buf, m.stack_cap, v.2⟩
  else m

/-- The growth step of `setup_nested`: when `stack == stack_max` the depth
stack moves to a block of `capacity + capacity / 2` words. -/
def grow_stack (stack_len : Nat) (m : MState) : MState :=
  if stack_len = m.stack_cap then
    let b := realloc_wrap m.heap m.stack_buf .auto_stack
    ⟨m.s, m.typeid_buf, m.value_buf, m.cap, b.1, m.stack_cap + m.stack_cap / 2, b.2⟩
  else m

/-- Whether the pass through `switch (*mi)` at `mi` stores `*typeid` before it
leaves the switch. Every case does, except the reserved byte `0xc1` and a case
whose first length check fails; the cases that end in `do_xdata` have stored
`*typeid` when the second check fails. -/
def stores_slot (inp : List Byte) (mi : Nat) : Bool :=
  match parse inp mi with
  | .item _ _ _ => true
  | .nested _ _ _ _ => true
  | .err _ =>
    decide ((0xa0 ≤ rd inp mi ∧ rd inp mi ≤ 0xbf) ∨ (0xd4 ≤ rd inp mi ∧ rd inp mi ≤ 0xd8) ∨
      (((0xc4 ≤ rd inp mi ∧ rd inp mi ≤ 0xc9) ∨ (0xd9 ≤ rd inp mi ∧ rd inp mi ≤ 0xdb)) ∧
        mi + hdr_len (rd inp mi) ≤ inp.length))

/-- The body of `preprocess_msgpack` from the label `repeat` on with the
buffers tracked, iterated at most `fuel` times. It stops at the first store
outside a buffer. -/
def run_mem (inp : List Byte) (stock_typeid_buf stock_value_buf : Buf) : Nat → MState → MOut
  | 0, _ => .stuck .fuel
  | fuel + 1, m =>
    match close_loop m.s.todo m.s.patch m.s.stack m.s.value with
    | .fault => .stuck .fault
    | .done value =>
      .done { n_items := m.s.typeid.length, typeid := m.s.typeid, value := value }
        m.typeid_buf m.value_buf
        (if m.stack_buf ≠ .auto_stack then free m.heap m.stack_buf else m.heap).released
    | .more todo patch stack value =>
      if m.s.mi = inp.length then .fail .underflow (error_cleanup stock_typeid_buf m)
      else
        let g := grow_arrays stock_typeid_buf stock_value_buf m
        if stores_slot inp m.s.mi = true ∧ ¬ m.s.typeid.length < g.cap then
          .slot_overrun m.s.typeid.length g.cap
        else
          match parse inp m.s.mi with
          | .err e => .fail e (error_cleanup stock_typeid_buf g)
          | .item tag v mi =>
            run_mem inp stock_typeid_buf stock_value_buf fuel
              ⟨⟨mi, m.s.typeid ++ [tag], value ++ [v], todo, patch, stack⟩,
                g.typeid_buf, g.value_buf, g.cap, g.stack_buf, g.stack_cap, g.heap⟩
          | .nested tag xlen len mi =>
            -- setup_nested
            let k := grow_stack stack.length g
            if ¬ stack.length < k.stack_cap then .stack_overrun stack.length k.stack_cap
            else
              run_mem inp stock_typeid_buf stock_value_buf fuel
                ⟨⟨mi, m.s.typeid ++ [tag], value ++ [{ xlen := xlen, xoff := patch }],
                    len, u32 value.length, todo :: stack⟩,
                  k.typeid_buf, k.value_buf, k.cap, k.stack_buf, k.stack_cap, k.heap⟩

/-- The function `preprocess_msgpack` with its buffers tracked: the stock
arrays are used when both pointers are given and then hold `sz_or_hint` slots;
else two blocks of `max 32 sz_or_hint` slots are allocated. -/
def preprocess_msgpack_mem (inp : List Byte) (sz_or_hint : Nat)
    (stock_typeid_buf stock_value_buf : Buf) : MOut :=
  if stock_typeid_buf ≠ .null ∧ stock_value_buf ≠ .null then
    run_mem inp stock_typeid_buf stock_value_buf (inp.length + 1)
      ⟨DState.init, stock_typeid_buf, stock_value_buf, sz_or_hint, .auto_stack, 32, ⟨0, []⟩⟩
  else
    run_mem inp stock_typeid_buf stock_value_buf (inp.length + 1)
      ⟨DState.init, .heap 0, .heap 1, if sz_or_hint > 32 then sz_or_hint else 32,
        .auto_stack, 32, ⟨2, []⟩⟩

/-- What the `switch (*typeid)` of the encoder stores for a slot before it
jumps: the number of bytes from `out` on that it writes (the amount added to
`out`), and whether it jumps to `copy_data` (else to `check_buf`); `none` is
`goto error_badcode`. -/
def switch_store (tag : Nat) (v : Value) : Option (Nat × Bool) :=
  if tag = NilValue ∨ tag = FalseValue ∨ tag = TrueValue then some (1, false)
  else if tag = LongValue then some ((emit_long v.uval).length, false)
  else if tag = UlongValue then some ((emit_ulong v.uval).length, false)
  else if tag = FloatValue then some (5, false)
  else if tag = DoubleValue then some (9, false)
  else if tag = StringValue then
    if v.xlen ≤ 31 then some (1, true)
    else if v.xlen ≤ 255 then some (2, true)
    else if v.xlen ≤ 65535 then some (3, true)
    else some (5, true)
  else if tag = BinValue then
    if v.xlen ≤ 255 then some (2, true)
    else if v.xlen ≤ 65535 then some (3, true)
    else some (5, true)
  else if tag = ExtValue then
    if v.xlen = 2 then some (3, false)
    else if v.xlen = 3 then some (4, false)
    else if v.xlen = 5 then some (6, false)
    else if v.xlen = 9 then some (10, false)
    else if v.xlen = 17 then some (1, true)
    else if u32 (v.xlen + 2 ^ 32 - 1) ≤ 255 then some (2, true)
    else if u32 (v.xlen + 2 ^ 32 - 1) ≤ 65535 then some (3, true)
    else some (5, true)
  else if tag = ArrayValue ∨ tag = MapValue then
    if v.xlen ≤ 15 then some (1, false)
    else if v.xlen ≤ 65535 then some (3, false)
    else some (5, false)
  else if tag = CopyCommand then some (0, true)
  else none

/-- The encoder's output buffer: `written` is `out - out_buf`, `cap` is
`out_max - out_buf`. -/
structure EState where
  written : Nat
  cap : Nat
  out_buf : Buf
  heap : Heap
deriving DecidableEq, Repr

/-- How a call of `create_msgpack` ends when its output buffer is tracked. -/
inductive EOut where
  /-- The return value, `*msgpack_out` and the buffers given back. -/
  | done (written : Nat) (msgpack_out : Buf) (released : List Buf)
  /-- The label `error_badcode`: `-1` is returned after the cleanup. -/
  | fail (released : List Buf)
  /-- A store of `n` bytes at offset `written` of a buffer of `cap` bytes, with
  `written + n > cap`. -/
  | overrun (written n cap : Nat)
deriving DecidableEq, Repr

/-- The growth step shared by `check_buf` and `copy_data`: one move to a block
of `capacity + capacity / 2` bytes. -/
def grow_out (stock_buf : Buf) (e : EState) : EState :=
  let b := realloc_wrap e.heap e.out_buf stock_buf
  ⟨e.written, e.cap + e.cap / 2, b.1, b.2⟩

/-- The `for` loop of `create_msgpack` with the output buffer tracked. It stops
at the first store outside the buffer. Reads from the data banks are not
tracked here. -/
def encode_mem (stock_buf : Buf) : List (Nat × Value) → EState → EOut
  | [], e => .done e.written e.out_buf e.heap.released
  | (tag, v) :: rest, e =>
    match switch_store tag v with
    | none =>
      -- error_badcode
      .fail (if e.out_buf ≠ stock_buf then free e.heap e.out_buf else e.heap).released
    | some (n, false) =>
      if e.written + n > e.cap then .overrun e.written n e.cap
      else
        -- check_buf
        encode_mem stock_buf rest
          (if e.written + n + 10 > e.cap then
            grow_out stock_buf ⟨e.written + n, e.cap, e.out_buf, e.heap⟩
          else ⟨e.written + n, e.cap, e.out_buf, e.heap⟩)
    | some (n, true) =>
      if e.written + n > e.cap then .overrun e.written n e.cap
      else
        -- copy_data
        let g := if e.written + n + v.xlen + 10 > e.cap then
            grow_out stock_buf ⟨e.written + n, e.cap, e.out_buf, e.heap⟩
          else ⟨e.written + n, e.cap, e.out_buf, e.heap⟩
        if g.written + v.xlen > g.cap then .overrun g.written v.xlen g.cap
        else encode_mem stock_buf rest ⟨g.written + v.xlen, g.cap, g.out_buf, g.heap⟩

/-- The function `create_msgpack` on the item sequence `items` with its output
buffer tracked: the stock buffer of `sz_or_hint` bytes is used when given; else
a block of `max (max nitems 128) sz_or_hint` bytes is allocated. -/
def create_msgpack_mem (items : List (Nat × Value)) (sz_or_hint : Nat) (stock_buf : Buf) :
    EOut :=
  if stock_buf ≠ .null then encode_mem stock_buf items ⟨0, sz_or_hint, stock_buf, ⟨0, []⟩⟩
  else
    encode_mem stock_buf items
      ⟨0, if sz_or_hint > (if items.length > 128 then items.length else 128) then sz_or_hint
          else if items.length > 128 then items.length else 128, .heap 0, ⟨1, []⟩⟩

/-- An output buffer that holds `0xda` at offset `0` and zero elsewhere before
the call. -/
def da_then_zero (i : Nat) : Byte := if i = 0 then 0xda else 0

/-- A bank of 1000 bytes `0x61`. -/
def bank_1000 : List Byte := List.replicate 1000 0x61

/-- The tracked buffers hold what has been written and can still grow: the
write index is within the arrays, the stack index within the depth stack, and
both capacities are at least 2, so that `capacity + capacity / 2` is larger
than `capacity`. -/
structure MState.Roomy (m : MState) : Prop where
  slots : m.s.typeid.length ≤ m.cap
  cap2 : 2 ≤ m.cap
  words : m.s.stack.length ≤ m.stack_cap
  stack2 : 2 ≤ m.stack_cap

/-- What the tracked decoder returns is what the decoder model returns, unless
it stops at a store outside a buffer. -/
def MOut.agrees (r : Except DErr Decoded) : MOut → Prop
  | .done d _ _ _ => r = .ok d
  | .fail e _ => r = .error e
  | .stuck e => r = .error e
  | .slot_overrun _ _ => True
  | .stack_overrun _ _ => True

/-! ## Reading bytes of a list -/

theorem rd_cons_zero (b : Byte) (l : List Byte) : rd (b :: l) 0 = b.val := by
  simp [rd]

theorem rd_cons_succ (b : Byte) (l : List Byte) (i : Nat) : rd (b :: l) (i + 1) = rd l i := by
  simp [rd]

theorem rd_append_right (p l : List Byte) (i : Nat) : rd (p ++ l) (p.length + i) = rd l i := by
  simp [rd, List.getD_eq_getElem?_getD, List.getElem?_append_right]

theorem rd_append_length (p l : List Byte) : rd (p ++ l) p.length = rd l 0 :=
  rd_append_right p l 0

theorem rd_append_left (p l : List Byte) (i : Nat) (h : i < p.length) :
    rd (p ++ l) i = rd p i := by
  simp [rd, List.getD_eq_getElem?_getD, List.getElem?_append_left h]

theorem rd_lt (l : List Byte) (i : Nat) : rd l i < 256 := by
  unfold rd; omega

/-! ## The `switch (*mi)` case by case -/

theorem parse_posfix {inp : List Byte} {mi : Nat} (h : rd inp mi ≤ 0x7f) :
    parse inp mi = .item LongValue { uval := rd inp mi } (mi + 1) := by
  unfold parse
  simp only [if_pos h]

theorem parse_fixmap {inp : List Byte} {mi : Nat} (h1 : 0x80 ≤ rd inp mi)
    (h2 : rd inp mi ≤ 0x8f) :
    parse inp mi = .nested MapValue (rd inp mi - 0x80) ((rd inp mi - 0x80) * 2) (mi + 1) := by
  unfold parse
  have h0 : ¬ rd inp mi ≤ 0x7f := by omega
  simp only [if_neg h0, if_pos h2]

theorem parse_fixarray {inp : List Byte} {mi : Nat} (h1 : 0x90 ≤ rd inp mi)
    (h2 : rd inp mi ≤ 0x9f) :
    parse inp mi = .nested ArrayValue (rd inp mi - 0x90) (rd inp mi - 0x90) (mi + 1) := by
  unfold parse
  have h0 : ¬ rd inp mi ≤ 0x7f := by omega
  have h0' : ¬ rd inp mi ≤ 0x8f := by omega
  simp only [if_neg h0, if_neg h0', if_pos h2]

theorem parse_fixstr {inp : List Byte} {mi : Nat} (h1 : 0xa0 ≤ rd inp mi)
    (h2 : rd inp mi ≤ 0xbf) :
    parse inp mi = do_xdata inp StringValue (rd inp mi - 0xa0) mi := by
  unfold parse
  have h0 : ¬ rd inp mi ≤ 0x7f := by omega
  have h0' : ¬ rd inp mi ≤ 0x8f := by omega
  have h0'' : ¬ rd inp mi ≤ 0x9f := by omega
  simp only [if_neg h0, if_neg h0', if_neg h0'', if_pos h2]

theorem parse_negfix {inp : List Byte} {mi : Nat} (h : 0xe0 ≤ rd inp mi) :
    parse inp mi = .item LongValue { uval := sext 8 (rd inp mi) } (mi + 1) := by
  unfold parse
  simp only []
  repeat (rw [if_neg (by omega)])

theorem parse_c1 {inp : List Byte} {mi : Nat} (h : rd inp mi = 0xc1) :
    parse inp mi = .err .c1 := by
  simp [parse, h]

theorem parse_nil {inp : List Byte} {mi : Nat} (h : rd inp mi = 0xc0) :
    parse inp mi = .item NilValue {} (mi + 1) := by
  simp [parse, h]

theorem parse_false {inp : List Byte} {mi : Nat} (h : rd inp mi = 0xc2) :
    parse inp mi = .item FalseValue {} (mi + 1) := by
  simp [parse, h]

theorem parse_true {inp : List Byte} {mi : Nat} (h : rd inp mi = 0xc3) :
    parse inp mi = .item TrueValue {} (mi + 1) := by
  simp [parse, h]

theorem parse_bin8 {inp : List Byte} {mi : Nat} (h : rd inp mi = 0xc4) :
    parse inp mi = if mi + 2 > inp.length then .err .underflow
      else do_xdata inp BinValue (rd inp (mi + 1)) (mi + 1) := by
  simp [parse, h]

theorem parse_bin16 {inp : List Byte} {mi : Nat} (h : rd inp mi = 0xc5) :
    parse inp mi = if mi + 3 > inp.length then .err .underflow
      else do_xdata inp BinValue (net2host16 inp (mi + 1)) (mi + 2) := by
  simp [parse, h]

theorem parse_bin32 {inp : List Byte} {mi : Nat} (h : rd inp mi = 0xc6) :
    parse inp mi = if mi + 5 > inp.length then .err .underflow
      else do_xdata inp BinValue (net2host32 inp (mi + 1)) (mi + 4) := by
  simp [parse, h]

theorem parse_ext8 {inp : List Byte} {mi : Nat} (h : rd inp mi = 0xc7) :
    parse inp mi = if mi + 2 > inp.length then .err .underflow
      else do_xdata inp ExtValue (rd inp (mi + 1) + 1) (mi + 1) := by
  simp [parse, h]

theorem parse_ext16 {inp : List Byte} {mi : Nat} (h : rd inp mi = 0xc8) :
    parse inp mi = if mi + 3 > inp.length then .err .underflow
      else do_xdata inp ExtValue (net2host16 inp (mi + 1)) (mi + 2) := by
  simp [parse, h]

theorem parse_ext32 {inp : List Byte} {mi : Nat} (h : rd inp mi = 0xc9) :
    parse inp mi = if mi + 5 > inp.length then .err .underflow
      else do_xdata inp ExtValue (net2host32 inp (mi + 1)) (mi + 4) := by
  simp [parse, h]

theorem parse_float32 {inp : List Byte} {mi : Nat} (h : rd inp mi = 0xca) :
    parse inp mi = if mi + 5 > inp.length then .err .underflow
      else .item FloatValue { uval := f32_to_f64 (net2host32 inp (mi + 1)) } (mi + 5) := by
  simp [parse, h]

theorem parse_float64 {inp : List Byte} {mi : Nat} (h : rd inp mi = 0xcb) :
    parse inp mi = if mi + 9 > inp.length then .err .underflow
      else .item DoubleValue { uval := net2host64 inp (mi + 1) } (mi + 9) := by
  simp [parse, h]

theorem parse_uint8 {inp : List Byte} {mi : Nat} (h : rd inp mi = 0xcc) :
    parse inp mi = if mi + 2 > inp.length then .err .underflow
      else .item LongValue { uval := rd inp (mi + 1) } (mi + 2) := by
  simp [parse, h]

theorem parse_uint16 {inp : List Byte} {mi : Nat} (h : rd inp mi = 0xcd) :
    parse inp mi = if mi + 3 > inp.length then .err .underflow
      else .item LongValue { uval := net2host16 inp (mi + 1) } (mi + 3) := by
  simp [parse, h]

theorem parse_uint32 {inp : List Byte} {mi : Nat} (h : rd inp mi = 0xce) :
    parse inp mi = if mi + 5 > inp.length then .err .underflow
      else .item LongValue { uval := net2host32 inp (mi + 1) } (mi + 5) := by
  simp [parse, h]

theorem parse_uint64 {inp : List Byte} {mi : Nat} (h : rd inp mi = 0xcf) :
    parse inp mi = if mi + 9 > inp.length then .err .underflow
      else if net2host64 inp (mi + 1) > 2 ^ 63 - 1 then
        .item UlongValue { uval := net2host64 inp (mi + 1) } (mi + 9)
      else .item LongValue { uval := net2host64 inp (mi + 1) } (mi + 9) := by
  simp [parse, h]

theorem parse_int8 {inp : List Byte} {mi : Nat} (h : rd inp mi = 0xd0) :
    parse inp mi = if mi + 2 > inp.length then .err .underflow
      else .item LongValue { uval := sext 8 (rd inp (mi + 1)) } (mi + 2) := by
  simp [parse, h]

theorem parse_int16 {inp : List Byte} {mi : Nat} (h : rd inp mi = 0xd1) :
    parse inp mi = if mi + 3 > inp.length then .err .underflow
      else .item LongValue { uval := sext 16 (net2host16 inp (mi + 1)) } (mi + 3) := by
  simp [parse, h]

theorem parse_int32 {inp : List Byte} {mi : Nat} (h : rd inp mi = 0xd2) :
    parse inp mi = if mi + 5 > inp.length then .err .underflow
      else .item LongValue { uval := sext 32 (net2host32 inp (mi + 1)) } (mi + 5) := by
  simp [parse, h]

theorem parse_int64 {inp : List Byte} {mi : Nat} (h : rd inp mi = 0xd3) :
    parse inp mi = if mi + 9 > inp.length then .err .underflow
      else .item LongValue { uval := net2host64 inp (mi + 1) } (mi + 9) := by
  simp [parse, h]

theorem parse_fixext1 {inp : List Byte} {mi : Nat} (h : rd inp mi = 0xd4) :
    parse inp mi = do_xdata inp ExtValue 1 mi := by
  simp [parse, h]

theorem parse_fixext2 {inp : List Byte} {mi : Nat} (h : rd inp mi = 0xd5) :
    parse inp mi = do_xdata inp ExtValue 2 mi := by
  simp [parse, h]

theorem parse_fixext4 {inp : List Byte} {mi : Nat} (h : rd inp mi = 0xd6) :
    parse inp mi = do_xdata inp ExtValue 5 mi := by
  simp [parse, h]

theorem parse_fixext8 {inp : List Byte} {mi : Nat} (h : rd inp mi = 0xd7) :
    parse inp mi = do_xdata inp ExtValue 9 mi := by
  simp [parse, h]

theorem parse_fixext16 {inp : List Byte} {mi : Nat} (h : rd inp mi = 0xd8) :
    parse inp mi = do_xdata inp ExtValue 17 mi := by
  simp [parse, h]

theorem parse_str8 {inp : List Byte} {mi : Nat} (h : rd inp mi = 0xd9) :
    parse inp mi = if mi + 2 > inp.length then .err .underflow
      else do_xdata inp StringValue (rd inp (mi + 1)) (mi + 1) := by
  simp [parse, h]

theorem parse_str16 {inp : List Byte} {mi : Nat} (h : rd inp mi = 0xda) :
    parse inp mi = if mi + 3 > inp.length then .err .underflow
      else do_xdata inp StringValue (net2host16 inp (mi + 1)) (mi + 2) := by
  simp [parse, h]

theorem parse_str32 {inp : List Byte} {mi : Nat} (h : rd inp mi = 0xdb) :
    parse inp mi = if mi + 5 > inp.length then .err .underflow
      else do_xdata inp StringValue (net2host32 inp (mi + 1)) (mi + 4) := by
  simp [parse, h]

theorem parse_array16 {inp : List Byte} {mi : Nat} (h : rd inp mi = 0xdc) :
    parse inp mi = if mi + 3 > inp.length then .err .underflow
      else .nested ArrayValue (net2host16 inp (mi + 1)) (net2host16 inp (mi + 1)) (mi + 3) := by
  simp [parse, h]

theorem parse_array32 {inp : List Byte} {mi : Nat} (h : rd inp mi = 0xdd) :
    parse inp mi = if mi + 5 > inp.length then .err .underflow
      else .nested ArrayValue (net2host32 inp (mi + 1)) (net2host32 inp (mi + 1)) (mi + 5) := by
  simp [parse, h]

theorem parse_map16 {inp : List Byte} {mi : Nat} (h : rd inp mi = 0xde) :
    parse inp mi = if mi + 3 > inp.length then .err .underflow
      else .nested MapValue (net2host16 inp (mi + 1)) (net2host16 inp (mi + 1) * 2) (mi + 3) := by
  simp [parse, h]

theorem parse_map32 {inp : List Byte} {mi : Nat} (h : rd inp mi = 0xdf) :
    parse inp mi = if mi + 5 > inp.length then .err .underflow
      else .nested MapValue (net2host32 inp (mi + 1)) (net2host32 inp (mi + 1)) (mi + 5) := by
  simp [parse, h]

/-- The case distinction of the `switch`: every byte falls in exactly one label. -/
theorem byte_cases (b : Nat) (hb : b < 256) :
    b ≤ 0x7f ∨ (0x80 ≤ b ∧ b ≤ 0x8f) ∨ (0x90 ≤ b ∧ b ≤ 0x9f) ∨ (0xa0 ≤ b ∧ b ≤ 0xbf) ∨
      0xe0 ≤ b ∨
      b = 0xc0 ∨
      b = 0xc1 ∨
      b = 0xc2 ∨
      b = 0xc3 ∨
      b = 0xc4 ∨
      b = 0xc5 ∨
      b = 0xc6 ∨
      b = 0xc7 ∨
      b = 0xc8 ∨
      b = 0xc9 ∨
      b = 0xca ∨
      b = 0xcb ∨
      b = 0xcc ∨
      b = 0xcd ∨
      b = 0xce ∨
      b = 0xcf ∨
      b = 0xd0 ∨
      b = 0xd1 ∨
      b = 0xd2 ∨
      b = 0xd3 ∨
      b = 0xd4 ∨
      b = 0xd5 ∨
      b = 0xd6 ∨
      b = 0xd7 ∨
      b = 0xd8 ∨
      b = 0xd9 ∨
      b = 0xda ∨
      b = 0xdb ∨
      b = 0xdc ∨
      b = 0xdd ∨
      b = 0xde ∨
      b = 0xdf := by
  omega

theorem do_xdata_item {inp : List Byte} {tag len mi : Nat} {tag' : Nat} {v : Value} {mi' : Nat}
    (h : do_xdata inp tag len mi = .item tag' v mi') :
    tag' = tag ∧ v = { xlen := len, xoff := u32 (inp.length - mi - 1) } ∧ mi' = mi + len + 1 ∧
      mi + len + 1 ≤ inp.length := by
  unfold do_xdata at h
  split_ifs at h with hc
  injection h with h1 h2 h3
  exact ⟨h1.symm, h2.symm, h3.symm, by omega⟩

theorem do_xdata_not_nested {inp : List Byte} {tag len mi : Nat} {tag' xlen len' : Nat} {mi' : Nat}
    (h : do_xdata inp tag len mi = .nested tag' xlen len' mi') : False := by
  unfold do_xdata at h
  split_ifs at h

theorem parse_item_bounds {inp : List Byte} {mi tag : Nat} {v : Value} {mi' : Nat}
    (hmi : mi < inp.length) (hp : parse inp mi = .item tag v mi') :
    mi < mi' ∧ mi' ≤ inp.length ∧ tag ≠ ArrayValue ∧ tag ≠ MapValue := by
  rcases byte_cases (rd inp mi) (rd_lt inp mi) with
    h | ⟨h1, h2⟩ | ⟨h1, h2⟩ | ⟨h1, h2⟩ | h | h | h | h | h | h | h | h | h | h | h | h | h | h | h | h | h | h | h | h | h | h | h | h | h | h | h | h | h | h | h | h | h
  all_goals
    first
    | rw [parse_posfix h] at hp
    | rw [parse_fixmap h1 h2] at hp
    | rw [parse_fixarray h1 h2] at hp
    | rw [parse_fixstr h1 h2] at hp
    | rw [parse_negfix h] at hp
    | rw [parse_nil h] at hp
    | rw [parse_c1 h] at hp
    | rw [parse_false h] at hp
    | rw [parse_true h] at hp
    | rw [parse_bin8 h] at hp
    | rw [parse_bin16 h] at hp
    | rw [parse_bin32 h] at hp
    | rw [parse_ext8 h] at hp
    | rw [parse_ext16 h] at hp
    | rw [parse_ext32 h] at hp
    | rw [parse_float32 h] at hp
    | rw [parse_float64 h] at hp
    | rw [parse_uint8 h] at hp
    | rw [parse_uint16 h] at hp
    | rw [parse_uint32 h] at hp
    | rw [parse_uint64 h] at hp
    | rw [parse_int8 h] at hp
    | rw [parse_int16 h] at hp
    | rw [parse_int32 h] at hp
    | rw [parse_int64 h] at hp
    | rw [parse_fixext1 h] at hp
    | rw [parse_fixext2 h] at hp
    | rw [parse_fixext4 h] at hp
    | rw [parse_fixext8 h] at hp
    | rw [parse_fixext16 h] at hp
    | rw [parse_str8 h] at hp
    | rw [parse_str16 h] at hp
    | rw [parse_str32 h] at hp
    | rw [parse_array16 h] at hp
    | rw [parse_array32 h] at hp
    | rw [parse_map16 h] at hp
    | rw [parse_map32 h] at hp
  all_goals
    first
    | (obtain ⟨h1, -, h3, h4⟩ := do_xdata_item hp; subst h1 h3
       exact ⟨by omega, by omega, by decide, by decide⟩)
    | (injection hp with h1 h2 h3; subst h1 h3; exact ⟨by omega, by omega, by decide, by decide⟩)
    | (split_ifs at hp <;>
       first
       | (obtain ⟨h1, -, h3, h4⟩ := do_xdata_item hp; subst h1 h3
          exact ⟨by omega, by omega, by decide, by decide⟩)
       | (injection hp with h1 h2 h3; subst h1 h3
          exact ⟨by omega, by omega, by decide, by decide⟩))
    | (exact absurd hp (by simp))

/-! ## The decoder invariant -/

theorem Agree.mono {T V T' V' lo hi lo' hi'} (h : Agree T V T' V' lo hi) (h1 : lo ≤ lo')
    (h2 : hi' ≤ hi) : Agree T V T' V' lo' hi' :=
  fun p hp1 hp2 => h p (by omega) (by omega)

theorem Agree.symm {T V T' V' lo hi} (h : Agree T V T' V' lo hi) : Agree T' V' T V lo hi :=
  fun p hp1 hp2 => ⟨(h p hp1 hp2).1.symm, (h p hp1 hp2).2.symm⟩

theorem subtree_size_congr {T V T' V' lo hi} (h : Agree T V T' V' lo hi) {p : Nat}
    (h1 : lo ≤ p) (h2 : p < hi) : subtree_size T V p = subtree_size T' V' p := by
  unfold subtree_size
  rw [(h p h1 h2).1, (h p h1 h2).2]

theorem subtrees_le {T V} : ∀ {k i j}, subtrees T V k i j → i ≤ j
  | 0, i, j, h => by simp [subtrees] at h; omega
  | k + 1, i, j, h => by
    obtain ⟨h1, h2⟩ := h
    have := subtrees_le h2
    omega

theorem subtrees_congr {T V T' V'} : ∀ {k i j}, Agree T V T' V' i j → subtrees T V k i j →
    subtrees T' V' k i j
  | 0, i, j, _, h => h
  | k + 1, i, j, ha, h => by
    obtain ⟨h1, h2⟩ := h
    have hle := subtrees_le h2
    have hs := subtree_size_congr ha (Nat.le_refl i) (by omega)
    refine ⟨hs ▸ h1, ?_⟩
    rw [← hs]
    exact subtrees_congr (ha.mono (by omega) (Nat.le_refl j)) h2

theorem subtrees_snoc {T V} : ∀ {k i j}, subtrees T V k i j → 1 ≤ subtree_size T V j →
    subtrees T V (k + 1) i (j + subtree_size T V j)
  | 0, i, j, h, hs => by
    simp only [subtrees] at h
    subst h
    exact ⟨hs, rfl⟩
  | k + 1, i, j, h, hs => by
    obtain ⟨h1, h2⟩ := h
    exact ⟨h1, subtrees_snoc h2 hs⟩

theorem Good.of_agree {T V T' V' lo hi} (ha : Agree T V T' V' lo hi) (h : Good T V lo hi) :
    Good T' V' lo hi := by
  intro j h1 h2 hc
  obtain ⟨e1, e2⟩ := ha j h1 h2
  rw [← e1] at hc ⊢
  rw [← e2]
  obtain ⟨g1, g2, g3⟩ := h j h1 h2 hc
  exact ⟨g1, g2, fun hA => subtrees_congr (ha.mono (by omega) (by omega)) (g3 hA)⟩

theorem Chain.transfer {T V T' V'} : ∀ {stack patch cur rem}, Agree T V T' V' 0 cur →
    Chain T V stack patch cur rem → Chain T' V' stack patch cur rem
  | [], patch, cur, rem, ha, h => by
    obtain ⟨h1, h2, d, h3, h4⟩ := h
    exact ⟨h1, h2.of_agree ha, d, subtrees_congr ha h3, h4⟩
  | t :: stack, patch, cur, rem, ha, h => by
    obtain ⟨h1, h2, h3, ⟨d, h4, h5⟩, h6⟩ := h
    obtain ⟨e1, e2⟩ := ha patch (Nat.zero_le _) h1
    refine ⟨h1, e1 ▸ h2, h3.of_agree (ha.mono (Nat.zero_le _) (Nat.le_refl _)),
      ⟨d, subtrees_congr (ha.mono (Nat.zero_le _) (Nat.le_refl _)) h4, ?_⟩, ?_⟩
    · rw [← e1, ← e2]; exact h5
    · rw [← e2]
      exact Chain.transfer (ha.mono (Nat.le_refl _) (by omega)) h6

theorem Keep.refl (T : List Nat) (V : List Value) : Keep T V V :=
  fun _ => ⟨fun _ => rfl, rfl, rfl⟩

theorem Keep.trans {T : List Nat} {V V' V'' : List Value} (h1 : Keep T V V') (h2 : Keep T V' V'') :
    Keep T V V'' :=
  fun j => ⟨fun hc => ((h2 j).1 hc).trans ((h1 j).1 hc), (h2 j).2.1.trans (h1 j).2.1,
    (h2 j).2.2.trans (h1 j).2.2⟩

theorem getD_set_ne (V : List Value) (i j : Nat) (x : Value) (h : i ≠ j) :
    (V.set i x).getD j {} = V.getD j {} := by
  simp [List.getD_eq_getElem?_getD, List.getElem?_set_ne h]

theorem getD_set_eq (V : List Value) (i : Nat) (x : Value) (h : i < V.length) :
    (V.set i x).getD i {} = x := by
  simp [List.getD_eq_getElem?_getD, List.getElem?_set_self h]

theorem Good.join {T V lo mid hi} (h1 : Good T V lo mid) (h2 : Good T V mid hi) (hm : mid ≤ hi) :
    Good T V lo hi := by
  intro j hj1 hj2 hc
  by_cases hj : j < mid
  · obtain ⟨g1, g2, g3⟩ := h1 j hj1 hj hc
    exact ⟨g1, by omega, g3⟩
  · exact h2 j (by omega) hj2 hc

/-- Closing the innermost open container: its header gets the distance to the
write cursor, and the next container out becomes the innermost one. -/
theorem Chain.close {T : List Nat} {V : List Value} {st : List Nat} {patch t d : Nat}
    (hp : patch < V.length) (hc : is_container (T.getD patch 0))
    (hg : Good T V (patch + 1) V.length) (hd : subtrees T V d (patch + 1) V.length)
    (hx : T.getD patch 0 = ArrayValue → d + 0 = (V.getD patch {}).xlen)
    (ho : Chain T V st (V.getD patch {}).xoff patch (t + 1)) :
    Chain T (V.set patch ((V.getD patch {}).with_xoff (V.length - patch))) st
      (V.getD patch {}).xoff V.length t := by
  set V' := V.set patch ((V.getD patch {}).with_xoff (V.length - patch)) with hV'
  have A1 : Agree T V T V' 0 patch := fun p _ h2 =>
    ⟨rfl, (getD_set_ne V patch p _ (by omega)).symm⟩
  have A2 : Agree T V T V' (patch + 1) V.length := fun p h1 _ =>
    ⟨rfl, (getD_set_ne V patch p _ (by omega)).symm⟩
  have hget : V'.getD patch {} = ((V.getD patch {}).with_xoff (V.length - patch)) :=
    getD_set_eq V patch _ hp
  have hsz : subtree_size T V' patch = V.length - patch := by
    unfold subtree_size
    rw [if_pos hc, hget]
    rfl
  have hgood : ∀ lo, Good T V lo patch → Good T V' lo V.length := by
    intro lo h j hj1 hj2 hcj
    rcases Nat.lt_trichotomy j patch with hlt | heq | hgt
    · obtain ⟨g1, g2, g3⟩ := (h.of_agree (A1.mono (Nat.zero_le _) (Nat.le_refl _))) j hj1 hlt hcj
      exact ⟨g1, by omega, g3⟩
    · subst heq
      rw [hget]
      refine ⟨by simp only [Value.with_xoff]; omega, by simp only [Value.with_xoff]; omega,
        fun hA => ?_⟩
      have := hx hA
      simp only [Value.with_xoff]
      rw [← this, Nat.add_zero, Nat.add_sub_cancel' (Nat.le_of_lt hp)]
      exact subtrees_congr A2 hd
    · exact (hg.of_agree A2) j (by omega) hj2 hcj
  have hsnoc : ∀ lo d', subtrees T V d' lo patch → subtrees T V' (d' + 1) lo V.length := by
    intro lo d' h
    have h' : subtrees T V' d' lo patch := subtrees_congr (A1.mono (Nat.zero_le _) (Nat.le_refl _)) h
    have := subtrees_snoc h' (by rw [hsz]; omega)
    rw [hsz, Nat.add_sub_cancel' (Nat.le_of_lt hp)] at this
    exact this
  cases st with
  | nil =>
    obtain ⟨h1, h2, d', h3, h4⟩ := ho
    exact ⟨h1, hgood 0 h2, d' + 1, hsnoc 0 d' h3, by omega⟩
  | cons t' st' =>
    obtain ⟨h1, h2, h3, ⟨d', h4, h5⟩, h6⟩ := ho
    have e : V'.getD (V.getD patch {}).xoff {} = V.getD (V.getD patch {}).xoff {} :=
      getD_set_ne V patch _ _ (by omega)
    refine ⟨by omega, h2, hgood _ h3, ⟨d' + 1, hsnoc _ d' h4, ?_⟩, ?_⟩
    · intro hA
      rw [e]
      have := h5 hA
      omega
    · rw [e]
      exact Chain.transfer (A1.mono (Nat.le_refl _) (Nat.le_of_lt h1)) h6

/-- The closing loop under the chain invariant: it never leaves the array, it
keeps the array length, and it ends either at `done` with every container
closed or with one more element to read under the innermost open container. -/
theorem close_loop_spec (T : List Nat) (n : Nat) (hn : n < 2 ^ 32) :
    ∀ (stack : List Nat) (todo patch : Nat) (V : List Value),
    V.length = n → Chain T V stack patch n todo →
    (∃ V', close_loop todo patch stack V = .done V' ∧ V'.length = n ∧
        Chain T V' [] NO_PATCH n 0 ∧ Keep T V V') ∨
    (∃ todo' patch' stack' V', close_loop todo patch stack V = .more todo' patch' stack' V' ∧
        V'.length = n ∧ Chain T V' stack' patch' n (todo' + 1) ∧ Keep T V V')
  | [], todo, patch, V, hl, hc => by
    by_cases ht : todo = 0
    · subst ht
      left
      refine ⟨V, by simp [close_loop], hl, ?_, Keep.refl T V⟩
      obtain ⟨h1, h2, h3⟩ := hc
      exact ⟨rfl, h2, h3⟩
    · right
      refine ⟨todo - 1, patch, [], V, by simp [close_loop, ht], hl, ?_, Keep.refl T V⟩
      rw [Nat.sub_add_cancel (Nat.pos_of_ne_zero ht)]
      exact hc
  | t :: st, todo, patch, V, hl, hc => by
    by_cases ht : todo = 0
    · subst ht
      subst hl
      obtain ⟨h1, h2, h3, ⟨d, h4, h5⟩, h6⟩ := hc
      have hget : V[patch]? = some (V.getD patch {}) := by
        rw [List.getD_eq_getElem?_getD, List.getElem?_eq_getElem h1]
        rfl
      have hu : u32 (V.length - patch) = V.length - patch := Nat.mod_eq_of_lt (by omega)
      have hcl : close_loop 0 patch (t :: st) V
          = close_loop t (V.getD patch {}).xoff st
              (V.set patch ((V.getD patch {}).with_xoff (V.length - patch))) := by
        rw [close_loop]
        simp only [ne_eq, not_true_eq_false, if_false, hget, hu]
      have hlen : (V.set patch ((V.getD patch {}).with_xoff (V.length - patch))).length
          = V.length := List.length_set ..
      have hch := Chain.close h1 h2 h3 h4 h5 h6
      have hk : Keep T V (V.set patch ((V.getD patch {}).with_xoff (V.length - patch))) := by
        intro j
        by_cases hj : patch = j
        · subst hj
          rw [getD_set_eq V patch _ h1]
          exact ⟨fun hnc => absurd h2 hnc, rfl, rfl⟩
        · rw [getD_set_ne V patch j _ hj]
          exact ⟨fun _ => rfl, rfl, rfl⟩
      have ih := close_loop_spec T V.length hn st t (V.getD patch {}).xoff _ hlen hch
      rw [hcl]
      rcases ih with ⟨V', e1, e2, e3, e4⟩ | ⟨todo', patch', stack', V', e1, e2, e3, e4⟩
      · left
        exact ⟨V', e1, e2, e3, hk.trans e4⟩
      · right
        exact ⟨todo', patch', stack', V', e1, e2, e3, hk.trans e4⟩
    · right
      refine ⟨todo - 1, patch, t :: st, V, by simp [close_loop, ht], hl, ?_, Keep.refl T V⟩
      rw [Nat.sub_add_cancel (Nat.pos_of_ne_zero ht)]
      exact hc

theorem getD_append_left_nat (T : List Nat) (x p : Nat) (h : p < T.length) :
    (T ++ [x]).getD p 0 = T.getD p 0 := by
  simp [List.getD_eq_getElem?_getD, List.getElem?_append_left h]

theorem getD_append_left_val (V : List Value) (x : Value) (p : Nat) (h : p < V.length) :
    (V ++ [x]).getD p {} = V.getD p {} := by
  simp [List.getD_eq_getElem?_getD, List.getElem?_append_left h]

theorem getD_append_length_nat (T : List Nat) (x : Nat) : (T ++ [x]).getD T.length 0 = x := by
  simp [List.getD_eq_getElem?_getD]

theorem getD_append_length_val (V : List Value) (x : Value) :
    (V ++ [x]).getD V.length {} = x := by
  simp [List.getD_eq_getElem?_getD]

theorem Agree.append {T : List Nat} {V : List Value} {n : Nat} (hT : T.length = n)
    (hV : V.length = n) (tag : Nat) (v : Value) : Agree T V (T ++ [tag]) (V ++ [v]) 0 n :=
  fun p _ h2 => ⟨(getD_append_left_nat T tag p (by omega)).symm,
    (getD_append_left_val V v p (by omega)).symm⟩

/-- Writing a slot that is not a container header: one more subtree is
complete under the innermost open container. -/
theorem Chain.push_item {T : List Nat} {V : List Value} {st : List Nat} {patch n rem : Nat}
    (hT : T.length = n) (hV : V.length = n) {tag : Nat} (v : Value) (htag : ¬ is_container tag)
    (hc : Chain T V st patch n (rem + 1)) :
    Chain (T ++ [tag]) (V ++ [v]) st patch (n + 1) rem := by
  have A := Agree.append hT hV tag v
  have hn : (T ++ [tag]).getD n 0 = tag := hT ▸ getD_append_length_nat T tag
  have hsz : subtree_size (T ++ [tag]) (V ++ [v]) n = 1 := by
    unfold subtree_size
    rw [hn, if_neg htag]
  have hgood : ∀ lo, Good T V lo n → Good (T ++ [tag]) (V ++ [v]) lo (n + 1) := by
    intro lo h j hj1 hj2 hcj
    by_cases hj : j < n
    · obtain ⟨g1, g2, g3⟩ := (h.of_agree (A.mono (Nat.zero_le _) (Nat.le_refl _))) j hj1 hj hcj
      exact ⟨g1, by omega, g3⟩
    · have : j = n := by omega
      subst this
      rw [hn] at hcj
      exact absurd hcj htag
  have hsnoc : ∀ lo d, subtrees T V d lo n →
      subtrees (T ++ [tag]) (V ++ [v]) (d + 1) lo (n + 1) := by
    intro lo d h
    have h' := subtrees_congr (A.mono (Nat.zero_le _) (Nat.le_refl _)) h
    have := subtrees_snoc h' (by rw [hsz])
    rw [hsz] at this
    exact this
  cases st with
  | nil =>
    obtain ⟨h1, h2, d, h3, h4⟩ := hc
    exact ⟨h1, hgood 0 h2, d + 1, hsnoc 0 d h3, by omega⟩
  | cons t st =>
    obtain ⟨h1, h2, h3, ⟨d, h4, h5⟩, h6⟩ := hc
    obtain ⟨e1, e2⟩ := A patch (Nat.zero_le _) h1
    refine ⟨by omega, e1 ▸ h2, hgood _ h3, ⟨d + 1, hsnoc _ d h4, ?_⟩, ?_⟩
    · intro hA
      rw [← e1] at hA
      rw [← e2]
      have := h5 hA
      omega
    · rw [← e2]
      exact Chain.transfer (A.mono (Nat.le_refl _) (Nat.le_of_lt h1)) h6

/-- Writing a container header (the label `setup_nested`): the new header
becomes the innermost open container and remembers the previous one. -/
theorem Chain.push_nested {T : List Nat} {V : List Value} {st : List Nat} {patch n rem : Nat}
    (hT : T.length = n) (hV : V.length = n) {tag xlen len : Nat} (htag : is_container tag)
    (hlen : tag = ArrayValue → len = xlen) (hc : Chain T V st patch n (rem + 1)) :
    Chain (T ++ [tag]) (V ++ [{ xlen := xlen, xoff := patch }]) (rem :: st) n (n + 1) len := by
  have A := Agree.append hT hV tag { xlen := xlen, xoff := patch }
  have hn : (T ++ [tag]).getD n 0 = tag := hT ▸ getD_append_length_nat T tag
  have hv : (V ++ [({ xlen := xlen, xoff := patch } : Value)]).getD n {}
      = { xlen := xlen, xoff := patch } :=
    hV ▸ getD_append_length_val V _
  refine ⟨Nat.lt_succ_self n, by rw [hn]; exact htag, ?_, ⟨0, rfl, ?_⟩, ?_⟩
  · intro j hj1 hj2 _
    omega
  · intro hA
    rw [hn] at hA
    rw [hv, Nat.zero_add]
    exact hlen hA
  · rw [hv]
    exact Chain.transfer A hc

theorem parse_nested_bounds {inp : List Byte} {mi tag xlen len : Nat} {mi' : Nat}
    (hmi : mi < inp.length) (hp : parse inp mi = .nested tag xlen len mi') :
    mi < mi' ∧ mi' ≤ inp.length ∧ is_container tag ∧ (tag = ArrayValue → len = xlen) := by
  rcases byte_cases (rd inp mi) (rd_lt inp mi) with
    h | ⟨h1, h2⟩ | ⟨h1, h2⟩ | ⟨h1, h2⟩ | h | h | h | h | h | h | h | h | h | h | h | h | h | h | h | h | h | h | h | h | h | h | h | h | h | h | h | h | h | h | h | h | h
  all_goals
    first
    | rw [parse_posfix h] at hp
    | rw [parse_fixmap h1 h2] at hp
    | rw [parse_fixarray h1 h2] at hp
    | rw [parse_fixstr h1 h2] at hp
    | rw [parse_negfix h] at hp
    | rw [parse_nil h] at hp
    | rw [parse_c1 h] at hp
    | rw [parse_false h] at hp
    | rw [parse_true h] at hp
    | rw [parse_bin8 h] at hp
    | rw [parse_bin16 h] at hp
    | rw [parse_bin32 h] at hp
    | rw [parse_ext8 h] at hp
    | rw [parse_ext16 h] at hp
    | rw [parse_ext32 h] at hp
    | rw [parse_float32 h] at hp
    | rw [parse_float64 h] at hp
    | rw [parse_uint8 h] at hp
    | rw [parse_uint16 h] at hp
    | rw [parse_uint32 h] at hp
    | rw [parse_uint64 h] at hp
    | rw [parse_int8 h] at hp
    | rw [parse_int16 h] at hp
    | rw [parse_int32 h] at hp
    | rw [parse_int64 h] at hp
    | rw [parse_fixext1 h] at hp
    | rw [parse_fixext2 h] at hp
    | rw [parse_fixext4 h] at hp
    | rw [parse_fixext8 h] at hp
    | rw [parse_fixext16 h] at hp
    | rw [parse_str8 h] at hp
    | rw [parse_str16 h] at hp
    | rw [parse_str32 h] at hp
    | rw [parse_array16 h] at hp
    | rw [parse_array32 h] at hp
    | rw [parse_map16 h] at hp
    | rw [parse_map32 h] at hp
  all_goals
    first
    | exact (do_xdata_not_nested hp).elim
    | (cases hp; done)
    | (injection hp with h1 h2 h3 h4; subst h1 h2 h3 h4
       refine ⟨?_, ?_, ?_, ?_⟩ <;> first | omega | simp [is_container])
    | (split_ifs at hp <;>
       first
       | exact (do_xdata_not_nested hp).elim
       | (cases hp; done)
       | (injection hp with h1 h2 h3 h4; subst h1 h2 h3 h4
          refine ⟨?_, ?_, ?_, ?_⟩ <;> first | omega | simp [is_container]))

theorem Prov.keep {inp T V V' n} (h : Prov inp T V n) (hk : Keep T V V') : Prov inp T V' n := by
  intro j hj
  obtain ⟨h1, h2⟩ := h j hj
  obtain ⟨k1, k2, -⟩ := hk j
  refine ⟨fun hc => ?_, fun hc => ?_⟩
  · rw [k1 hc]; exact h1 hc
  · rw [k2]; exact h2 hc

theorem Prov.add_item {inp T V n} (hT : T.length = n) (hV : V.length = n)
    (h : Prov inp T V n) {mi tag mi'} {v : Value} (hmi : mi < inp.length)
    (hp : parse inp mi = .item tag v mi') : Prov inp (T ++ [tag]) (V ++ [v]) (n + 1) := by
  intro j hj
  by_cases hjn : j < n
  · obtain ⟨e1, e2⟩ := Agree.append hT hV tag v j (Nat.zero_le _) hjn
    rw [← e1, ← e2]
    exact h j hjn
  · have : j = n := by omega
    subst this
    have e1 : (T ++ [tag]).getD j 0 = tag := hT ▸ getD_append_length_nat T tag
    have e2 : (V ++ [v]).getD j {} = v := hV ▸ getD_append_length_val V v
    rw [e1, e2]
    exact ⟨fun _ => ⟨mi, mi', hmi, hp⟩, fun hc => absurd hc (by
      have := (parse_item_bounds hmi hp).2.2
      unfold is_container
      omega)⟩

theorem Prov.add_nested {inp T V n} (hT : T.length = n) (hV : V.length = n)
    (h : Prov inp T V n) {mi tag xlen len mi' patch} (hmi : mi < inp.length)
    (hp : parse inp mi = .nested tag xlen len mi') :
    Prov inp (T ++ [tag]) (V ++ [{ xlen := xlen, xoff := patch }]) (n + 1) := by
  intro j hj
  by_cases hjn : j < n
  · obtain ⟨e1, e2⟩ := Agree.append hT hV tag { xlen := xlen, xoff := patch } j (Nat.zero_le _) hjn
    rw [← e1, ← e2]
    exact h j hjn
  · have : j = n := by omega
    subst this
    have e1 : (T ++ [tag]).getD j 0 = tag := hT ▸ getD_append_length_nat T tag
    have e2 : (V ++ [({ xlen := xlen, xoff := patch } : Value)]).getD j {}
        = { xlen := xlen, xoff := patch } := hV ▸ getD_append_length_val V _
    rw [e1, e2]
    exact ⟨fun hc => absurd (parse_nested_bounds hmi hp).2.2.1 hc, fun _ => ⟨mi, len, mi', hmi, hp⟩⟩

theorem Inv.init (inp : List Byte) : Inv inp DState.init where
  len_eq := rfl
  le_mi := Nat.le_refl _
  mi_le := Nat.zero_le _
  chain := ⟨rfl, fun _ _ hj => absurd hj (Nat.not_lt_zero _), 0, rfl, rfl⟩
  prov := fun _ hj => absurd hj (Nat.not_lt_zero _)

theorem run_inv (inp : List Byte) (hms : inp.length < 2 ^ 32) {d : Decoded} :
    ∀ (fuel : Nat) (s : DState), Inv inp s → run inp fuel s = .ok d → Final inp d
  | 0, s, _, h => by simp [run] at h
  | fuel + 1, s, hi, h => by
    have hn : s.value.length < 2 ^ 32 := by
      have := hi.le_mi; have := hi.mi_le; omega
    rw [run] at h
    rcases close_loop_spec s.typeid s.value.length hn s.stack s.todo s.patch s.value rfl hi.chain
      with ⟨V', e1, e2, e3, e4⟩ | ⟨todo', patch', stack', V', e1, e2, e3, e4⟩
    · rw [e1] at h
      simp only [Except.ok.injEq] at h
      subst h
      obtain ⟨-, g, dd, hs, hd⟩ := e3
      have hdd : dd = 1 := by omega
      subst hdd
      exact ⟨rfl, by simp only; rw [e2]; exact hi.len_eq,
        by simp only; have := hi.le_mi; have := hi.mi_le; have := hi.len_eq; omega,
        by simp only; rw [hi.len_eq]; exact g, by simp only; rw [hi.len_eq]; exact hs,
        by simp only; rw [hi.len_eq]; exact hi.prov.keep e4⟩
    · rw [e1] at h
      simp only at h
      split_ifs at h with hmi
      have hlt : s.mi < inp.length := Nat.lt_of_le_of_ne hi.mi_le hmi
      split at h
      · simp at h
      · rename_i tag v mi' hp
        obtain ⟨b1, b2, b3, b4⟩ := parse_item_bounds hlt hp
        refine run_inv inp hms fuel _ ?_ h
        exact {
          len_eq := by simp [hi.len_eq, e2]
          le_mi := by simp only [List.length_append, List.length_singleton]; have := hi.le_mi; omega
          mi_le := b2
          chain := by
            simp only [List.length_append, List.length_singleton, e2]
            exact Chain.push_item hi.len_eq e2 v (by unfold is_container; omega) e3
          prov := by
            simp only [List.length_append, List.length_singleton, e2]
            exact (hi.prov.keep e4).add_item hi.len_eq e2 hlt hp }
      · rename_i tag xlen len mi' hp
        obtain ⟨b1, b2, b3, b4⟩ := parse_nested_bounds hlt hp
        refine run_inv inp hms fuel _ ?_ h
        exact {
          len_eq := by simp [hi.len_eq, e2]
          le_mi := by simp only [List.length_append, List.length_singleton]; have := hi.le_mi; omega
          mi_le := b2
          chain := by
            simp only [List.length_append, List.length_singleton, e2]
            rw [show u32 s.value.length = s.value.length from Nat.mod_eq_of_lt hn]
            exact Chain.push_nested hi.len_eq e2 b3 b4 e3
          prov := by
            simp only [List.length_append, List.length_singleton, e2]
            exact (hi.prov.keep e4).add_nested hi.len_eq e2 hlt hp }

theorem do_xdata_payload {inp : List Byte} {tag len m0 tag' : Nat} {v : Value} {mi' : Nat}
    (h : do_xdata inp tag len m0 = .item tag' v mi') (mi p : Nat) (hp : m0 + 1 = mi + p) :
    v.xoff = u32 (inp.length - (mi + p)) ∧ mi + p + v.xlen ≤ inp.length ∧
      mi' = mi + p + v.xlen := by
  obtain ⟨-, e2, e3, e4⟩ := do_xdata_item h
  subst e2 e3
  refine ⟨?_, ?_, ?_⟩
  · show u32 (inp.length - m0 - 1) = u32 (inp.length - (mi + p))
    rw [← hp, Nat.sub_sub]
  · show mi + p + len ≤ inp.length
    omega
  · show m0 + len + 1 = mi + p + len
    omega

theorem hdr_len_fix {b : Nat} (h : (0xa0 ≤ b ∧ b ≤ 0xbf) ∨ (0xd4 ≤ b ∧ b ≤ 0xd8)) :
    hdr_len b = 1 := by
  unfold hdr_len
  rw [if_neg (by omega), if_neg (by omega), if_neg (by omega)]

theorem parse_payload {inp : List Byte} {mi tag : Nat} {v : Value} {mi' : Nat}
    (hp : parse inp mi = .item tag v mi') (ht : is_payload tag) :
    v.xoff = u32 (inp.length - (mi + hdr_len (rd inp mi))) ∧
      mi + hdr_len (rd inp mi) + v.xlen ≤ inp.length ∧
      mi' = mi + hdr_len (rd inp mi) + v.xlen := by
  unfold is_payload at ht
  rcases byte_cases (rd inp mi) (rd_lt inp mi) with
    h | ⟨h1, h2⟩ | ⟨h1, h2⟩ | ⟨h1, h2⟩ | h | h | h | h | h | h | h | h | h | h | h | h | h | h | h | h | h | h | h | h | h | h | h | h | h | h | h | h | h | h | h | h | h
  all_goals
    first
    | rw [parse_posfix h] at hp
    | rw [parse_fixmap h1 h2] at hp
    | rw [parse_fixarray h1 h2] at hp
    | rw [parse_fixstr h1 h2] at hp
    | rw [parse_negfix h] at hp
    | rw [parse_nil h] at hp
    | rw [parse_c1 h] at hp
    | rw [parse_false h] at hp
    | rw [parse_true h] at hp
    | rw [parse_bin8 h] at hp
    | rw [parse_bin16 h] at hp
    | rw [parse_bin32 h] at hp
    | rw [parse_ext8 h] at hp
    | rw [parse_ext16 h] at hp
    | rw [parse_ext32 h] at hp
    | rw [parse_float32 h] at hp
    | rw [parse_float64 h] at hp
    | rw [parse_uint8 h] at hp
    | rw [parse_uint16 h] at hp
    | rw [parse_uint32 h] at hp
    | rw [parse_uint64 h] at hp
    | rw [parse_int8 h] at hp
    | rw [parse_int16 h] at hp
    | rw [parse_int32 h] at hp
    | rw [parse_int64 h] at hp
    | rw [parse_fixext1 h] at hp
    | rw [parse_fixext2 h] at hp
    | rw [parse_fixext4 h] at hp
    | rw [parse_fixext8 h] at hp
    | rw [parse_fixext16 h] at hp
    | rw [parse_str8 h] at hp
    | rw [parse_str16 h] at hp
    | rw [parse_str32 h] at hp
    | rw [parse_array16 h] at hp
    | rw [parse_array32 h] at hp
    | rw [parse_map16 h] at hp
    | rw [parse_map32 h] at hp
  all_goals
    first
    | (cases hp; done)
    | (injection hp with h1 h2 h3; subst h1; exfalso; revert ht; decide)
    | exact do_xdata_payload hp mi _ (by rw [hdr_len_fix (by omega)])
    | (split_ifs at hp <;>
       first
       | (cases hp; done)
       | (injection hp with h1 h2 h3; subst h1; exfalso; revert ht; decide)
       | exact do_xdata_payload hp mi _ (by rw [h]; rfl))

theorem preprocess_final {inp : List Byte} (hms : inp.length < 2 ^ 32) {d : Decoded}
    (h : preprocess_msgpack inp = .ok d) : Final inp d :=
  run_inv inp hms _ _ (Inv.init inp) h

theorem rd_replicate (K j : Nat) (b : Byte) (h : j < K) : rd (List.replicate K b) j = b.val := by
  simp [rd, List.getD_eq_getElem?_getD, List.getElem?_replicate, h]

/-- The decoder on a run of nil bytes under one open container at slot `0`. -/
theorem run_nils (pre : List Byte) (K : Nat) (v0 : Value) :
    ∀ (r j : Nat) (T : List Nat) (Vt : List Value) (fuel : Nat), j + r = K → r < fuel →
      run (pre ++ List.replicate K 0xc0) fuel
          { mi := pre.length + j, typeid := T, value := v0 :: Vt, todo := r, patch := 0,
            stack := [0] }
        = .ok { n_items := T.length + r, typeid := T ++ List.replicate r NilValue,
                value := v0.with_xoff (u32 (Vt.length + 1 + r)) :: (Vt ++ List.replicate r {}) }
  | 0, j, T, Vt, fuel, _, hf => by
    obtain ⟨f, rfl⟩ : ∃ f, fuel = f + 1 := ⟨fuel - 1, by omega⟩
    simp [run, close_loop]
  | r + 1, j, T, Vt, fuel, hj, hf => by
    obtain ⟨f, rfl⟩ : ∃ f, fuel = f + 1 := ⟨fuel - 1, by omega⟩
    have hrd : rd (pre ++ List.replicate K 0xc0) (pre.length + j) = 0xc0 := by
      rw [rd_append_right, rd_replicate K j _ (by omega)]
      rfl
    have hne : pre.length + j ≠ (pre ++ List.replicate K (0xc0 : Byte)).length := by
      simp only [List.length_append, List.length_replicate]
      omega
    rw [run]
    simp only [close_loop, ne_eq, Nat.add_one_ne_zero, not_false_eq_true, if_true,
      Nat.add_sub_cancel, hne, if_false, parse_nil hrd]
    have ih := run_nils pre K v0 r (j + 1) (T ++ [NilValue]) (Vt ++ [({} : Value)]) f (by omega) (by omega)
    rw [show pre.length + (j + 1) = pre.length + j + 1 from rfl] at ih
    rw [show (v0 :: Vt ++ [({} : Value)]) = v0 :: (Vt ++ [{}]) from rfl, ih]
    simp only [List.length_append, List.length_singleton, List.append_assoc,
      List.singleton_append, List.replicate_succ]
    rw [show T.length + 1 + r = T.length + (r + 1) by omega,
      show Vt.length + 1 + 1 + r = Vt.length + 1 + (r + 1) by omega]

theorem net2host32_header (K : Nat) (hK : K < 2 ^ 32) (rest : List Byte) :
    net2host32 (0xdd :: u8 (K / 16777216) :: u8 (K / 65536) :: u8 (K / 256) :: u8 K :: rest) 1
      = K := by
  simp only [net2host32, net2host16, rd_cons_succ, rd_cons_zero, u8]
  omega

/-- The decoder on an `array 32` of `K` nils: `K + 1` slots, and the header's
`xoff` is the distance `K + 1` truncated to 32 bits. -/
theorem preprocess_array32_of_nils (K : Nat) (hK : K < 2 ^ 32) :
    preprocess_msgpack (array32_of_nils K)
      = .ok { n_items := K + 1, typeid := ArrayValue :: List.replicate K NilValue,
              value := { xlen := K, xoff := u32 (K + 1) } :: List.replicate K {} } := by
  have hlen : (array32_of_nils K).length = K + 5 := by
    simp [array32_of_nils]
  have hrd : rd (array32_of_nils K) 0 = 0xdd := rfl
  have hn : net2host32 (array32_of_nils K) (0 + 1) = K := net2host32_header K hK _
  have hp : parse (array32_of_nils K) 0 = .nested ArrayValue K K 5 := by
    rw [parse_array32 hrd, hn, if_neg (by rw [hlen]; omega)]
  rw [preprocess_msgpack, hlen, run]
  have hne : (0 : Nat) ≠ (array32_of_nils K).length := by rw [hlen]; omega
  simp only [DState.init, close_loop, ne_eq, Nat.succ_ne_zero, not_false_eq_true, if_true,
    hne, if_false, hp, List.nil_append, List.length_nil]
  have h := run_nils [0xdd, u8 (K / 16777216), u8 (K / 65536), u8 (K / 256), u8 K] K
    { xlen := K, xoff := NO_PATCH } K 0 [ArrayValue] [] (K + 5) (by omega) (by omega)
  simp only [List.length_cons, List.length_nil, List.nil_append, List.singleton_append,
    Value.with_xoff] at h
  rw [show u32 0 = 0 from rfl]
  rw [show (0 + 1 + 1 + 1 + 1 + 1 + 0 : Nat) = 5 from rfl] at h
  rw [show (1 : Nat) - 1 = 0 from rfl]
  unfold array32_of_nils
  rw [h, show 0 + 1 + K = K + 1 by omega]

theorem preprocess_array32_of_nils_4GiB :
    preprocess_msgpack (array32_of_nils (2 ^ 32 - 1))
      = .ok { n_items := 2 ^ 32, typeid := ArrayValue :: List.replicate (2 ^ 32 - 1) NilValue,
              value := { xlen := 2 ^ 32 - 1, xoff := 0 } :: List.replicate (2 ^ 32 - 1) {} } := by
  have h := preprocess_array32_of_nils (2 ^ 32 - 1) (by decide)
  rw [show u32 (2 ^ 32 - 1 + 1) = 0 from by decide,
    show (2 ^ 32 - 1 + 1 : Nat) = 2 ^ 32 from by decide] at h
  exact h

theorem shift_slot_container {k tag : Nat} (h : is_container tag) (v : Value) :
    shift_slot k tag v = v := by
  unfold shift_slot
  rw [if_neg]
  unfold is_container at h
  unfold is_payload
  rcases h with h | h <;> rw [h] <;> decide

theorem shift_payload_length {k : Nat} {T : List Nat} {V : List Value} (h : T.length = V.length) :
    (shift_payload k T V).length = V.length := by
  simp [shift_payload, h]

theorem shift_payload_getElem? (k : Nat) (T : List Nat) (V : List Value) (i : Nat)
    (hT : i < T.length) (hV : i < V.length) :
    (shift_payload k T V)[i]? = some (shift_slot k (T.getD i 0) (V.getD i {})) := by
  simp [shift_payload, List.getElem?_zipWith, List.getD_eq_getElem?_getD,
    List.getElem?_eq_getElem hT, List.getElem?_eq_getElem hV]

theorem shift_payload_set (k : Nat) : ∀ (T : List Nat) (V : List Value) (i : Nat) (w : Value),
    shift_slot k (T.getD i 0) w = w →
    (shift_payload k T V).set i w = shift_payload k T (V.set i w)
  | [], V, i, w, _ => by simp [shift_payload]
  | _ :: _, [], i, w, _ => by simp [shift_payload]
  | a :: T, v :: V, 0, w, h => by
    simp only [shift_payload, List.zipWith_cons_cons, List.set_cons_zero]
    simp only [List.getD_cons_zero] at h
    rw [h]
  | a :: T, v :: V, i + 1, w, h => by
    simp only [shift_payload, List.zipWith_cons_cons, List.set_cons_succ]
    simp only [List.getD_cons_succ] at h
    have := shift_payload_set k T V i w h
    simp only [shift_payload] at this
    rw [this]

theorem shift_payload_append (k : Nat) {T : List Nat} {V : List Value} (h : T.length = V.length)
    (tag : Nat) (v : Value) :
    shift_payload k (T ++ [tag]) (V ++ [v]) = shift_payload k T V ++ [shift_slot k tag v] := by
  simp [shift_payload, List.zipWith_append _ _ _ _ _ h]

/-- The closing loop does the same on the shifted array: it only touches
container headers. -/
theorem close_loop_shift (k : Nat) (T : List Nat) (n : Nat) (hn : n < 2 ^ 32) :
    ∀ (stack : List Nat) (todo patch : Nat) (V : List Value),
    T.length = n → V.length = n → Chain T V stack patch n todo →
    close_loop todo patch stack (shift_payload k T V)
      = (close_loop todo patch stack V).map (shift_payload k T)
  | [], todo, patch, V, _, _, _ => by
    by_cases ht : todo = 0 <;> simp [close_loop, ht, Closed.map]
  | t :: st, todo, patch, V, hT, hV, hc => by
    by_cases ht : todo = 0
    · subst ht
      subst hV
      obtain ⟨h1, h2, h3, ⟨d, h4, h5⟩, h6⟩ := hc
      have hget : V[patch]? = some (V.getD patch {}) := by
        rw [List.getD_eq_getElem?_getD, List.getElem?_eq_getElem h1]
        rfl
      have hget' : (shift_payload k T V)[patch]? = some (V.getD patch {}) := by
        rw [shift_payload_getElem? k T V patch (by omega) h1, shift_slot_container h2]
      have hlen : (V.set patch ((V.getD patch {}).with_xoff (V.length - patch))).length
          = V.length := List.length_set ..
      have hu : u32 (V.length - patch) = V.length - patch := Nat.mod_eq_of_lt (by omega)
      have hch := Chain.close h1 h2 h3 h4 h5 h6
      have ih := close_loop_shift k T V.length hn st t (V.getD patch {}).xoff _ hT hlen hch
      rw [close_loop, close_loop]
      simp only [ne_eq, not_true_eq_false, if_false, hget, hget', shift_payload_length hT, hu]
      rw [shift_payload_set k T V patch _ (shift_slot_container h2 _)]
      exact ih
    · simp [close_loop, ht, Closed.map]

theorem run_fuel_mono (inp : List Byte) {d : Decoded} :
    ∀ (fuel : Nat) (s : DState), run inp fuel s = .ok d →
      ∀ fuel', fuel ≤ fuel' → run inp fuel' s = .ok d
  | 0, s, h, _, _ => by simp [run] at h
  | fuel + 1, s, h, fuel', hf => by
    obtain ⟨f', rfl⟩ : ∃ f', fuel' = f' + 1 := ⟨fuel' - 1, by omega⟩
    rw [run] at h ⊢
    cases hcl : close_loop s.todo s.patch s.stack s.value with
    | fault => rw [hcl] at h; simp at h
    | done V' => rw [hcl] at h; exact h
    | more todo' patch' stack' V' =>
      rw [hcl] at h
      simp only at h ⊢
      by_cases hmi : s.mi = inp.length
      · simp [hmi] at h
      · rw [if_neg hmi] at h ⊢
        cases hp : parse inp s.mi with
        | err e => rw [hp] at h; simp at h
        | item tag v mi' =>
          rw [hp] at h
          exact run_fuel_mono inp fuel _ h f' (by omega)
        | nested tag xlen len mi' =>
          rw [hp] at h
          exact run_fuel_mono inp fuel _ h f' (by omega)

theorem net2host16_append_left (x t : List Byte) (i : Nat) (h : i + 2 ≤ x.length) :
    net2host16 (x ++ t) i = net2host16 x i := by
  simp only [net2host16, rd_append_left x t i (by omega), rd_append_left x t (i + 1) (by omega)]

theorem net2host32_append_left (x t : List Byte) (i : Nat) (h : i + 4 ≤ x.length) :
    net2host32 (x ++ t) i = net2host32 x i := by
  simp only [net2host32, net2host16_append_left x t i (by omega),
    net2host16_append_left x t (i + 2) (by omega)]

theorem net2host64_append_left (x t : List Byte) (i : Nat) (h : i + 8 ≤ x.length) :
    net2host64 (x ++ t) i = net2host64 x i := by
  simp only [net2host64, net2host32_append_left x t i (by omega),
    net2host32_append_left x t (i + 4) (by omega)]

theorem do_xdata_append {x : List Byte} (t : List Byte) {tag len m0 tag' : Nat} {v : Value}
    {mi' : Nat} (hlen : x.length + t.length < 2 ^ 32) (ht : is_payload tag)
    (h : do_xdata x tag len m0 = .item tag' v mi') :
    do_xdata (x ++ t) tag len m0 = .item tag' (shift_slot t.length tag' v) mi' := by
  obtain ⟨e1, e2, e3, e4⟩ := do_xdata_item h
  subst e1 e2 e3
  unfold do_xdata
  rw [if_neg (by rw [List.length_append]; omega)]
  unfold shift_slot
  rw [if_pos ht]
  simp only [Value.with_xoff, List.length_append, u32]
  rw [Nat.mod_eq_of_lt (by omega), Nat.mod_eq_of_lt (by omega)]
  congr 2
  omega

theorem shift_slot_other {k tag : Nat} (h : ¬ is_payload tag) (v : Value) :
    shift_slot k tag v = v := by
  unfold shift_slot
  rw [if_neg h]

/-- Appending bytes to the input does not change what the `switch` does at an
offset where it succeeded, apart from the bank-end-relative `xoff`. -/
theorem parse_append_item {x : List Byte} (t : List Byte) {mi tag : Nat} {v : Value} {mi' : Nat}
    (hlen : x.length + t.length < 2 ^ 32) (hmi : mi < x.length)
    (hp : parse x mi = .item tag v mi') :
    parse (x ++ t) mi = .item tag (shift_slot t.length tag v) mi' := by
  have hb : rd (x ++ t) mi = rd x mi := rd_append_left x t mi hmi
  have hl : (x ++ t).length = x.length + t.length := List.length_append ..
  rcases byte_cases (rd x mi) (rd_lt x mi) with
    h | ⟨h1, h2⟩ | ⟨h1, h2⟩ | ⟨h1, h2⟩ | h | h | h | h | h | h | h | h | h | h | h | h | h | h | h | h | h | h | h | h | h | h | h | h | h | h | h | h | h | h | h | h | h
  all_goals
    first
    | (rw [parse_posfix h] at hp; rw [parse_posfix (hb ▸ h)])
    | (rw [parse_fixmap h1 h2] at hp; rw [parse_fixmap (hb ▸ h1) (hb ▸ h2)])
    | (rw [parse_fixarray h1 h2] at hp; rw [parse_fixarray (hb ▸ h1) (hb ▸ h2)])
    | (rw [parse_fixstr h1 h2] at hp; rw [parse_fixstr (hb ▸ h1) (hb ▸ h2)])
    | (rw [parse_negfix h] at hp; rw [parse_negfix (hb ▸ h)])
    | (rw [parse_nil h] at hp; rw [parse_nil (hb.trans h)])
    | (rw [parse_c1 h] at hp; rw [parse_c1 (hb.trans h)])
    | (rw [parse_false h] at hp; rw [parse_false (hb.trans h)])
    | (rw [parse_true h] at hp; rw [parse_true (hb.trans h)])
    | (rw [parse_bin8 h] at hp; rw [parse_bin8 (hb.trans h)])
    | (rw [parse_bin16 h] at hp; rw [parse_bin16 (hb.trans h)])
    | (rw [parse_bin32 h] at hp; rw [parse_bin32 (hb.trans h)])
    | (rw [parse_ext8 h] at hp; rw [parse_ext8 (hb.trans h)])
    | (rw [parse_ext16 h] at hp; rw [parse_ext16 (hb.trans h)])
    | (rw [parse_ext32 h] at hp; rw [parse_ext32 (hb.trans h)])
    | (rw [parse_float32 h] at hp; rw [parse_float32 (hb.trans h)])
    | (rw [parse_float64 h] at hp; rw [parse_float64 (hb.trans h)])
    | (rw [parse_uint8 h] at hp; rw [parse_uint8 (hb.trans h)])
    | (rw [parse_uint16 h] at hp; rw [parse_uint16 (hb.trans h)])
    | (rw [parse_uint32 h] at hp; rw [parse_uint32 (hb.trans h)])
    | (rw [parse_uint64 h] at hp; rw [parse_uint64 (hb.trans h)])
    | (rw [parse_int8 h] at hp; rw [parse_int8 (hb.trans h)])
    | (rw [parse_int16 h] at hp; rw [parse_int16 (hb.trans h)])
    | (rw [parse_int32 h] at hp; rw [parse_int32 (hb.trans h)])
    | (rw [parse_int64 h] at hp; rw [parse_int64 (hb.trans h)])
    | (rw [parse_fixext1 h] at hp; rw [parse_fixext1 (hb.trans h)])
    | (rw [parse_fixext2 h] at hp; rw [parse_fixext2 (hb.trans h)])
    | (rw [parse_fixext4 h] at hp; rw [parse_fixext4 (hb.trans h)])
    | (rw [parse_fixext8 h] at hp; rw [parse_fixext8 (hb.trans h)])
    | (rw [parse_fixext16 h] at hp; rw [parse_fixext16 (hb.trans h)])
    | (rw [parse_str8 h] at hp; rw [parse_str8 (hb.trans h)])
    | (rw [parse_str16 h] at hp; rw [parse_str16 (hb.trans h)])
    | (rw [parse_str32 h] at hp; rw [parse_str32 (hb.trans h)])
    | (rw [parse_array16 h] at hp; rw [parse_array16 (hb.trans h)])
    | (rw [parse_array32 h] at hp; rw [parse_array32 (hb.trans h)])
    | (rw [parse_map16 h] at hp; rw [parse_map16 (hb.trans h)])
    | (rw [parse_map32 h] at hp; rw [parse_map32 (hb.trans h)])
  all_goals
    first
    | (cases hp; done)
    | (cases hp; rfl)
    | (cases hp; rw [hb]; rfl)
    | (rw [hb]; refine do_xdata_append t hlen ?_ hp; unfold is_payload; decide)
    | (refine do_xdata_append t hlen ?_ hp; unfold is_payload; decide)
    | (split_ifs at hp with hc <;>
       first
       | (cases hp; done)
       | (rw [if_neg (by rw [hl]; omega)]
          first
          | (rw [rd_append_left x t _ (by omega)]
             refine do_xdata_append t hlen ?_ hp; unfold is_payload; decide)
          | (rw [net2host16_append_left x t _ (by omega)]
             refine do_xdata_append t hlen ?_ hp; unfold is_payload; decide)
          | (rw [net2host32_append_left x t _ (by omega)]
             refine do_xdata_append t hlen ?_ hp; unfold is_payload; decide)
          | (rw [rd_append_left x t _ (by omega)]; cases hp; rfl)
          | (rw [net2host16_append_left x t _ (by omega)]; cases hp; rfl)
          | (rw [net2host32_append_left x t _ (by omega)]; cases hp; rfl)
          | (rw [net2host64_append_left x t _ (by omega)]; cases hp; rfl)
          | (rw [net2host64_append_left x t _ (by omega)]; cases hp
             first | (rw [if_pos (by assumption)]; rfl) | (rw [if_neg (by assumption)]; rfl))))

theorem parse_append_nested {x : List Byte} (t : List Byte) {mi tag xlen len : Nat} {mi' : Nat}
    (hmi : mi < x.length) (hp : parse x mi = .nested tag xlen len mi') :
    parse (x ++ t) mi = .nested tag xlen len mi' := by
  have hb : rd (x ++ t) mi = rd x mi := rd_append_left x t mi hmi
  have hl : (x ++ t).length = x.length + t.length := List.length_append ..
  rcases byte_cases (rd x mi) (rd_lt x mi) with
    h | ⟨h1, h2⟩ | ⟨h1, h2⟩ | ⟨h1, h2⟩ | h | h | h | h | h | h | h | h | h | h | h | h | h | h | h | h | h | h | h | h | h | h | h | h | h | h | h | h | h | h | h | h | h
  all_goals
    first
    | (rw [parse_posfix h] at hp; rw [parse_posfix (hb ▸ h)])
    | (rw [parse_fixmap h1 h2] at hp; rw [parse_fixmap (hb ▸ h1) (hb ▸ h2)])
    | (rw [parse_fixarray h1 h2] at hp; rw [parse_fixarray (hb ▸ h1) (hb ▸ h2)])
    | (rw [parse_fixstr h1 h2] at hp; rw [parse_fixstr (hb ▸ h1) (hb ▸ h2)])
    | (rw [parse_negfix h] at hp; rw [parse_negfix (hb ▸ h)])
    | (rw [parse_nil h] at hp; rw [parse_nil (hb.trans h)])
    | (rw [parse_c1 h] at hp; rw [parse_c1 (hb.trans h)])
    | (rw [parse_false h] at hp; rw [parse_false (hb.trans h)])
    | (rw [parse_true h] at hp; rw [parse_true (hb.trans h)])
    | (rw [parse_bin8 h] at hp; rw [parse_bin8 (hb.trans h)])
    | (rw [parse_bin16 h] at hp; rw [parse_bin16 (hb.trans h)])
    | (rw [parse_bin32 h] at hp; rw [parse_bin32 (hb.trans h)])
    | (rw [parse_ext8 h] at hp; rw [parse_ext8 (hb.trans h)])
    | (rw [parse_ext16 h] at hp; rw [parse_ext16 (hb.trans h)])
    | (rw [parse_ext32 h] at hp; rw [parse_ext32 (hb.trans h)])
    | (rw [parse_float32 h] at hp; rw [parse_float32 (hb.trans h)])
    | (rw [parse_float64 h] at hp; rw [parse_float64 (hb.trans h)])
    | (rw [parse_uint8 h] at hp; rw [parse_uint8 (hb.trans h)])
    | (rw [parse_uint16 h] at hp; rw [parse_uint16 (hb.trans h)])
    | (rw [parse_uint32 h] at hp; rw [parse_uint32 (hb.trans h)])
    | (rw [parse_uint64 h] at hp; rw [parse_uint64 (hb.trans h)])
    | (rw [parse_int8 h] at hp; rw [parse_int8 (hb.trans h)])
    | (rw [parse_int16 h] at hp; rw [parse_int16 (hb.trans h)])
    | (rw [parse_int32 h] at hp; rw [parse_int32 (hb.trans h)])
    | (rw [parse_int64 h] at hp; rw [parse_int64 (hb.trans h)])
    | (rw [parse_fixext1 h] at hp; rw [parse_fixext1 (hb.trans h)])
    | (rw [parse_fixext2 h] at hp; rw [parse_fixext2 (hb.trans h)])
    | (rw [parse_fixext4 h] at hp; rw [parse_fixext4 (hb.trans h)])
    | (rw [parse_fixext8 h] at hp; rw [parse_fixext8 (hb.trans h)])
    | (rw [parse_fixext16 h] at hp; rw [parse_fixext16 (hb.trans h)])
    | (rw [parse_str8 h] at hp; rw [parse_str8 (hb.trans h)])
    | (rw [parse_str16 h] at hp; rw [parse_str16 (hb.trans h)])
    | (rw [parse_str32 h] at hp; rw [parse_str32 (hb.trans h)])
    | (rw [parse_array16 h] at hp; rw [parse_array16 (hb.trans h)])
    | (rw [parse_array32 h] at hp; rw [parse_array32 (hb.trans h)])
    | (rw [parse_map16 h] at hp; rw [parse_map16 (hb.trans h)])
    | (rw [parse_map32 h] at hp; rw [parse_map32 (hb.trans h)])
  all_goals
    first
    | exact (do_xdata_not_nested hp).elim
    | (cases hp; done)
    | (cases hp; rw [hb])
    | (split_ifs at hp with hc <;>
       first
       | exact (do_xdata_not_nested hp).elim
       | (cases hp; done)
       | (rw [if_neg (by rw [hl]; omega)]
          first
          | (rw [net2host16_append_left x t _ (by omega)]; cases hp; rfl)
          | (rw [net2host32_append_left x t _ (by omega)]; cases hp; rfl)))

/-- One iteration that writes a slot other than a container header keeps the
invariant. -/
theorem Inv.step_item {inp : List Byte} (hms : inp.length < 2 ^ 32) {s : DState}
    (hi : Inv inp s) {todo' patch' : Nat} {stack' : List Nat} {V' : List Value}
    (hcl : close_loop s.todo s.patch s.stack s.value = .more todo' patch' stack' V')
    (hmi : s.mi ≠ inp.length) {tag : Nat} {v : Value} {mi' : Nat}
    (hp : parse inp s.mi = .item tag v mi') :
    V'.length = s.value.length ∧
    Chain s.typeid V' stack' patch' s.value.length (todo' + 1) ∧
    Inv inp { mi := mi', typeid := s.typeid ++ [tag], value := V' ++ [v], todo := todo',
              patch := patch', stack := stack' } := by
  have hn : s.value.length < 2 ^ 32 := by
    have := hi.le_mi; have := hi.mi_le; omega
  have hlt : s.mi < inp.length := Nat.lt_of_le_of_ne hi.mi_le hmi
  rcases close_loop_spec s.typeid s.value.length hn s.stack s.todo s.patch s.value rfl hi.chain
    with ⟨V'', e1, -⟩ | ⟨todo'', patch'', stack'', V'', e1, e2, e3, e4⟩
  · rw [hcl] at e1; cases e1
  · rw [hcl] at e1
    cases e1
    obtain ⟨b1, b2, b3, b4⟩ := parse_item_bounds hlt hp
    refine ⟨e2, e3, ?_⟩
    exact {
      len_eq := by simp [hi.len_eq, e2]
      le_mi := by simp only [List.length_append, List.length_singleton]; have := hi.le_mi; omega
      mi_le := b2
      chain := by
        simp only [List.length_append, List.length_singleton, e2]
        exact Chain.push_item hi.len_eq e2 v (by unfold is_container; omega) e3
      prov := by
        simp only [List.length_append, List.length_singleton, e2]
        exact (hi.prov.keep e4).add_item hi.len_eq e2 hlt hp }

/-- One iteration that writes a container header keeps the invariant. -/
theorem Inv.step_nested {inp : List Byte} (hms : inp.length < 2 ^ 32) {s : DState}
    (hi : Inv inp s) {todo' patch' : Nat} {stack' : List Nat} {V' : List Value}
    (hcl : close_loop s.todo s.patch s.stack s.value = .more todo' patch' stack' V')
    (hmi : s.mi ≠ inp.length) {tag xlen len : Nat} {mi' : Nat}
    (hp : parse inp s.mi = .nested tag xlen len mi') :
    V'.length = s.value.length ∧
    Inv inp { mi := mi', typeid := s.typeid ++ [tag],
              value := V' ++ [{ xlen := xlen, xoff := patch' }],
              todo := len, patch := u32 V'.length, stack := todo' :: stack' } := by
  have hn : s.value.length < 2 ^ 32 := by
    have := hi.le_mi; have := hi.mi_le; omega
  have hlt : s.mi < inp.length := Nat.lt_of_le_of_ne hi.mi_le hmi
  rcases close_loop_spec s.typeid s.value.length hn s.stack s.todo s.patch s.value rfl hi.chain
    with ⟨V'', e1, -⟩ | ⟨todo'', patch'', stack'', V'', e1, e2, e3, e4⟩
  · rw [hcl] at e1; cases e1
  · rw [hcl] at e1
    cases e1
    obtain ⟨b1, b2, b3, b4⟩ := parse_nested_bounds hlt hp
    refine ⟨e2, ?_⟩
    exact {
      len_eq := by simp [hi.len_eq, e2]
      le_mi := by simp only [List.length_append, List.length_singleton]; have := hi.le_mi; omega
      mi_le := b2
      chain := by
        simp only [List.length_append, List.length_singleton, e2]
        rw [show u32 s.value.length = s.value.length from Nat.mod_eq_of_lt hn]
        exact Chain.push_nested hi.len_eq e2 b3 b4 e3
      prov := by
        simp only [List.length_append, List.length_singleton, e2]
        exact (hi.prov.keep e4).add_nested hi.len_eq e2 hlt hp }

/-- The decoder on `x ++ t` runs in step with the decoder on `x`: the same
registers, and the value array shifted by `t.length`. -/
theorem run_append (x t : List Byte) (hlen : x.length + t.length < 2 ^ 32) {d : Decoded} :
    ∀ (fuel : Nat) (s : DState), Inv x s → run x fuel s = .ok d →
      run (x ++ t) fuel { s with value := shift_payload t.length s.typeid s.value }
        = .ok { d with value := shift_payload t.length d.typeid d.value }
  | 0, s, _, h => by simp [run] at h
  | fuel + 1, s, hi, h => by
    have hms : x.length < 2 ^ 32 := by omega
    have hn : s.value.length < 2 ^ 32 := by
      have := hi.le_mi; have := hi.mi_le; omega
    have hsh := close_loop_shift t.length s.typeid s.value.length hn s.stack s.todo s.patch
      s.value hi.len_eq rfl hi.chain
    rw [run] at h ⊢
    simp only
    rw [hsh]
    cases hcl : close_loop s.todo s.patch s.stack s.value with
    | fault => rw [hcl] at h; simp at h
    | done V' =>
      rw [hcl] at h
      simp only [Except.ok.injEq] at h
      subst h
      rfl
    | more todo' patch' stack' V' =>
      rw [hcl] at h
      simp only [Closed.map] at h ⊢
      by_cases hmi : s.mi = x.length
      · simp [hmi] at h
      · have hlt : s.mi < x.length := Nat.lt_of_le_of_ne hi.mi_le hmi
        rw [if_neg hmi] at h
        rw [if_neg (by rw [List.length_append]; omega)]
        cases hp : parse x s.mi with
        | err e => rw [hp] at h; simp at h
        | item tag v mi' =>
          rw [hp] at h
          obtain ⟨e2, -, hi'⟩ := hi.step_item hms hcl hmi hp
          have ih := run_append x t hlen fuel _ hi' h
          rw [parse_append_item t hlen hlt hp]
          simp only at ih ⊢
          rw [shift_payload_append _ (by rw [e2]; exact hi.len_eq)] at ih
          exact ih
        | nested tag xlen len mi' =>
          rw [hp] at h
          obtain ⟨e2, hi'⟩ := hi.step_nested hms hcl hmi hp
          have ih := run_append x t hlen fuel _ hi' h
          rw [parse_append_nested t hlt hp]
          simp only at ih ⊢
          rw [shift_payload_append _ (by rw [e2]; exact hi.len_eq),
            shift_slot_container (parse_nested_bounds hlt hp).2.2.1] at ih
          rw [shift_payload_length (by rw [e2]; exact hi.len_eq)]
          exact ih

theorem tail_4GiB_length : tail_4GiB.length = 2 ^ 32 := List.length_replicate ..

/-- The decoder on an empty fixstr followed by any bytes `t`. -/
theorem preprocess_empty_fixstr (t : List Byte) :
    preprocess_msgpack (0xa0 :: t)
      = .ok { n_items := 1, typeid := [StringValue],
              value := [{ xlen := 0, xoff := u32 t.length }] } := by
  have hrd : rd (0xa0 :: t) 0 = 0xa0 := rfl
  have hp : parse (0xa0 :: t) 0 = .item StringValue { xlen := 0, xoff := u32 t.length } 1 := by
    rw [parse_fixstr (Nat.le_of_eq hrd.symm) (hrd ▸ (by decide : (0xa0 : Nat) ≤ 0xbf)), hrd]
    simp [do_xdata]
  simp [preprocess_msgpack, run, close_loop, DState.init, hp]

/-- A document that is a single element other than a container header decodes
to the one slot the `switch` writes for it. -/
theorem preprocess_single_item {l : List Byte} {tag : Nat} {v : Value} {mi' : Nat}
    (hl : l ≠ []) (hp : parse l 0 = .item tag v mi') :
    preprocess_msgpack l = .ok { n_items := 1, typeid := [tag], value := [v] } := by
  have hne : (0 : Nat) ≠ l.length := by
    intro h
    exact hl (List.length_eq_zero.mp h.symm)
  obtain ⟨f, hf⟩ : ∃ f, l.length = f + 1 := ⟨l.length - 1, by omega⟩
  rw [preprocess_msgpack, hf]
  simp [run, close_loop, DState.init, hp, hf]

theorem parse_ulong_only {inp : List Byte} {mi : Nat} {v : Value} {mi' : Nat}
    (hp : parse inp mi = .item UlongValue v mi') :
    rd inp mi = 0xcf ∧ v.uval = net2host64 inp (mi + 1) ∧ 2 ^ 63 - 1 < v.uval := by
  rcases byte_cases (rd inp mi) (rd_lt inp mi) with
    h | ⟨h1, h2⟩ | ⟨h1, h2⟩ | ⟨h1, h2⟩ | h | h | h | h | h | h | h | h | h | h | h | h | h | h | h | h | h | h | h | h | h | h | h | h | h | h | h | h | h | h | h | h | h
  all_goals
    first
    | rw [parse_posfix h] at hp
    | rw [parse_fixmap h1 h2] at hp
    | rw [parse_fixarray h1 h2] at hp
    | rw [parse_fixstr h1 h2] at hp
    | rw [parse_negfix h] at hp
    | rw [parse_nil h] at hp
    | rw [parse_c1 h] at hp
    | rw [parse_false h] at hp
    | rw [parse_true h] at hp
    | rw [parse_bin8 h] at hp
    | rw [parse_bin16 h] at hp
    | rw [parse_bin32 h] at hp
    | rw [parse_ext8 h] at hp
    | rw [parse_ext16 h] at hp
    | rw [parse_ext32 h] at hp
    | rw [parse_float32 h] at hp
    | rw [parse_float64 h] at hp
    | rw [parse_uint8 h] at hp
    | rw [parse_uint16 h] at hp
    | rw [parse_uint32 h] at hp
    | rw [parse_uint64 h] at hp
    | rw [parse_int8 h] at hp
    | rw [parse_int16 h] at hp
    | rw [parse_int32 h] at hp
    | rw [parse_int64 h] at hp
    | rw [parse_fixext1 h] at hp
    | rw [parse_fixext2 h] at hp
    | rw [parse_fixext4 h] at hp
    | rw [parse_fixext8 h] at hp
    | rw [parse_fixext16 h] at hp
    | rw [parse_str8 h] at hp
    | rw [parse_str16 h] at hp
    | rw [parse_str32 h] at hp
    | rw [parse_array16 h] at hp
    | rw [parse_array32 h] at hp
    | rw [parse_map16 h] at hp
    | rw [parse_map32 h] at hp
  all_goals
    first
    | cases hp
    | exact absurd (do_xdata_item hp).1 (by decide)
    | (split_ifs at hp <;>
       first
       | (cases hp; done)
       | exact absurd (do_xdata_item hp).1 (by decide)
       | (cases hp; refine ⟨h, rfl, ?_⟩; assumption))

theorem be_nat_one (b0 : Byte) : be_nat [b0] = b0.val := by
  simp [be_nat]

theorem be_nat_two (b0 b1 : Byte) : be_nat [b0, b1] = b0.val * 256 + b1.val := by
  simp [be_nat]

theorem be_nat_four (b0 b1 b2 b3 : Byte) :
    be_nat [b0, b1, b2, b3]
      = (b0.val * 256 + b1.val) * 65536 + (b2.val * 256 + b3.val) := by
  simp [be_nat]; omega

theorem be_nat_eight (b0 b1 b2 b3 b4 b5 b6 b7 : Byte) :
    be_nat [b0, b1, b2, b3, b4, b5, b6, b7]
      = ((b0.val * 256 + b1.val) * 65536 + (b2.val * 256 + b3.val)) * 4294967296
        + ((b4.val * 256 + b5.val) * 65536 + (b6.val * 256 + b7.val)) := by
  simp [be_nat]; omega

theorem word64_nat (n : Nat) (h : n < 2 ^ 64) : word64 (n : Int) = n := by
  unfold word64; omega

theorem word64_be_int_one (b0 : Byte) : word64 (be_int [b0]) = sext 8 b0.val := by
  simp only [be_int, be_nat_one, List.length_cons, List.length_nil]
  unfold word64 sext
  split_ifs <;> omega

theorem word64_be_int_two (b0 b1 : Byte) :
    word64 (be_int [b0, b1]) = sext 16 (b0.val * 256 + b1.val) := by
  simp only [be_int, be_nat_two, List.length_cons, List.length_nil]
  unfold word64 sext
  split_ifs <;> omega

theorem word64_be_int_four (b0 b1 b2 b3 : Byte) :
    word64 (be_int [b0, b1, b2, b3])
      = sext 32 ((b0.val * 256 + b1.val) * 65536 + (b2.val * 256 + b3.val)) := by
  simp only [be_int, be_nat_four, List.length_cons, List.length_nil]
  unfold word64 sext
  split_ifs <;> omega

theorem word64_be_int_eight (b0 b1 b2 b3 b4 b5 b6 b7 : Byte) :
    word64 (be_int [b0, b1, b2, b3, b4, b5, b6, b7])
      = ((b0.val * 256 + b1.val) * 65536 + (b2.val * 256 + b3.val)) * 4294967296
        + ((b4.val * 256 + b5.val) * 65536 + (b6.val * 256 + b7.val)) := by
  simp only [be_int, be_nat_eight, List.length_cons, List.length_nil]
  unfold word64
  split_ifs <;> omega

theorem be_int_le_one (b0 : Byte) : ¬ (2 ^ 63 - 1 < be_int [b0]) := by
  simp only [be_int, be_nat_one, List.length_cons, List.length_nil]
  split_ifs <;> omega

theorem be_int_le_two (b0 b1 : Byte) : ¬ (2 ^ 63 - 1 < be_int [b0, b1]) := by
  simp only [be_int, be_nat_two, List.length_cons, List.length_nil]
  split_ifs <;> omega

theorem be_int_le_four (b0 b1 b2 b3 : Byte) : ¬ (2 ^ 63 - 1 < be_int [b0, b1, b2, b3]) := by
  simp only [be_int, be_nat_four, List.length_cons, List.length_nil]
  split_ifs <;> omega

theorem be_int_le_eight (b0 b1 b2 b3 b4 b5 b6 b7 : Byte) :
    ¬ (2 ^ 63 - 1 < be_int [b0, b1, b2, b3, b4, b5, b6, b7]) := by
  simp only [be_int, be_nat_eight, List.length_cons, List.length_nil]
  split_ifs <;> omega

theorem parse_intwire (w : IntWire) (pre rest : List Byte) :
    parse (pre ++ (w.bytes ++ rest)) pre.length
      = .item w.tag { uval := word64 w.denote } (pre.length + w.bytes.length) := by
  cases w with
  | posfix n =>
    have hn := n.isLt
    have hrd : rd (pre ++ ([u8 n.val] ++ rest)) pre.length = n.val := by
      rw [rd_append_length]; simp [rd_cons_zero, u8]; omega
    rw [IntWire.bytes, parse_posfix (by omega), hrd, IntWire.tag, IntWire.denote,
      if_neg (by omega), word64_nat _ (by omega)]
    rfl
  | negfix n =>
    have hn := n.isLt
    have hrd : rd (pre ++ ([u8 (0xe0 + n.val)] ++ rest)) pre.length = 0xe0 + n.val := by
      rw [rd_append_length]; simp [rd_cons_zero, u8]; omega
    have hw : word64 ((n.val : Int) - 32) = sext 8 (0xe0 + n.val) := by
      unfold word64 sext
      split_ifs <;> omega
    rw [IntWire.bytes, parse_negfix (by omega), hrd, IntWire.tag, IntWire.denote,
      if_neg (by omega), hw]
    rfl
  | uint8 b0 =>
    have hrd : rd (pre ++ ([0xcc, b0] ++ rest)) pre.length = 0xcc := by
      rw [rd_append_length]; rfl
    rw [IntWire.bytes, parse_uint8 hrd, if_neg (by simp)]
    simp only [List.cons_append, List.nil_append, Nat.add_assoc, Nat.reduceAdd,
      rd_append_right, rd_cons_succ, rd_cons_zero, List.length_cons, List.length_nil]
    rw [IntWire.tag, IntWire.denote, be_nat_one, if_neg (by omega), word64_nat _ (by omega)]
  | uint16 b0 b1 =>
    have hrd : rd (pre ++ ([0xcd, b0, b1] ++ rest)) pre.length = 0xcd := by
      rw [rd_append_length]; rfl
    rw [IntWire.bytes, parse_uint16 hrd, if_neg (by simp)]
    simp only [net2host16, List.cons_append, List.nil_append, Nat.add_assoc, Nat.reduceAdd,
      rd_append_right, rd_cons_succ, rd_cons_zero, List.length_cons, List.length_nil]
    rw [IntWire.tag, IntWire.denote, be_nat_two, if_neg (by omega), word64_nat _ (by omega)]
  | uint32 b0 b1 b2 b3 =>
    have hrd : rd (pre ++ ([0xce, b0, b1, b2, b3] ++ rest)) pre.length = 0xce := by
      rw [rd_append_length]; rfl
    rw [IntWire.bytes, parse_uint32 hrd, if_neg (by simp)]
    simp only [net2host32, net2host16, List.cons_append, List.nil_append, Nat.add_assoc, Nat.reduceAdd,
      rd_append_right, rd_cons_succ, rd_cons_zero, List.length_cons, List.length_nil]
    rw [IntWire.tag, IntWire.denote, be_nat_four, if_neg (by omega), word64_nat _ (by omega)]
  | uint64 b0 b1 b2 b3 b4 b5 b6 b7 =>
    have hrd : rd (pre ++ ([0xcf, b0, b1, b2, b3, b4, b5, b6, b7] ++ rest)) pre.length = 0xcf := by
      rw [rd_append_length]; rfl
    rw [IntWire.bytes, parse_uint64 hrd, if_neg (by simp)]
    simp only [net2host64, net2host32, net2host16, List.cons_append, List.nil_append, Nat.add_assoc, Nat.reduceAdd,
      rd_append_right, rd_cons_succ, rd_cons_zero, List.length_cons, List.length_nil]
    rw [IntWire.tag, IntWire.denote, be_nat_eight, word64_nat _ (by omega)]
    by_cases hv : ((b0.val * 256 + b1.val) * 65536 + (b2.val * 256 + b3.val)) * 4294967296
        + ((b4.val * 256 + b5.val) * 65536 + (b6.val * 256 + b7.val)) > 2 ^ 63 - 1
    · rw [if_pos hv, if_pos (by omega)]
    · rw [if_neg hv, if_neg (by omega)]
  | int8 b0 =>
    have hrd : rd (pre ++ ([0xd0, b0] ++ rest)) pre.length = 0xd0 := by
      rw [rd_append_length]; rfl
    rw [IntWire.bytes, parse_int8 hrd, if_neg (by simp)]
    simp only [List.cons_append, List.nil_append, Nat.add_assoc, Nat.reduceAdd,
      rd_append_right, rd_cons_succ, rd_cons_zero, List.length_cons, List.length_nil]
    rw [IntWire.tag, IntWire.denote, if_neg (be_int_le_one b0), word64_be_int_one]
  | int16 b0 b1 =>
    have hrd : rd (pre ++ ([0xd1, b0, b1] ++ rest)) pre.length = 0xd1 := by
      rw [rd_append_length]; rfl
    rw [IntWire.bytes, parse_int16 hrd, if_neg (by simp)]
    simp only [net2host16, List.cons_append, List.nil_append, Nat.add_assoc, Nat.reduceAdd,
      rd_append_right, rd_cons_succ, rd_cons_zero, List.length_cons, List.length_nil]
    rw [IntWire.tag, IntWire.denote, if_neg (be_int_le_two b0 b1), word64_be_int_two]
  | int32 b0 b1 b2 b3 =>
    have hrd : rd (pre ++ ([0xd2, b0, b1, b2, b3] ++ rest)) pre.length = 0xd2 := by
      rw [rd_append_length]; rfl
    rw [IntWire.bytes, parse_int32 hrd, if_neg (by simp)]
    simp only [net2host32, net2host16, List.cons_append, List.nil_append, Nat.add_assoc, Nat.reduceAdd,
      rd_append_right, rd_cons_succ, rd_cons_zero, List.length_cons, List.length_nil]
    rw [IntWire.tag, IntWire.denote, if_neg (be_int_le_four b0 b1 b2 b3), word64_be_int_four]
  | int64 b0 b1 b2 b3 b4 b5 b6 b7 =>
    have hrd : rd (pre ++ ([0xd3, b0, b1, b2, b3, b4, b5, b6, b7] ++ rest)) pre.length = 0xd3 := by
      rw [rd_append_length]; rfl
    rw [IntWire.bytes, parse_int64 hrd, if_neg (by simp)]
    simp only [net2host64, net2host32, net2host16, List.cons_append, List.nil_append, Nat.add_assoc, Nat.reduceAdd,
      rd_append_right, rd_cons_succ, rd_cons_zero, List.length_cons, List.length_nil]
    rw [IntWire.tag, IntWire.denote, if_neg (be_int_le_eight b0 b1 b2 b3 b4 b5 b6 b7), word64_be_int_eight]

theorem IntWire.denote_range (w : IntWire) :
    -(2 ^ 63) ≤ w.denote ∧ w.denote < 2 ^ 64 ∧
      (2 ^ 63 - 1 < w.denote → ∃ b0 b1 b2 b3 b4 b5 b6 b7, w = .uint64 b0 b1 b2 b3 b4 b5 b6 b7) := by
  cases w with
  | posfix n =>
    have := n.isLt
    simp only [IntWire.denote]
    exact ⟨by omega, by omega, fun h => absurd h (by omega)⟩
  | negfix n =>
    have := n.isLt
    simp only [IntWire.denote]
    exact ⟨by omega, by omega, fun h => absurd h (by omega)⟩
  | uint8 b0 =>
    simp only [IntWire.denote, be_nat_one]
    exact ⟨by omega, by omega, fun h => absurd h (by omega)⟩
  | uint16 b0 b1 =>
    simp only [IntWire.denote, be_nat_two]
    exact ⟨by omega, by omega, fun h => absurd h (by omega)⟩
  | uint32 b0 b1 b2 b3 =>
    simp only [IntWire.denote, be_nat_four]
    exact ⟨by omega, by omega, fun h => absurd h (by omega)⟩
  | uint64 b0 b1 b2 b3 b4 b5 b6 b7 =>
    simp only [IntWire.denote, be_nat_eight]
    exact ⟨by omega, by omega, fun _ => ⟨b0, b1, b2, b3, b4, b5, b6, b7, rfl⟩⟩
  | int8 b0 =>
    simp only [IntWire.denote, be_int, be_nat_one, List.length_cons, List.length_nil]
    refine ⟨?_, ?_, fun h => absurd h ?_⟩ <;> split_ifs <;> omega
  | int16 b0 b1 =>
    simp only [IntWire.denote, be_int, be_nat_two, List.length_cons, List.length_nil]
    refine ⟨?_, ?_, fun h => absurd h ?_⟩ <;> split_ifs <;> omega
  | int32 b0 b1 b2 b3 =>
    simp only [IntWire.denote, be_int, be_nat_four, List.length_cons, List.length_nil]
    refine ⟨?_, ?_, fun h => absurd h ?_⟩ <;> split_ifs <;> omega
  | int64 b0 b1 b2 b3 b4 b5 b6 b7 =>
    simp only [IntWire.denote, be_int, be_nat_eight, List.length_cons, List.length_nil]
    refine ⟨?_, ?_, fun h => absurd h ?_⟩ <;> split_ifs <;> omega

theorem IntWire.bytes_ne_nil (w : IntWire) (rest : List Byte) : w.bytes ++ rest ≠ [] := by
  cases w <;> simp [IntWire.bytes]

theorem u8_congr (a b : Nat) (h : a % 256 = b % 256) : u8 a = u8 b :=
  Fin.ext h

theorem be_bytes_one (n : Nat) : be_bytes 1 n = [u8 n] := by
  simp [be_bytes]

theorem be_bytes_two (n : Nat) : be_bytes 2 n = [u8 (n / 256), u8 n] := by
  simp [be_bytes]

theorem be_bytes_four (n : Nat) :
    be_bytes 4 n = [u8 (n / 16777216), u8 (n / 65536), u8 (n / 256), u8 n] := by
  simp [be_bytes]

theorem be_bytes_eight (n : Nat) :
    be_bytes 8 n = [u8 (n / 72057594037927936), u8 (n / 281474976710656),
      u8 (n / 1099511627776), u8 (n / 4294967296), u8 (n / 16777216), u8 (n / 65536),
      u8 (n / 256), u8 n] := by
  simp [be_bytes]

theorem host2net16_eq (x t : Nat) (h : x % 65536 = t % 65536) :
    host2net16 x = be_bytes 2 t := by
  rw [be_bytes_two, host2net16]
  rw [u8_congr (x / 256) (t / 256) (by omega), u8_congr (x) (t) (by omega)]

theorem host2net32_eq (x t : Nat) (h : x % 4294967296 = t % 4294967296) :
    host2net32 x = be_bytes 4 t := by
  rw [be_bytes_four, host2net32, host2net16, host2net16]
  rw [u8_congr (x / 65536 / 256) (t / 16777216) (by omega),
    u8_congr (x / 65536) (t / 65536) (by omega),
    u8_congr (x / 256) (t / 256) (by omega), u8_congr (x) (t) (by omega)]
  rfl

theorem host2net64_eq (x t : Nat) (h : x % 18446744073709551616 = t % 18446744073709551616) :
    host2net64 x = be_bytes 8 t := by
  rw [be_bytes_eight, host2net64, host2net32, host2net32, host2net16, host2net16, host2net16,
    host2net16]
  rw [u8_congr (x / 4294967296 / 65536 / 256) (t / 72057594037927936) (by omega),
    u8_congr (x / 4294967296 / 65536) (t / 281474976710656) (by omega),
    u8_congr (x / 4294967296 / 256) (t / 1099511627776) (by omega),
    u8_congr (x / 4294967296) (t / 4294967296) (by omega),
    u8_congr (x / 65536 / 256) (t / 16777216) (by omega),
    u8_congr (x / 65536) (t / 65536) (by omega),
    u8_congr (x / 256) (t / 256) (by omega), u8_congr (x) (t) (by omega)]
  rfl

theorem shortest_int_fix {v : Int} (h1 : -32 ≤ v) (h2 : v ≤ 127) :
    shortest_int v = be_bytes 1 (twos 1 v) := by
  unfold shortest_int
  split_ifs <;> rfl

theorem shortest_int_u8 {v : Int} (h1 : 127 < v) (h2 : v ≤ 255) :
    shortest_int v = 0xcc :: be_bytes 1 (twos 1 v) := by
  unfold shortest_int
  split_ifs <;> first | rfl | omega

theorem shortest_int_u16 {v : Int} (h1 : 255 < v) (h2 : v ≤ 65535) :
    shortest_int v = 0xcd :: be_bytes 2 (twos 2 v) := by
  unfold shortest_int
  split_ifs <;> first | rfl | omega

theorem shortest_int_u32 {v : Int} (h1 : 65535 < v) (h2 : v ≤ 2 ^ 32 - 1) :
    shortest_int v = 0xce :: be_bytes 4 (twos 4 v) := by
  unfold shortest_int
  split_ifs <;> first | rfl | omega

theorem shortest_int_u64 {v : Int} (h1 : 2 ^ 32 - 1 < v) :
    shortest_int v = 0xcf :: be_bytes 8 (twos 8 v) := by
  unfold shortest_int
  split_ifs <;> first | rfl | omega

theorem shortest_int_i8 {v : Int} (h1 : -128 ≤ v) (h2 : v < -32) :
    shortest_int v = 0xd0 :: be_bytes 1 (twos 1 v) := by
  unfold shortest_int
  split_ifs <;> first | rfl | omega

theorem shortest_int_i16 {v : Int} (h1 : -32768 ≤ v) (h2 : v < -128) :
    shortest_int v = 0xd1 :: be_bytes 2 (twos 2 v) := by
  unfold shortest_int
  split_ifs <;> first | rfl | omega

theorem shortest_int_i32 {v : Int} (h1 : -(2 ^ 31) ≤ v) (h2 : v < -32768) :
    shortest_int v = 0xd2 :: be_bytes 4 (twos 4 v) := by
  unfold shortest_int
  split_ifs <;> first | rfl | omega

theorem shortest_int_i64 {v : Int} (h2 : v < -(2 ^ 31)) :
    shortest_int v = 0xd3 :: be_bytes 8 (twos 8 v) := by
  unfold shortest_int
  split_ifs <;> first | rfl | omega

theorem emit_ulong_shortest (u : Nat) (h : u ≤ 2 ^ 63 - 1) :
    emit_ulong u = shortest_int (u : Int) := by
  unfold emit_ulong
  by_cases h1 : u ≤ 0x7f
  · rw [if_pos h1, shortest_int_fix (by omega) (by omega), be_bytes_one]
    exact congrArg (fun b => [b]) (u8_congr _ _ (by unfold twos; omega))
  rw [if_neg h1]
  by_cases h2 : u ≤ 255
  · rw [if_pos h2, shortest_int_u8 (by omega) (by omega), be_bytes_one]
    exact congrArg (fun b => [_, b]) (u8_congr _ _ (by unfold twos; omega))
  rw [if_neg h2]
  by_cases h3 : u ≤ 65535
  · rw [if_pos h3, shortest_int_u16 (by omega) (by omega)]
    exact congrArg (List.cons _) (host2net16_eq _ _ (by unfold twos; omega))
  rw [if_neg h3]
  by_cases h4 : u ≤ 4294967295
  · rw [if_pos h4, shortest_int_u32 (by omega) (by omega)]
    exact congrArg (List.cons _) (host2net32_eq _ _ (by unfold twos; omega))
  rw [if_neg h4, shortest_int_u64 (by omega)]
  exact congrArg (List.cons _) (host2net64_eq _ _ (by unfold twos; omega))

theorem emit_long_shortest (val : Value) (h : val.uval < 2 ^ 64) :
    emit_long val.uval = shortest_int val.ival := by
  unfold emit_long Value.ival
  by_cases hneg : val.uval > 2 ^ 63 - 1
  · rw [if_pos hneg, if_neg (show ¬ val.uval < 2 ^ 63 by omega)]
    by_cases h1 : val.uval ≥ 2 ^ 64 - 0x20
    · rw [if_pos h1, shortest_int_fix (by omega) (by omega), be_bytes_one]
      exact congrArg (fun b => [b]) (u8_congr _ _ (by unfold twos; omega))
    rw [if_neg h1]
    by_cases h2 : val.uval ≥ 2 ^ 64 - 2 ^ 7
    · rw [if_pos h2, shortest_int_i8 (by omega) (by omega), be_bytes_one]
      exact congrArg (fun b => [_, b]) (u8_congr _ _ (by unfold twos; omega))
    rw [if_neg h2]
    by_cases h3 : val.uval ≥ 2 ^ 64 - 2 ^ 15
    · rw [if_pos h3, shortest_int_i16 (by omega) (by omega)]
      exact congrArg (List.cons _) (host2net16_eq _ _ (by unfold twos; omega))
    rw [if_neg h3]
    by_cases h4 : val.uval ≥ 2 ^ 64 - 2 ^ 31
    · rw [if_pos h4, shortest_int_i32 (by omega) (by omega)]
      exact congrArg (List.cons _) (host2net32_eq _ _ (by unfold twos; omega))
    rw [if_neg h4, shortest_int_i64 (by omega)]
    exact congrArg (List.cons _) (host2net64_eq _ _ (by unfold twos; omega))
  · rw [if_neg hneg, if_pos (show val.uval < 2 ^ 63 by omega)]
    exact emit_ulong_shortest _ (by omega)

theorem u8_val (n : Nat) : (u8 n).val = n % 256 := rfl

/-- The shortest form of `v` is one of the integer wire forms and denotes `v`. -/
theorem shortest_int_wire (v : Int) (h1 : -(2 ^ 63) ≤ v) (h2 : v ≤ 2 ^ 63 - 1) :
    ∃ w : IntWire, w.bytes = shortest_int v ∧ w.denote = v := by
  by_cases hneg : v < 0
  · by_cases c1 : -32 ≤ v
    · refine ⟨.negfix ⟨(v + 32).toNat, by omega⟩, ?_, ?_⟩
      · rw [shortest_int_fix c1 (by omega), be_bytes_one, IntWire.bytes]
        exact congrArg (fun b => [b]) (u8_congr _ _ (by unfold twos; simp only; omega))
      · simp only [IntWire.denote]; omega
    by_cases c2 : -128 ≤ v
    · refine ⟨.int8 (u8 (twos 1 v)), ?_, ?_⟩
      · rw [shortest_int_i8 c2 (by omega), be_bytes_one, IntWire.bytes]
      · simp only [IntWire.denote, be_int, be_nat_one, u8_val, List.length_cons, List.length_nil]
        unfold twos
        split_ifs <;> omega
    by_cases c3 : -32768 ≤ v
    · refine ⟨.int16 (u8 (twos 2 v / 256)) (u8 (twos 2 v)), ?_, ?_⟩
      · rw [shortest_int_i16 c3 (by omega), be_bytes_two, IntWire.bytes]
      · simp only [IntWire.denote, be_int, be_nat_two, u8_val, List.length_cons, List.length_nil]
        unfold twos
        split_ifs <;> omega
    by_cases c4 : -(2 ^ 31) ≤ v
    · refine ⟨.int32 (u8 (twos 4 v / 16777216)) (u8 (twos 4 v / 65536)) (u8 (twos 4 v / 256))
        (u8 (twos 4 v)), ?_, ?_⟩
      · rw [shortest_int_i32 c4 (by omega), be_bytes_four, IntWire.bytes]
      · simp only [IntWire.denote, be_int, be_nat_four, u8_val, List.length_cons, List.length_nil]
        unfold twos
        split_ifs <;> omega
    · refine ⟨.int64 (u8 (twos 8 v / 72057594037927936)) (u8 (twos 8 v / 281474976710656))
        (u8 (twos 8 v / 1099511627776)) (u8 (twos 8 v / 4294967296)) (u8 (twos 8 v / 16777216))
        (u8 (twos 8 v / 65536)) (u8 (twos 8 v / 256)) (u8 (twos 8 v)), ?_, ?_⟩
      · rw [shortest_int_i64 (by omega), be_bytes_eight, IntWire.bytes]
      · simp only [IntWire.denote, be_int, be_nat_eight, u8_val, List.length_cons, List.length_nil]
        unfold twos
        split_ifs <;> omega
  · by_cases c1 : v ≤ 127
    · refine ⟨.posfix ⟨v.toNat, by omega⟩, ?_, ?_⟩
      · rw [shortest_int_fix (by omega) c1, be_bytes_one, IntWire.bytes]
        exact congrArg (fun b => [b]) (u8_congr _ _ (by unfold twos; simp only; omega))
      · simp only [IntWire.denote]; omega
    by_cases c2 : v ≤ 255
    · refine ⟨.uint8 (u8 (twos 1 v)), ?_, ?_⟩
      · rw [shortest_int_u8 (by omega) c2, be_bytes_one, IntWire.bytes]
      · simp only [IntWire.denote, be_nat_one, u8_val]
        unfold twos
        omega
    by_cases c3 : v ≤ 65535
    · refine ⟨.uint16 (u8 (twos 2 v / 256)) (u8 (twos 2 v)), ?_, ?_⟩
      · rw [shortest_int_u16 (by omega) c3, be_bytes_two, IntWire.bytes]
      · simp only [IntWire.denote, be_nat_two, u8_val]
        unfold twos
        omega
    by_cases c4 : v ≤ 2 ^ 32 - 1
    · refine ⟨.uint32 (u8 (twos 4 v / 16777216)) (u8 (twos 4 v / 65536)) (u8 (twos 4 v / 256))
        (u8 (twos 4 v)), ?_, ?_⟩
      · rw [shortest_int_u32 (by omega) c4, be_bytes_four, IntWire.bytes]
      · simp only [IntWire.denote, be_nat_four, u8_val]
        unfold twos
        omega
    · refine ⟨.uint64 (u8 (twos 8 v / 72057594037927936)) (u8 (twos 8 v / 281474976710656))
        (u8 (twos 8 v / 1099511627776)) (u8 (twos 8 v / 4294967296)) (u8 (twos 8 v / 16777216))
        (u8 (twos 8 v / 65536)) (u8 (twos 8 v / 256)) (u8 (twos 8 v)), ?_, ?_⟩
      · rw [shortest_int_u64 (by omega), be_bytes_eight, IntWire.bytes]
      · simp only [IntWire.denote, be_nat_eight, u8_val]
        unfold twos
        omega

theorem Value.ival_range (val : Value) (h : val.uval < 2 ^ 64) :
    -(2 ^ 63) ≤ val.ival ∧ val.ival ≤ 2 ^ 63 - 1 ∧ word64 val.ival = val.uval := by
  unfold Value.ival word64
  split_ifs <;> omega

/-- The `switch` only fails through `error_underflow` and `error_c1`. -/
theorem parse_err_kind (inp : List Byte) (mi : Nat) :
    parse inp mi ≠ .err .fault ∧ parse inp mi ≠ .err .fuel := by
  rcases byte_cases (rd inp mi) (rd_lt inp mi) with
    h | ⟨h1, h2⟩ | ⟨h1, h2⟩ | ⟨h1, h2⟩ | h | h | h | h | h | h | h | h | h | h | h | h | h | h | h | h | h | h | h | h | h | h | h | h | h | h | h | h | h | h | h | h | h
  all_goals
    first
    | rw [parse_posfix h]
    | rw [parse_fixmap h1 h2]
    | rw [parse_fixarray h1 h2]
    | rw [parse_fixstr h1 h2]
    | rw [parse_negfix h]
    | rw [parse_nil h]
    | rw [parse_c1 h]
    | rw [parse_false h]
    | rw [parse_true h]
    | rw [parse_bin8 h]
    | rw [parse_bin16 h]
    | rw [parse_bin32 h]
    | rw [parse_ext8 h]
    | rw [parse_ext16 h]
    | rw [parse_ext32 h]
    | rw [parse_float32 h]
    | rw [parse_float64 h]
    | rw [parse_uint8 h]
    | rw [parse_uint16 h]
    | rw [parse_uint32 h]
    | rw [parse_uint64 h]
    | rw [parse_int8 h]
    | rw [parse_int16 h]
    | rw [parse_int32 h]
    | rw [parse_int64 h]
    | rw [parse_fixext1 h]
    | rw [parse_fixext2 h]
    | rw [parse_fixext4 h]
    | rw [parse_fixext8 h]
    | rw [parse_fixext16 h]
    | rw [parse_str8 h]
    | rw [parse_str16 h]
    | rw [parse_str32 h]
    | rw [parse_array16 h]
    | rw [parse_array32 h]
    | rw [parse_map16 h]
    | rw [parse_map32 h]
  all_goals
    first
    | (constructor <;> (intro hp; cases hp))
    | (constructor <;> (unfold do_xdata; split_ifs <;> (intro hp; cases hp)))
    | (constructor <;> (split_ifs <;> (intro hp; cases hp)))

/-- The two ways the model could stop that have no counterpart in the C code
(`fuel`, `fault`) do not occur: under the invariant, with more fuel than input
bytes left, the decoder ends at `done`, at `error_underflow` or at `error_c1`. -/
theorem run_total (inp : List Byte) (hms : inp.length < 2 ^ 32) :
    ∀ (fuel : Nat) (s : DState), Inv inp s → inp.length - s.mi < fuel →
      (∃ d, run inp fuel s = .ok d) ∨ run inp fuel s = .error .underflow ∨
        run inp fuel s = .error .c1
  | 0, s, _, h => absurd h (Nat.not_lt_zero _)
  | fuel + 1, s, hi, hf => by
    have hn : s.value.length < 2 ^ 32 := by
      have := hi.le_mi; have := hi.mi_le; omega
    rw [run]
    rcases close_loop_spec s.typeid s.value.length hn s.stack s.todo s.patch s.value rfl hi.chain
      with ⟨V', e1, -⟩ | ⟨todo', patch', stack', V', e1, -⟩
    · rw [e1]
      exact Or.inl ⟨_, rfl⟩
    · rw [e1]
      simp only
      by_cases hmi : s.mi = inp.length
      · rw [if_pos hmi]
        exact Or.inr (Or.inl rfl)
      · rw [if_neg hmi]
        have hlt : s.mi < inp.length := Nat.lt_of_le_of_ne hi.mi_le hmi
        cases hp : parse inp s.mi with
        | err e =>
          simp only
          cases e with
          | underflow => exact Or.inr (Or.inl rfl)
          | c1 => exact Or.inr (Or.inr rfl)
          | fault => exact absurd hp (parse_err_kind inp s.mi).1
          | fuel => exact absurd hp (parse_err_kind inp s.mi).2
        | item tag v mi' =>
          simp only
          obtain ⟨-, -, hi'⟩ := hi.step_item hms e1 hmi hp
          have := (parse_item_bounds hlt hp).1
          exact run_total inp hms fuel _ hi' (by simp only; omega)
        | nested tag xlen len mi' =>
          simp only
          obtain ⟨-, hi'⟩ := hi.step_nested hms e1 hmi hp
          have := (parse_nested_bounds hlt hp).1
          exact run_total inp hms fuel _ hi' (by simp only; omega)

/-- On inputs shorter than `2 ^ 32` bytes `preprocess_msgpack` always returns:
either the arrays, or the failure sentinel through `error_underflow` or
`error_c1`. -/
theorem preprocess_total (inp : List Byte) (hms : inp.length < 2 ^ 32) :
    (∃ d, preprocess_msgpack inp = .ok d) ∨ preprocess_msgpack inp = .error .underflow ∨
      preprocess_msgpack inp = .error .c1 :=
  run_total inp hms _ _ (Inv.init inp) (by simp [DState.init])

theorem emit_nil (junk : Nat → Byte) (b1 b2 cf out : List Byte) (v : Value) :
    emit junk b1 b2 cf out NilValue v = check_buf cf out [0xc0] := by
  simp [emit]

theorem emit_false (junk : Nat → Byte) (b1 b2 cf out : List Byte) (v : Value) :
    emit junk b1 b2 cf out FalseValue v = check_buf cf out [0xc2] := by
  simp [emit]

theorem emit_true (junk : Nat → Byte) (b1 b2 cf out : List Byte) (v : Value) :
    emit junk b1 b2 cf out TrueValue v = check_buf cf out [0xc3] := by
  simp [emit]

theorem emit_long_tag (junk : Nat → Byte) (b1 b2 cf out : List Byte) (v : Value) :
    emit junk b1 b2 cf out LongValue v = check_buf cf out (emit_long v.uval) := by
  simp [emit]

theorem emit_ulong_tag (junk : Nat → Byte) (b1 b2 cf out : List Byte) (v : Value) :
    emit junk b1 b2 cf out UlongValue v = check_buf cf out (emit_ulong v.uval) := by
  simp [emit]

theorem emit_float (junk : Nat → Byte) (b1 b2 cf out : List Byte) (v : Value) :
    emit junk b1 b2 cf out FloatValue v
      = check_buf cf out (0xca :: host2net32 (f64_to_f32 v.uval)) := by
  simp [emit]

theorem emit_double (junk : Nat → Byte) (b1 b2 cf out : List Byte) (v : Value) :
    emit junk b1 b2 cf out DoubleValue v = check_buf cf out (0xcb :: host2net64 v.uval) := by
  simp [emit]

theorem emit_str (junk : Nat → Byte) (b1 b2 cf out : List Byte) (v : Value) :
    emit junk b1 b2 cf out StringValue v
      = if v.xlen ≤ 31 then copy_data b1 cf out [u8 (0xa0 + v.xlen)] v
        else if v.xlen ≤ 255 then copy_data b1 cf out [0xd9, u8 v.xlen] v
        else if v.xlen ≤ 65535 then
          copy_data b1 cf out (junk out.length :: host2net16 v.xlen) v
        else copy_data b1 cf out (junk out.length :: host2net32 v.xlen) v := by
  simp [emit]

theorem emit_bin (junk : Nat → Byte) (b1 b2 cf out : List Byte) (v : Value) :
    emit junk b1 b2 cf out BinValue v
      = if v.xlen ≤ 255 then copy_data b1 cf out [0xc4, u8 v.xlen] v
        else if v.xlen ≤ 65535 then copy_data b1 cf out (0xc5 :: host2net16 v.xlen) v
        else copy_data b1 cf out (0xc6 :: host2net32 v.xlen) v := by
  simp [emit]

theorem emit_ext (junk : Nat → Byte) (b1 b2 cf out : List Byte) (v : Value) :
    emit junk b1 b2 cf out ExtValue v
      = if v.xlen = 2 then
          match bank_read cf v.xoff 2 with
          | none => .error .fault
          | some data => check_buf cf out (0xd4 :: data)
        else if v.xlen = 3 then
          match bank_read cf v.xoff 3 with
          | none => .error .fault
          | some data => check_buf cf out (0xd5 :: data)
        else if v.xlen = 5 then
          match bank_read cf v.xoff 5 with
          | none => .error .fault
          | some data => check_buf cf out (0xd6 :: data)
        else if v.xlen = 9 then
          match bank_read cf v.xoff 9 with
          | none => .error .fault
          | some data => check_buf cf out (0xd5 :: data)
        else if v.xlen = 17 then copy_data b1 cf out [0xd8] v
        else if u32 (v.xlen + 2 ^ 32 - 1) ≤ 255 then
          copy_data b1 cf out [0xc7, u8 (u32 (v.xlen + 2 ^ 32 - 1))] v
        else if u32 (v.xlen + 2 ^ 32 - 1) ≤ 65535 then
          copy_data b1 cf out (0xc8 :: host2net16 (u32 (v.xlen + 2 ^ 32 - 1))) v
        else copy_data b1 cf out (0xc9 :: host2net32 (u32 (v.xlen + 2 ^ 32 - 1))) v := by
  rw [emit]
  simp only [show (ExtValue = NilValue) = False from by decide,
    show (ExtValue = FalseValue) = False from by decide,
    show (ExtValue = TrueValue) = False from by decide,
    show (ExtValue = LongValue) = False from by decide,
    show (ExtValue = UlongValue) = False from by decide,
    show (ExtValue = FloatValue) = False from by decide,
    show (ExtValue = DoubleValue) = False from by decide,
    show (ExtValue = StringValue) = False from by decide,
    show (ExtValue = BinValue) = False from by decide, if_false, if_true]

theorem emit_array (junk : Nat → Byte) (b1 b2 cf out : List Byte) (v : Value) :
    emit junk b1 b2 cf out ArrayValue v
      = if v.xlen ≤ 15 then check_buf cf out [u8 (0x90 + v.xlen)]
        else if v.xlen ≤ 65535 then check_buf cf out (0xdc :: host2net16 v.xlen)
        else check_buf cf out (0xdd :: host2net32 v.xlen) := by
  simp [emit]

theorem emit_map (junk : Nat → Byte) (b1 b2 cf out : List Byte) (v : Value) :
    emit junk b1 b2 cf out MapValue v
      = if v.xlen ≤ 15 then check_buf cf out [u8 (0x80 + v.xlen)]
        else if v.xlen ≤ 65535 then check_buf cf out (0xde :: host2net16 v.xlen)
        else check_buf cf out (0xdf :: host2net32 v.xlen) := by
  simp [emit]

theorem emit_copy (junk : Nat → Byte) (b1 b2 cf out : List Byte) (v : Value) :
    emit junk b1 b2 cf out CopyCommand v = copy_data b1 b2 out [] v := by
  simp [emit]

theorem emit_unknown (junk : Nat → Byte) (b1 b2 cf out : List Byte) {tag : Nat} (v : Value)
    (h : ¬ known_tag tag) : emit junk b1 b2 cf out tag v = .error .badcode := by
  unfold known_tag at h
  simp only [not_or] at h
  obtain ⟨h1, h2, h3, h4, h5, h6, h7, h8, h9, h10, h11, h12, h13⟩ := h
  rw [emit, if_neg h1, if_neg h2, if_neg h3, if_neg h4, if_neg h5, if_neg h6, if_neg h7,
    if_neg h8, if_neg h9, if_neg h10, if_neg h11, if_neg h12, if_neg h13]


theorem bank_read_length {bank : List Byte} {xoff len : Nat} {data : List Byte}
    (h : bank_read bank xoff len = some data) : data.length = len := by
  unfold bank_read at h
  split_ifs at h with hc
  injection h with h
  subst h
  simp only [List.length_take, List.length_drop]
  omega

theorem bank_read_some {bank : List Byte} {xoff len : Nat} (h1 : len ≤ xoff)
    (h2 : xoff ≤ bank.length) :
    bank_read bank xoff len = some ((bank.drop (bank.length - xoff)).take len) := by
  unfold bank_read
  rw [if_pos ⟨h2, h1⟩]

theorem copy_data_fix (b1 out : List Byte) (op : Byte) (v : Value) (n : Nat) (h : v.xlen = n) :
    (match bank_read b1 v.xoff n with
      | none => (.error .fault : Except EErr (List Byte × List Byte))
      | some data => check_buf b1 out (op :: data))
      = copy_data b1 b1 out [op] v := by
  subst h
  unfold copy_data check_buf
  cases bank_read b1 v.xoff v.xlen <;> simp

/-- The shape of one loop pass entered with `copy_from = bank1`, by kind of
tag: a header alone, a header followed by a payload from `bank1`, or for a
CopyCmd the bytes of `bank2` alone. -/
theorem emit_shape (junk : Nat → Byte) (b1 b2 out : List Byte) {tag : Nat} (v : Value)
    (h : known_tag tag) :
    (¬ is_payload tag ∧ tag ≠ CopyCommand ∧
        ∃ hdr, hdr ≠ [] ∧ emit junk b1 b2 b1 out tag v = .ok (out ++ hdr, b1)) ∨
    (is_payload tag ∧
        ∃ hdr, hdr ≠ [] ∧ emit junk b1 b2 b1 out tag v = copy_data b1 b1 out hdr v) ∨
    (tag = CopyCommand ∧ emit junk b1 b2 b1 out tag v = copy_data b1 b2 out [] v) := by
  unfold known_tag at h
  rcases h with h | h | h | h | h | h | h | h | h | h | h | h | h <;> subst h
  · exact Or.inl ⟨by decide, by decide, _, by simp, emit_nil ..⟩
  · exact Or.inl ⟨by decide, by decide, _, by simp, emit_false ..⟩
  · exact Or.inl ⟨by decide, by decide, _, by simp, emit_true ..⟩
  · refine Or.inl ⟨by decide, by decide, _, ?_, emit_long_tag ..⟩
    unfold emit_long emit_ulong
    split_ifs <;> simp [host2net16, host2net32, host2net64]
  · refine Or.inl ⟨by decide, by decide, _, ?_, emit_ulong_tag ..⟩
    unfold emit_ulong
    split_ifs <;> simp
  · exact Or.inl ⟨by decide, by decide, _, by simp, emit_float ..⟩
  · exact Or.inl ⟨by decide, by decide, _, by simp, emit_double ..⟩
  · refine Or.inr (Or.inl ⟨by decide, ?_⟩)
    rw [emit_str]
    split_ifs
    · exact ⟨_, by simp, rfl⟩
    · exact ⟨_, by simp, rfl⟩
    · exact ⟨_, by simp, rfl⟩
    · exact ⟨_, by simp, rfl⟩
  · refine Or.inr (Or.inl ⟨by decide, ?_⟩)
    rw [emit_bin]
    split_ifs
    · exact ⟨_, by simp, rfl⟩
    · exact ⟨_, by simp, rfl⟩
    · exact ⟨_, by simp, rfl⟩
  · refine Or.inr (Or.inl ⟨by decide, ?_⟩)
    rw [emit_ext]
    split_ifs with h2 h3 h5 h9
    · exact ⟨_, by simp, copy_data_fix b1 out _ v 2 h2⟩
    · exact ⟨_, by simp, copy_data_fix b1 out _ v 3 h3⟩
    · exact ⟨_, by simp, copy_data_fix b1 out _ v 5 h5⟩
    · exact ⟨_, by simp, copy_data_fix b1 out _ v 9 h9⟩
    · exact ⟨_, by simp, rfl⟩
    · exact ⟨_, by simp, rfl⟩
    · exact ⟨_, by simp, rfl⟩
    · exact ⟨_, by simp, rfl⟩
  · refine Or.inl ⟨by decide, by decide, ?_⟩
    rw [emit_array]
    split_ifs
    · exact ⟨_, by simp, rfl⟩
    · exact ⟨_, by simp, rfl⟩
    · exact ⟨_, by simp, rfl⟩
  · refine Or.inl ⟨by decide, by decide, ?_⟩
    rw [emit_map]
    split_ifs
    · exact ⟨_, by simp, rfl⟩
    · exact ⟨_, by simp, rfl⟩
    · exact ⟨_, by simp, rfl⟩
  · exact Or.inr (Or.inr ⟨rfl, emit_copy ..⟩)


theorem copy_data_ok {b1 cf out hdr : List Byte} {v : Value} (h1 : v.xlen ≤ v.xoff)
    (h2 : v.xoff ≤ cf.length) :
    copy_data b1 cf out hdr v = .ok (out ++ hdr ++ payload_bytes cf v, b1) := by
  unfold copy_data
  rw [bank_read_some h1 h2]
  rfl

theorem copy_data_inv {b1 cf out hdr : List Byte} {v : Value} {out' cf' : List Byte}
    (h : copy_data b1 cf out hdr v = .ok (out', cf')) :
    cf' = b1 ∧ ∃ data, data.length = v.xlen ∧ out' = out ++ hdr ++ data := by
  unfold copy_data at h
  cases hb : bank_read cf v.xoff v.xlen with
  | none => rw [hb] at h; cases h
  | some data =>
    rw [hb] at h
    simp only [Except.ok.injEq, Prod.mk.injEq] at h
    exact ⟨h.2.symm, data, bank_read_length hb, h.1.symm⟩

/-- One loop pass entered with `copy_from = bank1` leaves `copy_from = bank1`
and appends bytes to the output: at least one unless the slot is a CopyCmd,
exactly `xlen` when it is. -/
theorem emit_bank1 {junk : Nat → Byte} {b1 b2 out : List Byte} {tag : Nat} {v : Value}
    {out' cf' : List Byte} (h : emit junk b1 b2 b1 out tag v = .ok (out', cf')) :
    known_tag tag ∧ cf' = b1 ∧ ∃ bytes, out' = out ++ bytes ∧
      (tag ≠ CopyCommand → 1 ≤ bytes.length) ∧ (tag = CopyCommand → bytes.length = v.xlen) := by
  by_cases hk : known_tag tag
  · refine ⟨hk, ?_⟩
    rcases emit_shape junk b1 b2 out v hk with ⟨-, hc, hdr, hne, he⟩ | ⟨hp, hdr, hne, he⟩ | ⟨hc, he⟩
    · rw [he] at h
      simp only [Except.ok.injEq, Prod.mk.injEq] at h
      refine ⟨h.2.symm, hdr, h.1.symm, fun _ => ?_, fun hc' => absurd hc' hc⟩
      exact Nat.pos_of_ne_zero (fun h0 => hne (List.length_eq_zero.mp h0))
    · rw [he] at h
      obtain ⟨e1, data, -, e2⟩ := copy_data_inv h
      refine ⟨e1, hdr ++ data, by rw [e2, List.append_assoc], fun _ => ?_, fun hc' => ?_⟩
      · rw [List.length_append]
        have := Nat.pos_of_ne_zero (fun h0 => hne (List.length_eq_zero.mp h0))
        omega
      · subst hc'
        exact absurd hp (by decide)
    · rw [he] at h
      obtain ⟨e1, data, e3, e2⟩ := copy_data_inv h
      exact ⟨e1, data, by rw [e2, List.append_nil], fun hc' => absurd hc hc', fun _ => e3⟩
  · rw [emit_unknown junk b1 b2 b1 out v hk] at h
    cases h

theorem encode_loop_cons_ok {junk : Nat → Byte} {b1 b2 : List Byte} {tag : Nat} {v : Value}
    {out out' : List Byte} (rest : List (Nat × Value))
    (h : emit junk b1 b2 b1 out tag v = .ok (out', b1)) :
    encode_loop junk b1 b2 ((tag, v) :: rest) b1 out = encode_loop junk b1 b2 rest b1 out' := by
  rw [encode_loop, h]

theorem encode_loop_cons_err {junk : Nat → Byte} {b1 b2 : List Byte} {tag : Nat} {v : Value}
    {out : List Byte} {e : EErr} (rest : List (Nat × Value))
    (h : emit junk b1 b2 b1 out tag v = .error e) :
    encode_loop junk b1 b2 ((tag, v) :: rest) b1 out = .error e := by
  rw [encode_loop, h]

/-- The loop over `a ++ b` is the loop over `a` followed by the loop over `b`
from the output reached, every pass starting with `copy_from = bank1`. -/
theorem encode_loop_append (junk : Nat → Byte) (b1 b2 : List Byte) :
    ∀ (a b : List (Nat × Value)) (out : List Byte),
      encode_loop junk b1 b2 (a ++ b) b1 out
        = (encode_loop junk b1 b2 a b1 out).bind (fun o => encode_loop junk b1 b2 b b1 o)
  | [], b, out => by simp [encode_loop, Except.bind]
  | (tag, v) :: a, b, out => by
    cases he : emit junk b1 b2 b1 out tag v with
    | error e =>
      rw [List.cons_append, encode_loop_cons_err _ he, encode_loop_cons_err _ he]
      rfl
    | ok p =>
      obtain ⟨out', cf'⟩ := p
      obtain ⟨-, hcf, -⟩ := emit_bank1 he
      subst hcf
      rw [List.cons_append, encode_loop_cons_ok _ he, encode_loop_cons_ok _ he]
      exact encode_loop_append junk cf' b2 a b out'

theorem zip_map_fst_snd_eq : ∀ (items : List (Nat × Value)),
    (items.map Prod.fst).zip (items.map Prod.snd) = items
  | [] => rfl
  | p :: items => by
    simp only [List.map_cons, List.zip_cons_cons, zip_map_fst_snd_eq items]

theorem create_items_eq (junk : Nat → Byte) (items : List (Nat × Value)) (b1 b2 : List Byte) :
    create_items junk items b1 b2 = encode_loop junk b1 b2 items b1 [] := by
  unfold create_items create_msgpack
  rw [if_neg (by simp)]
  congr 1
  rw [← List.length_map items Prod.fst, List.take_length, List.length_map,
    ← List.length_map items Prod.snd, List.take_length]
  exact zip_map_fst_snd_eq items

theorem create_single {junk : Nat → Byte} {b1 b2 : List Byte} {tag : Nat} {v : Value}
    {o cf : List Byte} (h : emit junk b1 b2 b1 [] tag v = .ok (o, cf)) :
    create_msgpack junk 1 [tag] [v] b1 b2 = .ok o := by
  simp [create_msgpack, encode_loop, h]

theorem payload_bytes_all (bank : List Byte) (v : Value) (h1 : v.xoff = bank.length)
    (h2 : v.xlen = bank.length) : payload_bytes bank v = bank := by
  unfold payload_bytes
  rw [h1, h2, Nat.sub_self, List.drop_zero, List.take_length]

theorem bank_256_length : bank_256.length = 256 := List.length_replicate ..

theorem emit_str16 (junk : Nat → Byte) (b1 b2 out : List Byte) (v : Value) (h1 : 255 < v.xlen)
    (h2 : v.xlen ≤ 65535) (r1 : v.xlen ≤ v.xoff) (r2 : v.xoff ≤ b1.length) :
    emit junk b1 b2 b1 out StringValue v
      = .ok (out ++ junk out.length :: host2net16 v.xlen ++ payload_bytes b1 v, b1) := by
  rw [emit_str, if_neg (by omega), if_neg (by omega), if_pos h2, copy_data_ok r1 r2]

theorem check_buf_congr {cf out out' hdr bytes cf' : List Byte}
    (h : check_buf cf out hdr = .ok (out ++ bytes, cf')) :
    check_buf cf out' hdr = .ok (out' ++ bytes, cf') := by
  simp only [check_buf, Except.ok.injEq, Prod.mk.injEq, List.append_cancel_left_eq] at h ⊢
  exact h

theorem copy_data_congr {b1 cf out out' hdr bytes cf' : List Byte} {v : Value}
    (h : copy_data b1 cf out hdr v = .ok (out ++ bytes, cf')) :
    copy_data b1 cf out' hdr v = .ok (out' ++ bytes, cf') := by
  unfold copy_data at h ⊢
  cases hb : bank_read cf v.xoff v.xlen with
  | none => rw [hb] at h; cases h
  | some data =>
    rw [hb] at h
    simp only [Except.ok.injEq, Prod.mk.injEq, List.append_assoc,
      List.append_cancel_left_eq] at h ⊢
    exact h

theorem copy_fix_congr {cf out out' bytes cf' : List Byte} {op : Byte} {xoff n : Nat}
    (h : (match bank_read cf xoff n with
      | none => (.error .fault : Except EErr (List Byte × List Byte))
      | some data => check_buf cf out (op :: data)) = .ok (out ++ bytes, cf')) :
    (match bank_read cf xoff n with
      | none => (.error .fault : Except EErr (List Byte × List Byte))
      | some data => check_buf cf out' (op :: data)) = .ok (out' ++ bytes, cf') := by
  cases hb : bank_read cf xoff n with
  | none => rw [hb] at h; cases h
  | some data =>
    rw [hb] at h
    exact check_buf_congr h

/-- One loop pass depends on the bytes already written only through their
number: at another output of the same length it appends the same bytes. -/
theorem emit_congr {junk : Nat → Byte} {b1 b2 cf out out' : List Byte} {tag : Nat} {v : Value}
    {bytes cf' : List Byte} (hlen : out'.length = out.length)
    (h : emit junk b1 b2 cf out tag v = .ok (out ++ bytes, cf')) :
    emit junk b1 b2 cf out' tag v = .ok (out' ++ bytes, cf') := by
  by_cases hk : known_tag tag
  · unfold known_tag at hk
    rcases hk with hk | hk | hk | hk | hk | hk | hk | hk | hk | hk | hk | hk | hk <;> subst hk
    · rw [emit_nil] at h ⊢; exact check_buf_congr h
    · rw [emit_false] at h ⊢; exact check_buf_congr h
    · rw [emit_true] at h ⊢; exact check_buf_congr h
    · rw [emit_long_tag] at h ⊢; exact check_buf_congr h
    · rw [emit_ulong_tag] at h ⊢; exact check_buf_congr h
    · rw [emit_float] at h ⊢; exact check_buf_congr h
    · rw [emit_double] at h ⊢; exact check_buf_congr h
    · rw [emit_str] at h ⊢
      rw [hlen]
      split_ifs at h ⊢ <;> exact copy_data_congr h
    · rw [emit_bin] at h ⊢
      split_ifs at h ⊢ <;> exact copy_data_congr h
    · rw [emit_ext] at h ⊢
      split_ifs at h ⊢ <;> first | exact copy_data_congr h | exact copy_fix_congr h
    · rw [emit_array] at h ⊢
      split_ifs at h ⊢ <;> exact check_buf_congr h
    · rw [emit_map] at h ⊢
      split_ifs at h ⊢ <;> exact check_buf_congr h
    · rw [emit_copy] at h ⊢; exact copy_data_congr h
  · rw [emit_unknown junk b1 b2 cf out v hk] at h
    cases h

/-- A successful run of the loop only appends to the output. -/
theorem encode_loop_prefix (junk : Nat → Byte) (b1 b2 : List Byte) :
    ∀ (items : List (Nat × Value)) (out o : List Byte),
      encode_loop junk b1 b2 items b1 out = .ok o → ∃ o2, o = out ++ o2
  | [], out, o, h => by
    simp only [encode_loop, Except.ok.injEq] at h
    exact ⟨[], by rw [← h, List.append_nil]⟩
  | (tag, v) :: items, out, o, h => by
    cases he : emit junk b1 b2 b1 out tag v with
    | error e => rw [encode_loop_cons_err _ he] at h; cases h
    | ok p =>
      obtain ⟨out', cf'⟩ := p
      obtain ⟨-, hcf, bytes, hb, -⟩ := emit_bank1 he
      subst hcf hb
      rw [encode_loop_cons_ok _ he] at h
      obtain ⟨o2, ho⟩ := encode_loop_prefix junk cf' b2 items _ o h
      exact ⟨bytes ++ o2, by rw [ho, List.append_assoc]⟩

/-- The loop depends on the bytes already written only through their number. -/
theorem encode_loop_congr (junk : Nat → Byte) (b1 b2 : List Byte) :
    ∀ (items : List (Nat × Value)) (out out' o2 : List Byte), out'.length = out.length →
      encode_loop junk b1 b2 items b1 out = .ok (out ++ o2) →
      encode_loop junk b1 b2 items b1 out' = .ok (out' ++ o2)
  | [], out, out', o2, _, h => by
    simp only [encode_loop, Except.ok.injEq] at h ⊢
    have : o2 = [] := by
      have := congrArg List.length h
      simp only [List.length_append] at this
      exact List.length_eq_zero.mp (by omega)
    rw [this, List.append_nil]
  | (tag, v) :: items, out, out', o2, hlen, h => by
    cases he : emit junk b1 b2 b1 out tag v with
    | error e => rw [encode_loop_cons_err _ he] at h; cases h
    | ok p =>
      obtain ⟨out1, cf'⟩ := p
      obtain ⟨-, hcf, bytes, hb, -⟩ := emit_bank1 he
      subst hcf hb
      rw [encode_loop_cons_ok _ he] at h
      obtain ⟨o3, ho⟩ := encode_loop_prefix junk cf' b2 items _ _ h
      have ho2 : o2 = bytes ++ o3 := by
        rw [List.append_assoc] at ho
        exact List.append_cancel_left ho
      subst ho2
      rw [encode_loop_cons_ok _ (emit_congr hlen he)]
      rw [← List.append_assoc] at h ⊢
      exact encode_loop_congr junk cf' b2 items _ _ o3
        (by simp only [List.length_append, hlen]) h

theorem payload_bytes_length {bank : List Byte} {v : Value} (h1 : v.xlen ≤ v.xoff)
    (h2 : v.xoff ≤ bank.length) : (payload_bytes bank v).length = v.xlen := by
  unfold payload_bytes
  rw [List.length_take, List.length_drop]
  omega

theorem payload_bytes_last (tl : List Byte) (b : Byte) :
    payload_bytes (tl ++ [b]) { xlen := 1, xoff := 1 } = [b] := by
  simp [payload_bytes]

/-- The slot after the item sequence `pre`: the output is the loop over the
rest from the output this slot leaves. -/
theorem create_items_splice {junk : Nat → Byte} {b1 b2 : List Byte} {pre : List (Nat × Value)}
    {o1 o' : List Byte} {tag : Nat} {v : Value} (post : List (Nat × Value))
    (hpre : encode_loop junk b1 b2 pre b1 [] = .ok o1)
    (he : emit junk b1 b2 b1 o1 tag v = .ok (o', b1)) :
    create_items junk (pre ++ (tag, v) :: post) b1 b2 = encode_loop junk b1 b2 post b1 o' := by
  rw [create_items_eq, encode_loop_append, hpre]
  exact encode_loop_cons_ok post he

theorem create_items_skip {junk : Nat → Byte} {b1 b2 : List Byte} {pre : List (Nat × Value)}
    {o1 : List Byte} (post : List (Nat × Value))
    (hpre : encode_loop junk b1 b2 pre b1 [] = .ok o1) :
    create_items junk (pre ++ post) b1 b2 = encode_loop junk b1 b2 post b1 o1 := by
  rw [create_items_eq, encode_loop_append, hpre]
  rfl

theorem emit_array_header (junk : Nat → Byte) (b1 b2 cf out : List Byte) (v : Value) :
    emit junk b1 b2 cf out ArrayValue v = .ok (out ++ array_header v.xlen, cf) := by
  rw [emit_array, array_header, container_header]
  split_ifs
  · rfl
  · rw [host2net16_eq _ _ rfl]; rfl
  · rw [host2net32_eq _ _ rfl]; rfl

theorem emit_map_header (junk : Nat → Byte) (b1 b2 cf out : List Byte) (v : Value) :
    emit junk b1 b2 cf out MapValue v = .ok (out ++ map_header v.xlen, cf) := by
  rw [emit_map, map_header, container_header]
  split_ifs
  · rfl
  · rw [host2net16_eq _ _ rfl]; rfl
  · rw [host2net32_eq _ _ rfl]; rfl

theorem mem_zip_take : ∀ (n : Nat) (T : List Nat) (V : List Value), n ≤ T.length →
    n ≤ V.length → ∀ p : Nat × Value,
      p ∈ (T.take n).zip (V.take n) ↔ ∃ i, i < n ∧ p = (T.getD i 0, V.getD i {})
  | 0, T, V, _, _, p => by simp
  | n + 1, [], _, hT, _, _ => by simp at hT
  | n + 1, _ :: _, [], _, hV, _ => by simp at hV
  | n + 1, t :: T, v :: V, hT, hV, p => by
    have ih := mem_zip_take n T V (by simpa using hT) (by simpa using hV) p
    rw [List.take_succ_cons, List.take_succ_cons, List.zip_cons_cons, List.mem_cons, ih]
    constructor
    · rintro (h | ⟨i, hi, h⟩)
      · exact ⟨0, Nat.succ_pos n, h⟩
      · exact ⟨i + 1, Nat.succ_lt_succ hi, h⟩
    · rintro ⟨i, hi, h⟩
      cases i with
      | zero => exact Or.inl h
      | succ i => exact Or.inr ⟨i, Nat.lt_of_succ_lt_succ hi, h⟩

theorem length_zip_take {n : Nat} {T : List Nat} {V : List Value} (hT : n ≤ T.length)
    (hV : n ≤ V.length) : ((T.take n).zip (V.take n)).length = n := by
  rw [List.length_zip, List.length_take, List.length_take]
  omega

/-- When every CopyCmd slot copies at least one byte, a successful run of the
loop appends at least one byte per slot. -/
theorem encode_loop_length (junk : Nat → Byte) (b1 b2 : List Byte) :
    ∀ (items : List (Nat × Value)) (out o : List Byte),
      (∀ p ∈ items, p.1 = CopyCommand → 1 ≤ p.2.xlen) →
      encode_loop junk b1 b2 items b1 out = .ok o → out.length + items.length ≤ o.length
  | [], out, o, _, h => by
    simp only [encode_loop, Except.ok.injEq] at h
    rw [h]; exact Nat.le_refl _
  | (tag, v) :: items, out, o, hc, h => by
    cases he : emit junk b1 b2 b1 out tag v with
    | error e => rw [encode_loop_cons_err _ he] at h; cases h
    | ok p =>
      obtain ⟨out', cf'⟩ := p
      obtain ⟨-, hcf, bytes, hb, h1, h2⟩ := emit_bank1 he
      subst hcf hb
      rw [encode_loop_cons_ok _ he] at h
      have ih := encode_loop_length junk cf' b2 items _ o
        (fun p hp => hc p (List.mem_cons_of_mem _ hp)) h
      have hlen : 1 ≤ bytes.length := by
        by_cases ht : tag = CopyCommand
        · rw [h2 ht]; exact hc (tag, v) (List.mem_cons_self _ _) ht
        · exact h1 ht
      rw [List.length_append] at ih
      rw [List.length_cons]
      omega

theorem bank_1000_length : bank_1000.length = 1000 := List.length_replicate ..

/-- One loop pass on a slot that is not a Str slot of more than 255 bytes
appends the same bytes at any output position. -/
theorem emit_shift {junk : Nat → Byte} {b1 b2 cf out out' : List Byte} {tag : Nat} {v : Value}
    {bytes cf' : List Byte} (hs : tag = StringValue → v.xlen ≤ 255)
    (h : emit junk b1 b2 cf out tag v = .ok (out ++ bytes, cf')) :
    emit junk b1 b2 cf out' tag v = .ok (out' ++ bytes, cf') := by
  by_cases hk : known_tag tag
  · unfold known_tag at hk
    rcases hk with hk | hk | hk | hk | hk | hk | hk | hk | hk | hk | hk | hk | hk <;> subst hk
    · rw [emit_nil] at h ⊢; exact check_buf_congr h
    · rw [emit_false] at h ⊢; exact check_buf_congr h
    · rw [emit_true] at h ⊢; exact check_buf_congr h
    · rw [emit_long_tag] at h ⊢; exact check_buf_congr h
    · rw [emit_ulong_tag] at h ⊢; exact check_buf_congr h
    · rw [emit_float] at h ⊢; exact check_buf_congr h
    · rw [emit_double] at h ⊢; exact check_buf_congr h
    · have hx := hs rfl
      rw [emit_str] at h ⊢
      split_ifs at h ⊢ <;> exact copy_data_congr h
    · rw [emit_bin] at h ⊢
      split_ifs at h ⊢ <;> exact copy_data_congr h
    · rw [emit_ext] at h ⊢
      split_ifs at h ⊢ <;> first | exact copy_data_congr h | exact copy_fix_congr h
    · rw [emit_array] at h ⊢
      split_ifs at h ⊢ <;> exact check_buf_congr h
    · rw [emit_map] at h ⊢
      split_ifs at h ⊢ <;> exact check_buf_congr h
    · rw [emit_copy] at h ⊢; exact copy_data_congr h
  · rw [emit_unknown junk b1 b2 cf out v hk] at h
    cases h

/-- The loop over slots none of which is a Str slot of more than 255 bytes
appends the same bytes at any output position. -/
theorem encode_loop_shift (junk : Nat → Byte) (b1 b2 : List Byte) :
    ∀ (items : List (Nat × Value)) (out out' o2 : List Byte),
      (∀ p ∈ items, p.1 = StringValue → p.2.xlen ≤ 255) →
      encode_loop junk b1 b2 items b1 out = .ok (out ++ o2) →
      encode_loop junk b1 b2 items b1 out' = .ok (out' ++ o2)
  | [], out, out', o2, _, h => by
    simp only [encode_loop, Except.ok.injEq] at h ⊢
    have : o2 = [] := by
      have := congrArg List.length h
      simp only [List.length_append] at this
      exact List.length_eq_zero.mp (by omega)
    rw [this, List.append_nil]
  | (tag, v) :: items, out, out', o2, hs, h => by
    cases he : emit junk b1 b2 b1 out tag v with
    | error e => rw [encode_loop_cons_err _ he] at h; cases h
    | ok p =>
      obtain ⟨out1, cf'⟩ := p
      obtain ⟨-, hcf, bytes, hb, -⟩ := emit_bank1 he
      subst hcf hb
      rw [encode_loop_cons_ok _ he] at h
      obtain ⟨o3, ho⟩ := encode_loop_prefix junk cf' b2 items _ _ h
      have ho2 : o2 = bytes ++ o3 := by
        rw [List.append_assoc] at ho
        exact List.append_cancel_left ho
      subst ho2
      rw [encode_loop_cons_ok _ (emit_shift (hs (tag, v) (List.mem_cons_self _ _)) he)]
      rw [← List.append_assoc] at h ⊢
      exact encode_loop_shift junk cf' b2 items _ _ o3
        (fun p hp => hs p (List.mem_cons_of_mem _ hp)) h

/-- The encoder over a concatenation: when it succeeds on `a` and on `b` and
no slot of `b` is a Str slot of more than 255 bytes, it succeeds on `a ++ b`
with the output for `a` followed by the output for `b`. -/
theorem create_items_append (junk : Nat → Byte) (a b : List (Nat × Value)) (b1 b2 : List Byte)
    (oa ob : List Byte) (hs : ∀ p ∈ b, p.1 = StringValue → p.2.xlen ≤ 255)
    (ha : create_items junk a b1 b2 = .ok oa) (hb : create_items junk b b1 b2 = .ok ob) :
    create_items junk (a ++ b) b1 b2 = .ok (oa ++ ob) := by
  rw [create_items_eq] at ha hb ⊢
  rw [encode_loop_append, ha]
  exact encode_loop_shift junk b1 b2 b [] oa ob hs hb

theorem close_loop_stack_le : ∀ (stack : List Nat) (todo patch : Nat) (V : List Value)
    {todo' patch' : Nat} {stack' : List Nat} {V' : List Value},
    close_loop todo patch stack V = .more todo' patch' stack' V' →
    stack'.length ≤ stack.length
  | [], todo, patch, V, todo', patch', stack', V', h => by
    unfold close_loop at h
    split_ifs at h
    cases h; exact Nat.le_refl _
  | t :: st, todo, patch, V, todo', patch', stack', V', h => by
    unfold close_loop at h
    split_ifs at h
    · cases h; exact Nat.le_refl _
    · simp only at h
      cases hv : V[patch]? with
      | none => rw [hv] at h; cases h
      | some fixit =>
        rw [hv] at h
        have := close_loop_stack_le st _ _ _ h
        rw [List.length_cons]
        omega

theorem run_mem_agrees (inp : List Byte) (st sv : Buf) :
    ∀ (fuel : Nat) (m : MState), (run_mem inp st sv fuel m).agrees (run inp fuel m.s)
  | 0, _ => rfl
  | fuel + 1, m => by
    unfold run_mem run
    cases hc : close_loop m.s.todo m.s.patch m.s.stack m.s.value with
    | fault => exact rfl
    | done value => exact rfl
    | more todo patch stack value =>
      simp only
      by_cases hmi : m.s.mi = inp.length
      · rw [if_pos hmi, if_pos hmi]; exact rfl
      · rw [if_neg hmi, if_neg hmi]
        by_cases hov : stores_slot inp m.s.mi = true ∧
            ¬ m.s.typeid.length < (grow_arrays st sv m).cap
        · rw [if_pos hov]; exact trivial
        · rw [if_neg hov]
          cases hp : parse inp m.s.mi with
          | err e => exact rfl
          | item tag v mi => exact run_mem_agrees inp st sv fuel _
          | nested tag xlen len mi =>
            simp only
            by_cases hso : ¬ stack.length
                < (grow_stack stack.length (grow_arrays st sv m)).stack_cap
            · rw [if_pos hso]; exact trivial
            · rw [if_neg hso]; exact run_mem_agrees inp st sv fuel _

theorem grow_arrays_cap (st sv : Buf) (m : MState) (h1 : m.s.typeid.length ≤ m.cap)
    (h2 : 2 ≤ m.cap) :
    m.s.typeid.length < (grow_arrays st sv m).cap ∧ 2 ≤ (grow_arrays st sv m).cap ∧
      (grow_arrays st sv m).stack_cap = m.stack_cap := by
  unfold grow_arrays
  by_cases h : m.s.typeid.length = m.cap
  · rw [if_pos h]
    dsimp only
    refine ⟨?_, ?_, rfl⟩ <;> omega
  · rw [if_neg h]
    refine ⟨?_, h2, rfl⟩
    omega

theorem grow_stack_cap (n : Nat) (m : MState) (h1 : n ≤ m.stack_cap) (h2 : 2 ≤ m.stack_cap) :
    n < (grow_stack n m).stack_cap ∧ 2 ≤ (grow_stack n m).stack_cap ∧
      (grow_stack n m).cap = m.cap := by
  unfold grow_stack
  by_cases h : n = m.stack_cap
  · rw [if_pos h]
    dsimp only
    refine ⟨?_, ?_, rfl⟩ <;> omega
  · rw [if_neg h]
    refine ⟨?_, h2, rfl⟩
    omega

/-- From a state with room the tracked decoder never stores outside a
buffer. -/
theorem run_mem_in_bounds (inp : List Byte) (st sv : Buf) :
    ∀ (fuel : Nat) (m : MState), m.Roomy → ∀ i c,
      run_mem inp st sv fuel m ≠ .slot_overrun i c ∧
      run_mem inp st sv fuel m ≠ .stack_overrun i c
  | 0, _, _, _, _ => by constructor <;> intro h <;> cases h
  | fuel + 1, m, hm, i, c => by
    unfold run_mem
    cases hc : close_loop m.s.todo m.s.patch m.s.stack m.s.value with
    | fault => constructor <;> intro h <;> cases h
    | done value => constructor <;> intro h <;> cases h
    | more todo patch stack value =>
      simp only
      have hst := close_loop_stack_le _ _ _ _ hc
      obtain ⟨g1, g2, g3⟩ := grow_arrays_cap st sv m hm.slots hm.cap2
      by_cases hmi : m.s.mi = inp.length
      · rw [if_pos hmi]
        constructor <;> intro h <;> cases h
      · rw [if_neg hmi, if_neg (fun hov => hov.2 g1)]
        cases hp : parse inp m.s.mi with
        | err e => constructor <;> intro h <;> cases h
        | item tag v mi =>
          simp only
          refine run_mem_in_bounds inp st sv fuel _ ⟨?_, ?_, ?_, ?_⟩ i c
          · simp only [List.length_append, List.length_singleton]; omega
          · exact g2
          · simp only; rw [g3]; exact Nat.le_trans hst hm.words
          · simp only; rw [g3]; exact hm.stack2
        | nested tag xlen len mi =>
          simp only
          obtain ⟨k1, k2, k3⟩ := grow_stack_cap stack.length (grow_arrays st sv m)
            (by rw [g3]; exact Nat.le_trans hst hm.words) (by rw [g3]; exact hm.stack2)
          rw [if_neg (fun hso => hso k1)]
          refine run_mem_in_bounds inp st sv fuel _ ⟨?_, ?_, ?_, ?_⟩ i c
          · simp only [List.length_append, List.length_singleton]; rw [k3]; omega
          · simp only; rw [k3]; exact g2
          · simp only [List.length_cons]; omega
          · exact k2

/-- In the heap case, and in the stock case with arrays of at least two slots,
`preprocess_msgpack` never stores a slot outside the arrays or a word outside
the depth stack. -/
theorem preprocess_mem_in_bounds (inp : List Byte) (sz_or_hint : Nat) (st sv : Buf)
    (h : st ≠ .null ∧ sv ≠ .null → 2 ≤ sz_or_hint) (i c : Nat) :
    preprocess_msgpack_mem inp sz_or_hint st sv ≠ .slot_overrun i c ∧
    preprocess_msgpack_mem inp sz_or_hint st sv ≠ .stack_overrun i c := by
  unfold preprocess_msgpack_mem
  by_cases hs : st ≠ .null ∧ sv ≠ .null
  · rw [if_pos hs]
    refine run_mem_in_bounds inp st sv _ _ ⟨?_, ?_, ?_, ?_⟩ i c
    · exact Nat.zero_le _
    · exact h hs
    · exact Nat.zero_le _
    · show 2 ≤ 32
      decide
  · rw [if_neg hs]
    refine run_mem_in_bounds inp st sv _ _ ⟨?_, ?_, ?_, ?_⟩ i c
    · exact Nat.zero_le _
    · show 2 ≤ (if sz_or_hint > 32 then sz_or_hint else 32)
      split_ifs <;> omega
    · exact Nat.zero_le _
    · show 2 ≤ 32
      decide

/-- The tracked decoder and the decoder model return the same. -/
theorem preprocess_mem_agrees (inp : List Byte) (sz_or_hint : Nat) (st sv : Buf) :
    (preprocess_msgpack_mem inp sz_or_hint st sv).agrees (preprocess_msgpack inp) := by
  unfold preprocess_msgpack_mem preprocess_msgpack
  by_cases hs : st ≠ .null ∧ sv ≠ .null
  · rw [if_pos hs]
    exact run_mem_agrees inp st sv _ _
  · rw [if_neg hs]
    exact run_mem_agrees inp st sv _ _

theorem check_buf_len {cf out hdr out' cf' : List Byte}
    (h : check_buf cf out hdr = .ok (out', cf')) : out'.length = out.length + hdr.length := by
  simp only [check_buf, Except.ok.injEq, Prod.mk.injEq] at h
  rw [← h.1, List.length_append]

theorem copy_data_len {b1 cf out hdr out' cf' : List Byte} {v : Value}
    (h : copy_data b1 cf out hdr v = .ok (out', cf')) :
    out'.length = out.length + hdr.length + v.xlen := by
  obtain ⟨-, data, hd, ho⟩ := copy_data_inv h
  rw [ho, List.length_append, List.length_append, hd]

theorem copy_fix_len {cf out out' cf' : List Byte} {op : Byte} {xoff n : Nat}
    (h : (match bank_read cf xoff n with
      | none => (.error .fault : Except EErr (List Byte × List Byte))
      | some data => check_buf cf out (op :: data)) = .ok (out', cf')) :
    out'.length = out.length + (n + 1) := by
  cases hb : bank_read cf xoff n with
  | none => rw [hb] at h; cases h
  | some data =>
    rw [hb] at h
    rw [check_buf_len h, List.length_cons, bank_read_length hb]

/-- The tracked switch agrees with the encoder model: a pass that succeeds
appends the number of bytes `switch_store` gives, and the payload when it
jumps to `copy_data`. -/
theorem emit_store {junk : Nat → Byte} {b1 b2 cf out : List Byte} {tag : Nat} {v : Value}
    {out' cf' : List Byte} (h : emit junk b1 b2 cf out tag v = .ok (out', cf')) :
    ∃ n c, switch_store tag v = some (n, c) ∧
      out'.length = out.length + n + (if c = true then v.xlen else 0) := by
  by_cases hk : known_tag tag
  · unfold known_tag at hk
    rcases hk with hk | hk | hk | hk | hk | hk | hk | hk | hk | hk | hk | hk | hk <;> subst hk
    · rw [emit_nil] at h
      exact ⟨1, false, by simp [switch_store], check_buf_len h⟩
    · rw [emit_false] at h
      exact ⟨1, false, by simp [switch_store], check_buf_len h⟩
    · rw [emit_true] at h
      exact ⟨1, false, by simp [switch_store], check_buf_len h⟩
    · rw [emit_long_tag] at h
      exact ⟨_, false, by simp [switch_store], check_buf_len h⟩
    · rw [emit_ulong_tag] at h
      exact ⟨_, false, by simp [switch_store], check_buf_len h⟩
    · rw [emit_float] at h
      exact ⟨5, false, by simp [switch_store], check_buf_len h⟩
    · rw [emit_double] at h
      exact ⟨9, false, by simp [switch_store], check_buf_len h⟩
    · rw [emit_str] at h
      have hs : switch_store StringValue v
          = if v.xlen ≤ 31 then some (1, true) else if v.xlen ≤ 255 then some (2, true)
            else if v.xlen ≤ 65535 then some (3, true) else some (5, true) := by
        simp [switch_store]
      rw [hs]
      split_ifs at h ⊢ <;> exact ⟨_, _, rfl, copy_data_len h⟩
    · rw [emit_bin] at h
      have hs : switch_store BinValue v
          = if v.xlen ≤ 255 then some (2, true)
            else if v.xlen ≤ 65535 then some (3, true) else some (5, true) := by
        simp [switch_store]
      rw [hs]
      split_ifs at h ⊢ <;> exact ⟨_, _, rfl, copy_data_len h⟩
    · rw [emit_ext] at h
      have hs : switch_store ExtValue v
          = if v.xlen = 2 then some (3, false) else if v.xlen = 3 then some (4, false)
            else if v.xlen = 5 then some (6, false) else if v.xlen = 9 then some (10, false)
            else if v.xlen = 17 then some (1, true)
            else if u32 (v.xlen + 2 ^ 32 - 1) ≤ 255 then some (2, true)
            else if u32 (v.xlen + 2 ^ 32 - 1) ≤ 65535 then some (3, true)
            else some (5, true) := by
        simp [switch_store]
      rw [hs]
      split_ifs at h ⊢ <;>
        first
        | exact ⟨_, _, rfl, copy_data_len h⟩
        | exact ⟨_, _, rfl, copy_fix_len h⟩
    · rw [emit_array] at h
      have hs : switch_store ArrayValue v
          = if v.xlen ≤ 15 then some (1, false)
            else if v.xlen ≤ 65535 then some (3, false) else some (5, false) := by
        simp [switch_store]
      rw [hs]
      split_ifs at h ⊢ <;> exact ⟨_, _, rfl, check_buf_len h⟩
    · rw [emit_map] at h
      have hs : switch_store MapValue v
          = if v.xlen ≤ 15 then some (1, false)
            else if v.xlen ≤ 65535 then some (3, false) else some (5, false) := by
        simp [switch_store]
      rw [hs]
      split_ifs at h ⊢ <;> exact ⟨_, _, rfl, check_buf_len h⟩
    · rw [emit_copy] at h
      exact ⟨0, true, by simp [switch_store], copy_data_len h⟩
  · rw [emit_unknown junk b1 b2 cf out v hk] at h
    cases h

theorem grow_out_written (stock : Buf) (e : EState) : (grow_out stock e).written = e.written :=
  rfl

/-- The byte count the tracked encoder returns is the length of the output of
the encoder model. -/
theorem encode_mem_written (junk : Nat → Byte) (b1 b2 : List Byte) (stock : Buf) :
    ∀ (items : List (Nat × Value)) (out o : List Byte) (e : EState) (w : Nat) (buf : Buf)
      (rel : List Buf), encode_loop junk b1 b2 items b1 out = .ok o → e.written = out.length →
      encode_mem stock items e = .done w buf rel → w = o.length
  | [], out, o, e, w, buf, rel, h, he, hm => by
    simp only [encode_loop, Except.ok.injEq] at h
    simp only [encode_mem, EOut.done.injEq] at hm
    rw [← hm.1, he, h]
  | (tag, v) :: items, out, o, e, w, buf, rel, h, he, hm => by
    cases hemit : emit junk b1 b2 b1 out tag v with
    | error x => rw [encode_loop_cons_err _ hemit] at h; cases h
    | ok p =>
      obtain ⟨out', cf'⟩ := p
      obtain ⟨-, hcf, -⟩ := emit_bank1 hemit
      subst hcf
      rw [encode_loop_cons_ok _ hemit] at h
      obtain ⟨n, c, hs, hl⟩ := emit_store hemit
      unfold encode_mem at hm
      rw [hs] at hm
      cases c with
      | false =>
        simp only at hm
        split_ifs at hm with h1 h2
        · exact encode_mem_written junk cf' b2 stock items out' o _ w buf rel h
            (by rw [grow_out_written]; simp only; rw [hl, he]; simp) hm
        · exact encode_mem_written junk cf' b2 stock items out' o _ w buf rel h
            (by simp only; rw [hl, he]; simp) hm
      | true =>
        simp only at hm
        split_ifs at hm with h1 h2 h3 h4
        · exact encode_mem_written junk cf' b2 stock items out' o _ w buf rel h
            (by rw [grow_out_written]; simp only; rw [hl, he]; simp) hm
        · exact encode_mem_written junk cf' b2 stock items out' o _ w buf rel h
            (by simp only; rw [hl, he]; simp) hm

/-- On the same item sequence, the byte count `create_msgpack` returns with
its buffer tracked is the length of the output of the encoder model. -/
theorem create_mem_written (junk : Nat → Byte) (items : List (Nat × Value)) (b1 b2 : List Byte)
    (sz_or_hint : Nat) (stock : Buf) (o : List Byte) (w : Nat) (buf : Buf) (rel : List Buf)
    (h : create_items junk items b1 b2 = .ok o)
    (hm : create_msgpack_mem items sz_or_hint stock = .done w buf rel) : w = o.length := by
  rw [create_items_eq] at h
  unfold create_msgpack_mem at hm
  by_cases hs : stock ≠ .null
  · rw [if_pos hs] at hm
    exact encode_mem_written junk b1 b2 stock items [] o _ w buf rel h rfl hm
  · rw [if_neg hs] at hm
    exact encode_mem_written junk b1 b2 stock items [] o _ w buf rel h rfl hm

/-- A CopyCmd slot whose `(xlen, xoff)` resolves in `bank2` emits no
header: one loop pass appends exactly the `xlen` bytes of `bank2` that start
`xoff` bytes before its end, whatever `copy_from` was, and leaves `copy_from`
at `bank1`. The slots before it give the same output `o1` as without it and
the slots after it continue from `o1` followed by the spliced bytes. When
`bank2` ends in `0xc3`, replacing a Nil slot by CopyCmd `{xlen := 1, xoff := 1}`
turns a result `o1 ++ 0xc0 :: o2` into `o1 ++ 0xc3 :: o2`. -/
theorem copy_cmd_splices_bank2 (junk : Nat → Byte) (b1 b2 : List Byte) (v : Value)
    (r1 : v.xlen ≤ v.xoff) (r2 : v.xoff ≤ b2.length) :
    (payload_bytes b2 v).length = v.xlen ∧
    (∀ cf out, emit junk b1 b2 cf out CopyCommand v = .ok (out ++ payload_bytes b2 v, b1)) ∧
    create_msgpack junk 1 [CopyCommand] [v] b1 b2 = .ok (payload_bytes b2 v) ∧
    (∀ pre post o1, encode_loop junk b1 b2 pre b1 [] = .ok o1 →
      create_items junk (pre ++ (CopyCommand, v) :: post) b1 b2
        = encode_loop junk b1 b2 post b1 (o1 ++ payload_bytes b2 v) ∧
      create_items junk (pre ++ post) b1 b2 = encode_loop junk b1 b2 post b1 o1) ∧
    (∀ tl pre post v0 o, b2 = tl ++ [0xc3] →
      create_items junk (pre ++ (NilValue, v0) :: post) b1 b2 = .ok o →
      ∃ o1 o2, encode_loop junk b1 b2 pre b1 [] = .ok o1 ∧ o = o1 ++ 0xc0 :: o2 ∧
        create_items junk (pre ++ (CopyCommand, { xlen := 1, xoff := 1 }) :: post) b1 b2
          = .ok (o1 ++ 0xc3 :: o2)) := by
  have he : ∀ cf out, emit junk b1 b2 cf out CopyCommand v
      = .ok (out ++ payload_bytes b2 v, b1) := by
    intro cf out
    rw [emit_copy, copy_data_ok r1 r2, List.append_nil]
  refine ⟨payload_bytes_length r1 r2, he, ?_, ?_, ?_⟩
  · have := create_single (he b1 [])
    rwa [List.nil_append] at this
  · intro pre post o1 hpre
    exact ⟨create_items_splice post hpre (he b1 o1), create_items_skip post hpre⟩
  · intro tl pre post v0 o hb h
    subst hb
    rw [create_items_eq, encode_loop_append] at h
    cases hpre : encode_loop junk b1 (tl ++ [0xc3]) pre b1 [] with
    | error e => rw [hpre] at h; cases h
    | ok o1 =>
      rw [hpre] at h
      have hn : emit junk b1 (tl ++ [0xc3]) b1 o1 NilValue v0 = .ok (o1 ++ [0xc0], b1) := by
        rw [emit_nil]; rfl
      have h' : encode_loop junk b1 (tl ++ [0xc3]) post b1 (o1 ++ [0xc0]) = .ok o := by
        rw [← encode_loop_cons_ok post hn]; exact h
      obtain ⟨o2, ho⟩ := encode_loop_prefix junk b1 (tl ++ [0xc3]) post _ o h'
      subst ho
      refine ⟨o1, o2, rfl, by rw [List.append_assoc]; rfl, ?_⟩
      have hc : emit junk b1 (tl ++ [0xc3]) b1 o1 CopyCommand { xlen := 1, xoff := 1 }
          = .ok (o1 ++ [0xc3], b1) := by
        rw [emit_copy, copy_data_ok (Nat.le_refl 1) (by simp), List.append_nil,
          payload_bytes_last]
      rw [create_items_splice post hpre hc]
      have := encode_loop_congr junk b1 (tl ++ [0xc3]) post (o1 ++ [0xc0]) (o1 ++ [0xc3]) o2
        (by simp) h'
      rw [this, List.append_assoc]
      rfl

/-- The slots Str `"a"`, Nil, True with the Nil slot replaced by CopyCmd
`{xlen := 1, xoff := 1}` and `bank2 = [0xc3]`. -/
theorem copy_cmd_splices_bank2_witness :
    create_items (fun _ => 0)
        ([(StringValue, { xlen := 1, xoff := 1 })] ++
          (CopyCommand, { xlen := 1, xoff := 1 }) :: [(TrueValue, ({} : Value))]) [0x61] [0xc3]
      = encode_loop (fun _ => 0) [0x61] [0xc3] [(TrueValue, ({} : Value))] [0x61]
          ([0xa1, 0x61] ++ payload_bytes [0xc3] { xlen := 1, xoff := 1 }) ∧
    create_items (fun _ => 0)
        ([(StringValue, { xlen := 1, xoff := 1 })] ++ [(TrueValue, ({} : Value))]) [0x61] [0xc3]
      = encode_loop (fun _ => 0) [0x61] [0xc3] [(TrueValue, ({} : Value))] [0x61] [0xa1, 0x61] :=
  (copy_cmd_splices_bank2 (fun _ => 0) [0x61] [0xc3] { xlen := 1, xoff := 1 }
    (by decide) (by decide)).2.2.2.1 [(StringValue, { xlen := 1, xoff := 1 })]
      [(TrueValue, ({} : Value))] [0xa1, 0x61] (by decide)

/-! ## Theorems -/

/-- C1 (the code departs from the claim). The ten bytes of a `fixext 8` element
are a complete document in minimal form. Decoding them succeeds, and encoding
the decoded arrays with the input as `bank1` succeeds, but the bytes returned
start with the opcode `0xd5` where the input has `0xd7`. -/
theorem roundtrip_fixext8_changes_opcode (junk : Nat → Byte) (bank2 : List Byte) :
    preprocess_msgpack fixext8_doc
        = .ok { n_items := 1, typeid := [ExtValue], value := [{ xlen := 9, xoff := 9 }] } ∧
    create_msgpack junk 1 [ExtValue] [{ xlen := 9, xoff := 9 }] fixext8_doc bank2
        = .ok [0xd5, 0, 1, 2, 3, 4, 5, 6, 7, 8] ∧
    create_msgpack junk 1 [ExtValue] [{ xlen := 9, xoff := 9 }] fixext8_doc bank2
        ≠ .ok fixext8_doc :=
  ⟨by decide, rfl, by
    have h : create_msgpack junk 1 [ExtValue] [{ xlen := 9, xoff := 9 }] fixext8_doc bank2
        = .ok [0xd5, 0, 1, 2, 3, 4, 5, 6, 7, 8] := rfl
    rw [h]; decide⟩

/-- C3 (the code departs from the claim). A `map 32` header announcing one pair
is decoded with `xlen = 1`, but only one subtree is placed under it
(`xoff = 2`): the slots `[1, 0 + xoff)` are not `2 * xlen` subtrees, and the value `0x02` of the pair is never read. The `map 16`
form of the same document gets both subtrees. -/
theorem map32_holds_half_the_subtrees :
    preprocess_msgpack map32_doc
        = .ok { n_items := 2, typeid := [MapValue, LongValue],
                value := [{ xlen := 1, xoff := 2 }, { uval := 1 }] } ∧
    ¬ subtrees [MapValue, LongValue] [{ xlen := 1, xoff := 2 }, { uval := 1 }] (2 * 1) 1
        (0 + 2) ∧
    preprocess_msgpack map16_doc
        = .ok { n_items := 3, typeid := [MapValue, LongValue, LongValue],
                value := [{ xlen := 1, xoff := 3 }, { uval := 1 }, { uval := 2 }] } := by
  decide

/-- C6 (the code departs from the claim). A `fixext 1` element has one data
byte, so the claim asks for `xlen = 2` and for three consumed bytes. The switch
writes `xlen = 1` and moves the cursor two bytes on, so inside an array the
data byte `7` is decoded as the next element and the nil that follows is never
read. The `ext 16` case is one short in the same way, while the sibling cases
`fixext 4` and `ext 8` count the subtype byte in. -/
theorem fixext1_length_is_one_short :
    parse fixext1_in_array 1 = .item ExtValue { xlen := 1, xoff := 3 } 3 ∧
    preprocess_msgpack fixext1_in_array
        = .ok { n_items := 3, typeid := [ArrayValue, ExtValue, LongValue],
                value := [{ xlen := 2, xoff := 3 }, { xlen := 1, xoff := 3 }, { uval := 7 }] } ∧
    parse [0xc8, 0, 1, 5, 7] 0 = .item ExtValue { xlen := 1, xoff := 2 } 4 ∧
    parse [0xd6, 5, 1, 2, 3, 4] 0 = .item ExtValue { xlen := 5, xoff := 5 } 6 ∧
    parse [0xc7, 1, 5, 7] 0 = .item ExtValue { xlen := 2, xoff := 2 } 4 := by
  decide

/-- C8 (the code departs from the claim). The input ends inside a `fixext 1`
element (its data byte is missing), which is case (c) of the claim, yet the
decoder returns one slot instead of the failure sentinel. The same input with
a `fixext 4` header, whose length the switch gets right, is rejected. -/
theorem cut_fixext1_is_accepted :
    preprocess_msgpack fixext1_cut
        = .ok { n_items := 1, typeid := [ExtValue], value := [{ xlen := 1, xoff := 1 }] } ∧
    preprocess_msgpack [0xd6, 5] = .error .underflow ∧
    preprocess_msgpack [] = .error .underflow ∧
    preprocess_msgpack [0xc1] = .error .c1 := by
  decide

/-- C2 (amended). For every input shorter than `2 ^ 32` bytes on which the
decoder succeeds and every slot `i` tagged Array: `xoff` is at least `1`,
`i + xoff` does not pass `n_items`, and the slots `[i + 1, i + xoff)` are
exactly `xlen` complete subtrees in preorder. -/
theorem array_sibling_skip (inp : List Byte) (hms : inp.length < 2 ^ 32) (d : Decoded)
    (h : preprocess_msgpack inp = .ok d) (i : Nat) (hi : i < d.n_items)
    (ht : d.typeid.getD i 0 = ArrayValue) :
    1 ≤ (d.value.getD i {}).xoff ∧ i + (d.value.getD i {}).xoff ≤ d.n_items ∧
      subtrees d.typeid d.value (d.value.getD i {}).xlen (i + 1)
        (i + (d.value.getD i {}).xoff) := by
  obtain ⟨g1, g2, g3⟩ := (preprocess_final hms h).good i (Nat.zero_le _) hi (Or.inl ht)
  exact ⟨g1, g2, g3 ht⟩

/-- The array invariant at the input `[0x92, 0x01, 0xc0]`, slot `0`. -/
theorem array_sibling_skip_witness :
    1 ≤ 3 ∧ 0 + 3 ≤ 3 ∧
      subtrees [ArrayValue, LongValue, NilValue]
        [{ xlen := 2, xoff := 3 }, { uval := 1 }, {}] 2 (0 + 1) (0 + 3) :=
  array_sibling_skip [0x92, 0x01, 0xc0] (by decide)
    { n_items := 3, typeid := [ArrayValue, LongValue, NilValue],
      value := [{ xlen := 2, xoff := 3 }, { uval := 1 }, {}] } (by decide) 0 (by decide)
    (by decide)

/-- C4 (amended). For every input shorter than `2 ^ 32` bytes on which the
decoder succeeds, `n_items` is at least `1` and one step over a whole subtree
from slot `0` lands on `n_items`: `n_items = 1` when slot `0` is not a
container header and `n_items = values[0].xoff` when it is. -/
theorem one_top_level_subtree (inp : List Byte) (hms : inp.length < 2 ^ 32) (d : Decoded)
    (h : preprocess_msgpack inp = .ok d) :
    1 ≤ d.n_items ∧ 0 + subtree_size d.typeid d.value 0 = d.n_items ∧
      (¬ is_container (d.typeid.getD 0 0) → d.n_items = 1) ∧
      (is_container (d.typeid.getD 0 0) → d.n_items = (d.value.getD 0 {}).xoff) := by
  obtain ⟨t1, t2⟩ := (preprocess_final hms h).top
  simp only [subtrees] at t2
  refine ⟨by omega, t2, fun hc => ?_, fun hc => ?_⟩
  · rw [← t2, Nat.zero_add]; unfold subtree_size; rw [if_neg hc]
  · rw [← t2, Nat.zero_add]; unfold subtree_size; rw [if_pos hc]

/-- The top-level subtree property at the input `[0x91, 0x01]`. -/
theorem one_top_level_subtree_witness :
    1 ≤ 2 ∧ 0 + subtree_size [ArrayValue, LongValue] [{ xlen := 1, xoff := 2 }, { uval := 1 }] 0 = 2 ∧
      (¬ is_container ([ArrayValue, LongValue].getD 0 0) → 2 = 1) ∧
      (is_container ([ArrayValue, LongValue].getD 0 0) →
        2 = (([{ xlen := 1, xoff := 2 }, { uval := 1 }] : List Value).getD 0 {}).xoff) :=
  one_top_level_subtree [0x91, 0x01] (by decide)
    { n_items := 2, typeid := [ArrayValue, LongValue],
      value := [{ xlen := 1, xoff := 2 }, { uval := 1 }] } (by decide)

/-- C7. For every input of length `ms < 2 ^ 32` on which the decoder succeeds
and every slot tagged Str, Bin or Ext: the slot was written by the `switch` at
some element offset `mi`, its `xoff` is the number of input bytes after the
element's length prefix, `xlen ≤ xoff ≤ ms`, and so the byte range
`[ms - xoff, ms - xoff + xlen)` lies inside the input. -/
theorem payload_offsets_resolve (inp : List Byte) (hms : inp.length < 2 ^ 32) (d : Decoded)
    (h : preprocess_msgpack inp = .ok d) (i : Nat) (hi : i < d.n_items)
    (ht : is_payload (d.typeid.getD i 0)) :
    (∃ mi mi', mi < inp.length ∧
        parse inp mi = .item (d.typeid.getD i 0) (d.value.getD i {}) mi' ∧
        (d.value.getD i {}).xoff = inp.length - (mi + hdr_len (rd inp mi))) ∧
      (d.value.getD i {}).xlen ≤ (d.value.getD i {}).xoff ∧
      (d.value.getD i {}).xoff ≤ inp.length ∧
      inp.length - (d.value.getD i {}).xoff + (d.value.getD i {}).xlen ≤ inp.length := by
  have hnc : ¬ is_container (d.typeid.getD i 0) := by
    unfold is_payload at ht
    unfold is_container
    rcases ht with ht | ht | ht <;> rw [ht] <;> decide
  obtain ⟨mi, mi', hmi, hp⟩ := ((preprocess_final hms h).prov i hi).1 hnc
  obtain ⟨p1, p2, -⟩ := parse_payload hp ht
  have hx : (d.value.getD i {}).xoff = inp.length - (mi + hdr_len (rd inp mi)) := by
    rw [p1]
    exact Nat.mod_eq_of_lt (by omega)
  exact ⟨⟨mi, mi', hmi, hp, hx⟩, by omega, by omega, by omega⟩

/-- The payload offset property at the fixstr `[0xa2, 0x61, 0x62]`. -/
theorem payload_offsets_resolve_witness :
    (∃ mi mi', mi < 3 ∧
        parse [0xa2, 0x61, 0x62] mi = .item StringValue { xlen := 2, xoff := 2 } mi' ∧
        2 = 3 - (mi + hdr_len (rd [0xa2, 0x61, 0x62] mi))) ∧
      2 ≤ 2 ∧ 2 ≤ 3 ∧ 3 - 2 + 2 ≤ 3 :=
  payload_offsets_resolve [0xa2, 0x61, 0x62] (by decide)
    { n_items := 1, typeid := [StringValue], value := [{ xlen := 2, xoff := 2 }] } (by decide)
    0 (by decide) (by decide)

/-- C2 (as stated, it fails). An `array 32` of `2 ^ 32 - 1` nils is decoded
successfully into `2 ^ 32` slots; slot `0` is tagged Array, but its `xoff` is
the distance `2 ^ 32` truncated to `uint32_t`, that is `0`, so `xoff ≥ 1`
does not hold. -/
theorem array_xoff_wraps_at_4GiB :
    ¬ (∀ d : Decoded, preprocess_msgpack (array32_of_nils (2 ^ 32 - 1)) = .ok d →
        ∀ i, i < d.n_items → d.typeid.getD i 0 = ArrayValue →
          1 ≤ (d.value.getD i {}).xoff ∧ i + (d.value.getD i {}).xoff ≤ d.n_items ∧
            subtrees d.typeid d.value (d.value.getD i {}).xlen (i + 1)
              (i + (d.value.getD i {}).xoff)) := by
  intro h
  have h1 := (h _ preprocess_array32_of_nils_4GiB 0 (by decide) rfl).1
  exact absurd h1 (by decide)

/-- C4 (as stated, it fails). On the same input the decoder returns
`n_items = 2 ^ 32` while slot `0` is an Array header with `xoff = 0`: the
count is neither `1` nor `values[0].xoff`. -/
theorem top_level_xoff_wraps_at_4GiB :
    ¬ (∀ d : Decoded, preprocess_msgpack (array32_of_nils (2 ^ 32 - 1)) = .ok d →
        1 ≤ d.n_items ∧ (¬ is_container (d.typeid.getD 0 0) → d.n_items = 1) ∧
          (is_container (d.typeid.getD 0 0) → d.n_items = (d.value.getD 0 {}).xoff)) := by
  intro h
  have h1 := (h _ preprocess_array32_of_nils_4GiB).2.2 (Or.inl rfl)
  exact absurd h1 (by decide)

/-- C9 (amended). For every input `x` on which the decoder succeeds and every
byte sequence `t` with `x.length + t.length < 2 ^ 32`, the decoder succeeds on
`x ++ t` with the same `n_items`, the same tags and the same values, except
that the `xoff` of each Str, Bin and Ext slot grows by `t.length`. -/
theorem trailing_bytes_are_ignored (x t : List Byte) (hlen : x.length + t.length < 2 ^ 32)
    (d : Decoded) (h : preprocess_msgpack x = .ok d) :
    preprocess_msgpack (x ++ t)
      = .ok { n_items := d.n_items, typeid := d.typeid,
              value := shift_payload t.length d.typeid d.value } := by
  have h1 := run_append x t hlen _ _ (Inv.init x) h
  have h2 := run_fuel_mono (x ++ t) _ _ h1 ((x ++ t).length + 1)
    (by rw [List.length_append]; omega)
  exact h2

/-- Two trailing bytes after the document `[0x92, 0xa1, 0x61, 0x01]`. -/
theorem trailing_bytes_are_ignored_witness :
    preprocess_msgpack ([0x92, 0xa1, 0x61, 0x01] ++ [0xc1, 0xff])
      = .ok { n_items := 3, typeid := [ArrayValue, StringValue, LongValue],
              value := shift_payload 2 [ArrayValue, StringValue, LongValue]
                [{ xlen := 2, xoff := 3 }, { xlen := 1, xoff := 2 }, { uval := 1 }] } :=
  trailing_bytes_are_ignored [0x92, 0xa1, 0x61, 0x01] [0xc1, 0xff] (by decide)
    { n_items := 3, typeid := [ArrayValue, StringValue, LongValue],
      value := [{ xlen := 2, xoff := 3 }, { xlen := 1, xoff := 2 }, { uval := 1 }] } (by decide)

/-- C9 (as stated, it fails). The one byte input `[0xa0]` (an empty fixstr)
decodes to a Str slot with `xoff = 0`. Followed by `2 ^ 32` more bytes it
still decodes to a Str slot with `xoff = 0`, because the distance `2 ^ 32` is
truncated to `uint32_t`: the `xoff` did not grow by the length of the tail. -/
theorem payload_xoff_wraps_with_4GiB_tail :
    ¬ (∀ d : Decoded, preprocess_msgpack [0xa0] = .ok d →
        preprocess_msgpack ([0xa0] ++ tail_4GiB)
          = .ok { n_items := d.n_items, typeid := d.typeid,
                  value := shift_payload tail_4GiB.length d.typeid d.value }) := by
  intro h
  have h1 := h _ (preprocess_empty_fixstr [])
  rw [List.singleton_append, preprocess_empty_fixstr tail_4GiB, tail_4GiB_length] at h1
  simp only [Except.ok.injEq, Decoded.mk.injEq, true_and] at h1
  revert h1
  decide

/-- C5. For every integer wire form `w` (positive fixint, negative fixint,
uint 8/16/32/64, int 8/16/32/64 with a big-endian body) at any element offset
of any input, the `switch` writes the tag LongInt and the 64 bit word whose
`ival` is the integer `w` denotes, except when `w` is a uint 64 above
`2 ^ 63 - 1`: then it writes UlongInt with `uval` equal to that value. The
whole decoder does so for `w` as the top-level element, and the `switch`
writes UlongInt for no other input. -/
theorem integer_forms_decode (w : IntWire) (pre rest : List Byte) :
    parse (pre ++ (w.bytes ++ rest)) pre.length
      = .item (if 2 ^ 63 - 1 < w.denote then UlongValue else LongValue)
          { uval := word64 w.denote } (pre.length + w.bytes.length) ∧
    preprocess_msgpack (w.bytes ++ rest)
      = .ok { n_items := 1,
              typeid := [if 2 ^ 63 - 1 < w.denote then UlongValue else LongValue],
              value := [{ uval := word64 w.denote }] } ∧
    (w.denote ≤ 2 ^ 63 - 1 → Value.ival { uval := word64 w.denote } = w.denote) ∧
    (2 ^ 63 - 1 < w.denote →
      (∃ b0 b1 b2 b3 b4 b5 b6 b7, w = .uint64 b0 b1 b2 b3 b4 b5 b6 b7) ∧
        (word64 w.denote : Int) = w.denote) ∧
    (∀ (inp : List Byte) (mi : Nat) (v : Value) (mi' : Nat),
      parse inp mi = .item UlongValue v mi' →
        rd inp mi = 0xcf ∧ v.uval = net2host64 inp (mi + 1) ∧ 2 ^ 63 - 1 < v.uval) := by
  obtain ⟨r1, r2, r3⟩ := w.denote_range
  have hp := parse_intwire w pre rest
  have hp0 := parse_intwire w [] rest
  rw [IntWire.tag] at hp hp0
  simp only [List.nil_append, List.length_nil, Nat.zero_add] at hp0
  refine ⟨hp, preprocess_single_item (w.bytes_ne_nil rest) hp0, fun h => ?_, fun h => ⟨r3 h, ?_⟩,
    fun inp mi v mi' h => parse_ulong_only h⟩
  · unfold Value.ival word64
    simp only
    split_ifs <;> omega
  · unfold word64
    omega

/-- C10. For every slot tagged LongInt whose 64 bit word is `val.uval` (signed
value `val.ival`), one pass of the encoder loop appends exactly the shortest
integer form of that value in the family chosen by its sign, `create_msgpack`
on that single slot returns exactly those bytes, and decoding them yields one
LongInt slot holding the same word, hence the same signed value. -/
theorem long_int_shortest_form (val : Value) (h : val.uval < 2 ^ 64) (junk : Nat → Byte)
    (bank1 bank2 copy_from out : List Byte) :
    emit junk bank1 bank2 copy_from out LongValue val
      = .ok (out ++ shortest_int val.ival, copy_from) ∧
    create_msgpack junk 1 [LongValue] [val] bank1 bank2 = .ok (shortest_int val.ival) ∧
    preprocess_msgpack (shortest_int val.ival)
      = .ok { n_items := 1, typeid := [LongValue], value := [{ uval := val.uval }] } ∧
    Value.ival { uval := val.uval } = val.ival := by
  obtain ⟨r1, r2, r3⟩ := val.ival_range h
  have he : ∀ cf o, emit junk bank1 bank2 cf o LongValue val
      = .ok (o ++ shortest_int val.ival, cf) := by
    intro cf o
    simp [emit, check_buf, emit_long_shortest val h]
  refine ⟨he _ _, ?_, ?_, rfl⟩
  · simp [create_msgpack, encode_loop, he]
  · obtain ⟨w, hb, hd⟩ := shortest_int_wire val.ival r1 r2
    have hp := parse_intwire w [] []
    rw [IntWire.tag, if_neg (by omega), hd, r3, List.nil_append, List.append_nil, hb] at hp
    refine preprocess_single_item ?_ hp
    rw [← hb]
    cases w <;> simp [IntWire.bytes]

/-- The shortest form of `-200`, held as the word `2 ^ 64 - 200`. -/
theorem long_int_shortest_form_witness :
    emit (fun _ => 0) [] [] [] [0xc0] LongValue { uval := 2 ^ 64 - 200 }
      = .ok ([0xc0] ++ shortest_int (Value.ival { uval := 2 ^ 64 - 200 }), []) ∧
    create_msgpack (fun _ => 0) 1 [LongValue] [{ uval := 2 ^ 64 - 200 }] [] []
      = .ok (shortest_int (Value.ival { uval := 2 ^ 64 - 200 })) ∧
    preprocess_msgpack (shortest_int (Value.ival { uval := 2 ^ 64 - 200 }))
      = .ok { n_items := 1, typeid := [LongValue], value := [{ uval := 2 ^ 64 - 200 }] } ∧
    Value.ival { uval := ({ uval := 2 ^ 64 - 200 } : Value).uval }
      = Value.ival { uval := 2 ^ 64 - 200 } :=
  long_int_shortest_form { uval := 2 ^ 64 - 200 } (by decide) (fun _ => 0) [] [] [] [0xc0]

/-- C11 (amended). For every 64 bit word `val.uval ≤ 2 ^ 63 - 1` the encoder
emits the same bytes whether the slot is tagged LongInt or UlongInt, in one
loop pass and for `create_msgpack` on the single slot. -/
theorem source_tag_irrelevant_below_2_63 (val : Value) (h : val.uval ≤ 2 ^ 63 - 1)
    (junk : Nat → Byte) (bank1 bank2 copy_from out : List Byte) :
    emit junk bank1 bank2 copy_from out LongValue val
      = emit junk bank1 bank2 copy_from out UlongValue val ∧
    create_msgpack junk 1 [LongValue] [val] bank1 bank2
      = create_msgpack junk 1 [UlongValue] [val] bank1 bank2 := by
  have he : ∀ cf o, emit junk bank1 bank2 cf o LongValue val
      = emit junk bank1 bank2 cf o UlongValue val := by
    intro cf o
    rw [emit_long_tag, emit_ulong_tag, emit_long, if_neg (by omega)]
  refine ⟨he _ _, ?_⟩
  simp [create_msgpack, encode_loop, he]

/-- The word `5` under both tags. -/
theorem source_tag_irrelevant_below_2_63_witness :
    emit (fun _ => 0) [] [] [] [] LongValue { uval := 5 }
      = emit (fun _ => 0) [] [] [] [] UlongValue { uval := 5 } ∧
    create_msgpack (fun _ => 0) 1 [LongValue] [{ uval := 5 }] [] []
      = create_msgpack (fun _ => 0) 1 [UlongValue] [{ uval := 5 }] [] [] :=
  source_tag_irrelevant_below_2_63 { uval := 5 } (by decide) (fun _ => 0) [] [] [] []

/-- C11 (as stated, it fails). For the word `2 ^ 64 - 1` the tag LongInt gives
the one byte negative fixint `0xff`, the tag UlongInt gives the nine bytes of
a uint 64. -/
theorem source_tag_matters_above_2_63 :
    create_msgpack (fun _ => 0) 1 [LongValue] [{ uval := 2 ^ 64 - 1 }] [] [] = .ok [0xff] ∧
    create_msgpack (fun _ => 0) 1 [UlongValue] [{ uval := 2 ^ 64 - 1 }] [] []
      = .ok [0xcf, 0xff, 0xff, 0xff, 0xff, 0xff, 0xff, 0xff, 0xff] ∧
    create_msgpack (fun _ => 0) 1 [LongValue] [{ uval := 2 ^ 64 - 1 }] [] []
      ≠ create_msgpack (fun _ => 0) 1 [UlongValue] [{ uval := 2 ^ 64 - 1 }] [] [] := by
  decide

/-- C12 (the code departs from the claim). A Str slot of 256 bytes that
resolve in `bank1` calls for the header `0xda 0x01 0x00`. The str 16 branch
stores `0xda` at `out[1]` and then the length over it, so the first byte of
the output is whatever the buffer held (`junk 0`); with a zeroed buffer the
output does not start with `0xda`. The fixstr branch writes its opcode at
`out[0]`. -/
theorem str16_opcode_is_not_written (junk : Nat → Byte) (bank2 : List Byte) :
    create_msgpack junk 1 [StringValue] [{ xlen := 256, xoff := 256 }] bank_256 bank2
      = .ok (junk 0 :: 0x01 :: 0x00 :: bank_256) ∧
    str_header 256 = [0xda, 0x01, 0x00] ∧
    create_msgpack (fun _ => 0) 1 [StringValue] [{ xlen := 256, xoff := 256 }] bank_256 bank2
      ≠ .ok (str_header 256 ++ bank_256) ∧
    create_msgpack junk 1 [StringValue] [{ xlen := 2, xoff := 2 }] [0x61, 0x62] bank2
      = .ok (str_header 2 ++ [0x61, 0x62]) := by
  have h : ∀ j : Nat → Byte,
      create_msgpack j 1 [StringValue] [{ xlen := 256, xoff := 256 }] bank_256 bank2
        = .ok (j 0 :: 0x01 :: 0x00 :: bank_256) := by
    intro j
    have he := emit_str16 j bank_256 bank2 [] { xlen := 256, xoff := 256 } (by decide)
      (by decide) (Nat.le_refl _) (by rw [bank_256_length])
    rw [payload_bytes_all bank_256 _ bank_256_length.symm bank_256_length.symm] at he
    exact create_single he
  refine ⟨h junk, by decide, ?_, rfl⟩
  rw [h]
  intro hc
  injection hc with hc
  injection hc with hc
  revert hc
  decide


/-- C13 (the code departs from the claim). An Ext slot with `xlen = 9` (subtype
and eight data bytes) that resolves in `bank1` calls for the fixext 8 opcode
`0xd7`; the branch writes `0xd5`, the opcode of fixext 2. The branches for
`xlen = 5` and `xlen = 17` and the ext 8 branch write the headers the claim
names. -/
theorem fixext8_header_is_fixext2 (junk : Nat → Byte) (bank2 : List Byte) :
    create_msgpack junk 1 [ExtValue] [{ xlen := 9, xoff := 9 }] [0, 1, 2, 3, 4, 5, 6, 7, 8] bank2
      = .ok (0xd5 :: [0, 1, 2, 3, 4, 5, 6, 7, 8]) ∧
    ext_header 9 = [0xd7] ∧
    create_msgpack junk 1 [ExtValue] [{ xlen := 9, xoff := 9 }] [0, 1, 2, 3, 4, 5, 6, 7, 8] bank2
      ≠ .ok (ext_header 9 ++ [0, 1, 2, 3, 4, 5, 6, 7, 8]) ∧
    create_msgpack junk 1 [ExtValue] [{ xlen := 5, xoff := 5 }] [0, 1, 2, 3, 4] bank2
      = .ok (ext_header 5 ++ [0, 1, 2, 3, 4]) ∧
    create_msgpack junk 1 [ExtValue] [{ xlen := 4, xoff := 4 }] [0, 1, 2, 3] bank2
      = .ok (ext_header 4 ++ [0, 1, 2, 3]) := by
  have h : create_msgpack junk 1 [ExtValue] [{ xlen := 9, xoff := 9 }]
      [0, 1, 2, 3, 4, 5, 6, 7, 8] bank2 = .ok (0xd5 :: [0, 1, 2, 3, 4, 5, 6, 7, 8]) := rfl
  refine ⟨h, by decide, ?_, rfl, rfl⟩
  rw [h]
  decide

/-- C14 (the code departs from the claim). The output buffer holds `0xda` at
offset 0 and zero elsewhere, `bank1` holds 256 bytes and `bank2 = [0xc3]`.
The CopyCmd slot `{xlen := 1, xoff := 1}` alone emits no header and exactly
the byte `0xc3` of `bank2`. A Str slot of 256 bytes alone gives the bytes
`0xda 0x01 0x00` and its payload. With the CopyCmd slot put before it the Str
slot starts at offset 1 and gives `0x00 0x01 0x00` and its payload: the bytes
of the other element change, because the str 16 branch never writes its
opcode byte and the byte the buffer held at the slot's offset stays. -/
theorem copy_cmd_changes_later_str16 :
    create_items da_then_zero [(CopyCommand, { xlen := 1, xoff := 1 })] bank_256 [0xc3]
      = .ok [0xc3] ∧
    create_items da_then_zero [(StringValue, { xlen := 256, xoff := 256 })] bank_256 [0xc3]
      = .ok (0xda :: 0x01 :: 0x00 :: bank_256) ∧
    create_items da_then_zero
        ([(CopyCommand, { xlen := 1, xoff := 1 })] ++
          [(StringValue, { xlen := 256, xoff := 256 })]) bank_256 [0xc3]
      = .ok ([0xc3] ++ 0x00 :: 0x01 :: 0x00 :: bank_256) ∧
    create_items da_then_zero
        ([(CopyCommand, { xlen := 1, xoff := 1 })] ++
          [(StringValue, { xlen := 256, xoff := 256 })]) bank_256 [0xc3]
      ≠ .ok ([0xc3] ++ 0xda :: 0x01 :: 0x00 :: bank_256) := by
  have hc : encode_loop da_then_zero bank_256 [0xc3]
      [(CopyCommand, { xlen := 1, xoff := 1 })] bank_256 [] = .ok [0xc3] := rfl
  have h0 : encode_loop da_then_zero bank_256 [0xc3] [] bank_256 [] = .ok [] := rfl
  have hs : ∀ out, emit da_then_zero bank_256 [0xc3] bank_256 out StringValue
      { xlen := 256, xoff := 256 }
        = .ok (out ++ da_then_zero out.length :: host2net16 256 ++ bank_256, bank_256) := by
    intro out
    have he := emit_str16 da_then_zero bank_256 [0xc3] out { xlen := 256, xoff := 256 }
      (by decide) (by decide) (Nat.le_refl _) (by rw [bank_256_length])
    rw [payload_bytes_all bank_256 _ bank_256_length.symm bank_256_length.symm] at he
    exact he
  have h3 : create_items da_then_zero
      ([(CopyCommand, { xlen := 1, xoff := 1 })] ++
        [(StringValue, { xlen := 256, xoff := 256 })]) bank_256 [0xc3]
        = .ok ([0xc3] ++ 0x00 :: 0x01 :: 0x00 :: bank_256) := by
    rw [create_items_splice [] hc (hs [0xc3])]
    rfl
  refine ⟨by rw [create_items_eq]; exact hc, ?_, h3, ?_⟩
  · exact (@create_items_splice _ _ _ [] _ _ _ _ [] h0 (hs [])).trans rfl
  · rw [h3]
    intro h
    injection h with h
    injection h with _ h
    injection h with h
    revert h
    decide

/-- C17. An Array slot with count `xlen` appends the single byte `0x90 + xlen`
when `xlen ≤ 15`, `0xdc` and the 2 byte big-endian count when `xlen ≤ 65535`,
else `0xdd` and the 4 byte big-endian count, and nothing else; a Map slot does
the same with `0x80`, `0xde` and `0xdf`. This holds in one loop pass (which
leaves `copy_from` as it was), for `create_msgpack` on the single slot, and at
any position of an item sequence. -/
theorem container_headers_on_encode (junk : Nat → Byte) (b1 b2 : List Byte) (v : Value) :
    (∀ cf out, emit junk b1 b2 cf out ArrayValue v = .ok (out ++ array_header v.xlen, cf)) ∧
    (∀ cf out, emit junk b1 b2 cf out MapValue v = .ok (out ++ map_header v.xlen, cf)) ∧
    create_msgpack junk 1 [ArrayValue] [v] b1 b2 = .ok (array_header v.xlen) ∧
    create_msgpack junk 1 [MapValue] [v] b1 b2 = .ok (map_header v.xlen) ∧
    (∀ pre post o1, encode_loop junk b1 b2 pre b1 [] = .ok o1 →
      create_items junk (pre ++ (ArrayValue, v) :: post) b1 b2
        = encode_loop junk b1 b2 post b1 (o1 ++ array_header v.xlen) ∧
      create_items junk (pre ++ (MapValue, v) :: post) b1 b2
        = encode_loop junk b1 b2 post b1 (o1 ++ map_header v.xlen)) ∧
    array_header 3 = [0x93] ∧ array_header 16 = [0xdc, 0, 16] ∧
    array_header 65536 = [0xdd, 0, 1, 0, 0] ∧
    map_header 3 = [0x83] ∧ map_header 16 = [0xde, 0, 16] ∧
    map_header 65536 = [0xdf, 0, 1, 0, 0] := by
  refine ⟨fun cf out => emit_array_header junk b1 b2 cf out v,
    fun cf out => emit_map_header junk b1 b2 cf out v, ?_, ?_, ?_,
    by decide, by decide, by decide, by decide, by decide, by decide⟩
  · have := create_single (emit_array_header junk b1 b2 b1 [] v)
    rwa [List.nil_append] at this
  · have := create_single (emit_map_header junk b1 b2 b1 [] v)
    rwa [List.nil_append] at this
  · intro pre post o1 hpre
    exact ⟨create_items_splice post hpre (emit_array_header junk b1 b2 b1 o1 v),
      create_items_splice post hpre (emit_map_header junk b1 b2 b1 o1 v)⟩

/-- C19 (as stated, it fails). One CopyCmd slot with `xlen = 0` and
`bank2 = [0xc3]` is encoded successfully into zero bytes, fewer than
`nitems = 1`. -/
theorem empty_copy_cmd_emits_no_byte :
    create_msgpack (fun _ => 0) 1 [CopyCommand] [{ xlen := 0, xoff := 1 }] [] [0xc3]
      = .ok [] ∧
    ¬ (1 ≤ ([] : List Byte).length) := by
  decide

/-- C19 (amended). When `create_msgpack` succeeds and every CopyCmd slot among
the first `nitems` copies at least one byte, the returned byte count is at
least `nitems`. -/
theorem output_length_ge_nitems (junk : Nat → Byte) (nitems : Nat) (typeid : List Nat)
    (value : List Value) (b1 b2 o : List Byte)
    (hc : ∀ i, i < nitems → typeid.getD i 0 = CopyCommand → 1 ≤ (value.getD i {}).xlen)
    (h : create_msgpack junk nitems typeid value b1 b2 = .ok o) : nitems ≤ o.length := by
  unfold create_msgpack at h
  split_ifs at h with hlen
  have hT : nitems ≤ typeid.length := by omega
  have hV : nitems ≤ value.length := by omega
  have := encode_loop_length junk b1 b2 _ [] o (fun p hp => by
    obtain ⟨i, hi, rfl⟩ := (mem_zip_take nitems typeid value hT hV p).mp hp
    exact hc i hi) h
  rw [length_zip_take hT hV, List.length_nil, Nat.zero_add] at this
  exact this

/-- The slots Nil and CopyCmd `{xlen := 1, xoff := 1}` with `bank2 = [0xc3]`
give the two bytes `[0xc0, 0xc3]`. -/
theorem output_length_ge_nitems_witness :
    create_msgpack (fun _ => 0) 2 [NilValue, CopyCommand] [{}, { xlen := 1, xoff := 1 }] []
        [0xc3] = .ok [0xc0, 0xc3] ∧ 2 ≤ ([0xc0, 0xc3] : List Byte).length :=
  ⟨by decide, output_length_ge_nitems (fun _ => 0) 2 [NilValue, CopyCommand]
    [{}, { xlen := 1, xoff := 1 }] [] [0xc3] [0xc0, 0xc3] (by
      intro i hi hc
      rcases i with _ | _ | i
      · exact absurd hc (by decide)
      · decide
      · omega) (by decide)⟩

/-- C20 (the code departs from the claim). The single slot Ext with `xlen = 2`
whose payload `[5, 7]` resolves in `bank1` is one subtree with `xlen ≥ 1`. The
encoder returns the fixext 1 element `[0xd4, 5, 7]`; the decoder succeeds on it
with one Ext slot, but with `xlen = 1`, so neither the `xlen` nor the payload
bytes are the ones encoded. -/
theorem ext_xlen_changes_in_roundtrip (junk : Nat → Byte) (bank2 : List Byte) :
    subtrees [ExtValue] [{ xlen := 2, xoff := 2 }] 1 0 1 ∧
    Resolves [5, 7] bank2 ExtValue { xlen := 2, xoff := 2 } ∧
    create_msgpack junk 1 [ExtValue] [{ xlen := 2, xoff := 2 }] [5, 7] bank2
      = .ok [0xd4, 5, 7] ∧
    preprocess_msgpack [0xd4, 5, 7]
      = .ok { n_items := 1, typeid := [ExtValue], value := [{ xlen := 1, xoff := 2 }] } ∧
    payload_bytes [0xd4, 5, 7] { xlen := 1, xoff := 2 } = [5] ∧
    payload_bytes [5, 7] { xlen := 2, xoff := 2 } = [5, 7] :=
  ⟨by decide, ⟨fun _ => by decide, fun h => absurd h (by decide)⟩, rfl, by decide, by decide,
    by decide⟩

/-- C21 (the code departs from the claim). The caller passes stock tag and
value arrays of four slots and the input is `[0xc1]`: decoding fails at
`error_c1` before any growth, and the cleanup passes the stock value array to
`free` (the stock tag array is not freed). The same holds for the empty input
(`error_underflow`). Without stock arrays the two blocks freed are the ones
the call allocated, and the cleanup of `create_msgpack` leaves its stock
buffer alone. -/
theorem stock_value_array_is_freed :
    preprocess_msgpack_mem [0xc1] 4 .stock_typeid .stock_value = .fail .c1 [.stock_value] ∧
    preprocess_msgpack_mem [] 4 .stock_typeid .stock_value
      = .fail .underflow [.stock_value] ∧
    preprocess_msgpack_mem [0xc1] 4 .null .null = .fail .c1 [.heap 0, .heap 1] ∧
    create_msgpack_mem [(NilValue, {}), (13, {})] 64 .stock_out = .fail [] ∧
    create_msgpack_mem [(NilValue, {}), (13, {})] 0 .null = .fail [.heap 0] := by
  decide

/-- C22 (the code departs from the claim). Heap case with hint `0`: one Str
slot of 1000 bytes that resolve in `bank1`. The block holds 128 bytes; the
label `copy_data` grows it once, to 192 bytes, and then copies 1000 bytes to
offset 3. Stock case: with a stock buffer of 0 bytes the first header byte is
stored outside the buffer, and with a stock buffer of 10 bytes the second of
two fixext 8 elements is stored at offset 10 of a block of 15 bytes. -/
theorem payload_copy_overruns_output (junk : Nat → Byte) (bank2 : List Byte) :
    Resolves bank_1000 bank2 StringValue { xlen := 1000, xoff := 1000 } ∧
    create_items junk [(StringValue, { xlen := 1000, xoff := 1000 })] bank_1000 bank2
      = .ok (junk 0 :: 0x03 :: 0xe8 :: bank_1000) ∧
    create_msgpack_mem [(StringValue, { xlen := 1000, xoff := 1000 })] 0 .null
      = .overrun 3 1000 192 ∧
    create_msgpack_mem [(NilValue, {})] 0 .stock_out = .overrun 0 1 0 ∧
    create_msgpack_mem
        [(ExtValue, { xlen := 9, xoff := 9 }), (ExtValue, { xlen := 9, xoff := 9 })] 10
        .stock_out
      = .overrun 10 10 15 := by
  refine ⟨⟨fun _ => ⟨Nat.le_refl _, by rw [bank_1000_length]⟩, fun h => absurd h (by decide)⟩,
    ?_, by decide, by decide, by decide⟩
  have he := emit_str16 junk bank_1000 bank2 [] { xlen := 1000, xoff := 1000 } (by decide)
    (by decide) (Nat.le_refl _) (by rw [bank_1000_length])
  rw [payload_bytes_all bank_1000 _ bank_1000_length.symm bank_1000_length.symm] at he
  have h0 : encode_loop junk bank_1000 bank2 [] bank_1000 [] = .ok [] := rfl
  exact @create_items_splice _ _ _ [] _ _ _ _ [] h0 he

/-- C23 (the code departs from the claim). Stock arrays of one slot and the
input `[0x91, 0xc0]` (an array of one nil): the second slot finds
`typeid == typeid_max`, the growth step computes `1 + 1 / 2 = 1` slots, and the
slot is stored at index 1 of arrays of 1 slot. Stock arrays of no slot
overrun on the first store. With two slots the same input is decoded, the
arrays growing to three slots. -/
theorem stock_capacity_one_overruns :
    preprocess_msgpack_mem [0x91, 0xc0] 1 .stock_typeid .stock_value = .slot_overrun 1 1 ∧
    preprocess_msgpack_mem [0xc0] 0 .stock_typeid .stock_value = .slot_overrun 0 0 ∧
    preprocess_msgpack_mem [0x91, 0xc0] 2 .stock_typeid .stock_value
      = .done ⟨2, [ArrayValue, NilValue], [⟨0, 1, 2⟩, {}]⟩ .stock_typeid .stock_value [] ∧
    preprocess_msgpack_mem [0x92, 0xc0, 0xc0] 2 .stock_typeid .stock_value
      = .done ⟨3, [ArrayValue, NilValue, NilValue], [⟨0, 2, 3⟩, {}, {}]⟩ (.heap 0) (.heap 1)
          [] := by
  decide

/-- C24 (the code departs from the claim). The output buffer holds `0xda` at
offset 0 and zero elsewhere. Alone, a Str slot of 256 bytes gives
`0xda 0x01 0x00` and the payload, its first byte being the one the buffer
held at offset 0; after a Nil slot the same slot starts at offset 1 and its
first byte is the zero the buffer held there. So the output for the
concatenation is not the two outputs one after the other. The `xoff` of an
Array or Map slot is not read. -/
theorem str16_bytes_depend_on_position (bank2 : List Byte) :
    create_items da_then_zero [(NilValue, ({} : Value))] bank_256 bank2 = .ok [0xc0] ∧
    create_items da_then_zero [(StringValue, { xlen := 256, xoff := 256 })] bank_256 bank2
      = .ok (0xda :: 0x01 :: 0x00 :: bank_256) ∧
    create_items da_then_zero
        ([(NilValue, ({} : Value))] ++ [(StringValue, { xlen := 256, xoff := 256 })]) bank_256 bank2
      = .ok (0xc0 :: 0x00 :: 0x01 :: 0x00 :: bank_256) ∧
    create_items da_then_zero
        ([(NilValue, ({} : Value))] ++ [(StringValue, { xlen := 256, xoff := 256 })]) bank_256 bank2
      ≠ .ok ([0xc0] ++ 0xda :: 0x01 :: 0x00 :: bank_256) ∧
    (∀ junk b1 cf out v x,
      emit junk b1 bank2 cf out ArrayValue (v.with_xoff x)
        = emit junk b1 bank2 cf out ArrayValue v ∧
      emit junk b1 bank2 cf out MapValue (v.with_xoff x)
        = emit junk b1 bank2 cf out MapValue v) := by
  have hn : encode_loop da_then_zero bank_256 bank2 [(NilValue, ({} : Value))] bank_256 [] = .ok [0xc0] :=
    rfl
  have hs : ∀ out, emit da_then_zero bank_256 bank2 bank_256 out StringValue
      { xlen := 256, xoff := 256 }
        = .ok (out ++ da_then_zero out.length :: host2net16 256 ++ bank_256, bank_256) := by
    intro out
    have he := emit_str16 da_then_zero bank_256 bank2 out { xlen := 256, xoff := 256 }
      (by decide) (by decide) (Nat.le_refl _) (by rw [bank_256_length])
    rw [payload_bytes_all bank_256 _ bank_256_length.symm bank_256_length.symm] at he
    exact he
  have h3 : create_items da_then_zero
      ([(NilValue, ({} : Value))] ++ [(StringValue, { xlen := 256, xoff := 256 })]) bank_256
        bank2
        = .ok (0xc0 :: 0x00 :: 0x01 :: 0x00 :: bank_256) := by
    rw [create_items_splice [] hn (hs [0xc0])]
    rfl
  refine ⟨by rw [create_items_eq]; exact hn, ?_, h3, ?_, ?_⟩
  · have h0 : encode_loop da_then_zero bank_256 bank2 [] bank_256 [] = .ok [] := rfl
    exact (@create_items_splice _ _ _ [] _ _ _ _ [] h0 (hs [])).trans rfl
  · rw [h3]
    intro hc
    injection hc with hc
    injection hc with _ hc
    injection hc with hc
    revert hc
    decide
  · intro junk b1 cf out v x
    constructor
    · rw [emit_array_header, emit_array_header]; rfl
    · rw [emit_map_header, emit_map_header]; rfl

end SchemaUtil
